import Mathlib

/-!
Chain abstraction core of the relay layer.

A shallow embedding of the batch block comparator (`protocol/chainlib/common.go`)
and of the base chain parser (`protocol/chainlib/base_chain_parser.go`), with the
properties of the written specification stated and proved over it.

Go maps are association lists read with `GoMap.get?` and written with
`GoMap.set`; signed 64-bit block numbers are integers (only comparisons are
performed on them, so no wrap-around can occur).
-/

namespace Lava

set_option autoImplicit false

/-! ## Requested blocks -/

/-- The block-number sentinels of `spectypes`. Their declarations are not part of
the source tree, so they are parameters of the development. -/
structure SentinelBlocks where
  NOT_APPLICABLE : Int
  LATEST_BLOCK : Int
  EARLIEST_BLOCK : Int
  PENDING_BLOCK : Int
  SAFE_BLOCK : Int
  FINALIZED_BLOCK : Int
  deriving DecidableEq, Repr

/-- What the data model says of the sentinels: they are negative, pairwise
distinct, and the five non-earliest ones are numbered in the order of their
freshness. -/
def SentinelBlocks.Ordered (c : SentinelBlocks) : Prop :=
  c.FINALIZED_BLOCK < c.SAFE_BLOCK ∧ c.SAFE_BLOCK < c.PENDING_BLOCK ∧
  c.PENDING_BLOCK < c.LATEST_BLOCK ∧ c.LATEST_BLOCK < c.NOT_APPLICABLE ∧
  c.NOT_APPLICABLE < 0 ∧ c.EARLIEST_BLOCK < 0 ∧
  c.EARLIEST_BLOCK ≠ c.NOT_APPLICABLE ∧ c.EARLIEST_BLOCK ≠ c.LATEST_BLOCK ∧
  c.EARLIEST_BLOCK ≠ c.PENDING_BLOCK ∧ c.EARLIEST_BLOCK ≠ c.SAFE_BLOCK ∧
  c.EARLIEST_BLOCK ≠ c.FINALIZED_BLOCK

instance (c : SentinelBlocks) : Decidable c.Ordered := by
  unfold SentinelBlocks.Ordered
  infer_instance

/-- The numbering -1 .. -6 of the sentinels used by the chain's spec types. -/
def chainSentinels : SentinelBlocks where
  NOT_APPLICABLE := -1
  LATEST_BLOCK := -2
  EARLIEST_BLOCK := -3
  PENDING_BLOCK := -4
  SAFE_BLOCK := -5
  FINALIZED_BLOCK := -6

/-- The closure `returnBigger` of `CompareRequestedBlockInBatch`. -/
def returnBigger (in_first in_second : Int) : Int × Int :=
  if in_first > in_second then (in_first, in_second) else (in_second, in_first)

/-- The function `CompareRequestedBlockInBatch` of `common.go`; the first argument is the value
of `spectypes.EARLIEST_BLOCK`. Returns `(latestCombinedBlock, earliestCombinedBlock)`. -/
def CompareRequestedBlockInBatch (EARLIEST_BLOCK : Int) (firstRequestedBlock second : Int) :
    Int × Int :=
  if firstRequestedBlock = EARLIEST_BLOCK then (second, firstRequestedBlock)
  else if second = EARLIEST_BLOCK then (firstRequestedBlock, second)
  else if firstRequestedBlock < 0 then
    if second < 0 then returnBigger firstRequestedBlock second
    else (firstRequestedBlock, second)
  else if second < 0 then (second, firstRequestedBlock)
  else returnBigger firstRequestedBlock second

/-- A requested block of the data model: a sentinel or a non-negative block number. -/
def IsRequestedBlock (c : SentinelBlocks) (x : Int) : Prop :=
  0 ≤ x ∨ x = c.NOT_APPLICABLE ∨ x = c.LATEST_BLOCK ∨ x = c.PENDING_BLOCK ∨
  x = c.SAFE_BLOCK ∨ x = c.FINALIZED_BLOCK ∨ x = c.EARLIEST_BLOCK

instance (c : SentinelBlocks) (x : Int) : Decidable (IsRequestedBlock c x) := by
  unfold IsRequestedBlock
  infer_instance

/-- The freshness order of the data model, written as it is worded there:
`NOT_APPLICABLE > LATEST > PENDING > SAFE > FINALIZED > numbers > EARLIEST`.
The first component is the class, the second the block number inside the class of
the non-negative numbers. -/
def freshness (c : SentinelBlocks) (x : Int) : Nat × Nat :=
  if x = c.NOT_APPLICABLE then (6, 0)
  else if x = c.LATEST_BLOCK then (5, 0)
  else if x = c.PENDING_BLOCK then (4, 0)
  else if x = c.SAFE_BLOCK then (3, 0)
  else if x = c.FINALIZED_BLOCK then (2, 0)
  else if x = c.EARLIEST_BLOCK then (0, 0)
  else (1, x.toNat)

/-- The relation `staleOrEq c x y`: block `x` is at most as fresh as block `y`. -/
def staleOrEq (c : SentinelBlocks) (x y : Int) : Prop :=
  (freshness c x).1 < (freshness c y).1 ∨
  ((freshness c x).1 = (freshness c y).1 ∧ (freshness c x).2 ≤ (freshness c y).2)

instance (c : SentinelBlocks) (x y : Int) : Decidable (staleOrEq c x y) := by
  unfold staleOrEq
  infer_instance

/-- The latest component of the comparison. -/
def latestOf (e a b : Int) : Int := (CompareRequestedBlockInBatch e a b).1

/-- The earliest component of the comparison. -/
def earliestOf (e a b : Int) : Int := (CompareRequestedBlockInBatch e a b).2

/-- Modelled from the spec: the loop that combines the requested blocks of a batch
(the JSON-RPC batch parser is not part of the source tree). Both components start
from the first element; each further element `x` replaces `latest` by the first
component of `Compare(latest, x)` and `earliest` by the second component of
`Compare(earliest, x)`. -/
def reduceBatch (e : Int) (first : Int) (rest : List Int) : Int × Int :=
  rest.foldl (fun acc x => (latestOf e acc.1 x, earliestOf e acc.2 x)) (first, first)

/-- The order the comparator realises on all integers, used in the proofs: the
class of a block (`EARLIEST_BLOCK` lowest, then the non-negative numbers, then the
other negative values) and, inside a class, the numeric order. -/
def batchClass (e x : Int) : Int :=
  if x = e then 0 else if x < 0 then 2 else 1

/-- The relation `batchLE e x y`: the comparator ranks `x` no higher than `y`. -/
def batchLE (e x y : Int) : Prop :=
  batchClass e x < batchClass e y ∨ (batchClass e x = batchClass e y ∧ x ≤ y)

/-! ## Go maps -/

/-- A Go map as an association list. `set` keeps at most one entry per key, so the
maps built by the code have pairwise distinct keys; ranging over the map visits the
entries in list order. -/
abbrev GoMap (K V : Type) := List (K × V)

/-- Reading `m[k]` with the comma-ok form: the value and whether the key is present. -/
def GoMap.get? {K V : Type} [DecidableEq K] : GoMap K V → K → Option V
  | [], _ => none
  | (k', v) :: rest, k => if k' = k then some v else GoMap.get? rest k

/-- Whether `k` is a key of the map. -/
def GoMap.contains {K V : Type} [DecidableEq K] (m : GoMap K V) (k : K) : Bool :=
  (m.get? k).isSome

/-- The assignment `m[k] = v`: replaces the value of an existing key, adds the entry
otherwise. -/
def GoMap.set {K V : Type} [DecidableEq K] : GoMap K V → K → V → GoMap K V
  | [], k, v => [(k, v)]
  | (k', v') :: rest, k, v => if k' = k then (k, v) :: rest else (k', v') :: GoMap.set rest k v

/-- The keys of the map. -/
def GoMap.keys {K V : Type} (m : GoMap K V) : List K := m.map Prod.fst

/-! ## Spec types -/

/-- The metadata (header) entry `pairingtypes.Metadata` of a relay. -/
structure Metadata where
  Name : String
  Value : String
  deriving DecidableEq, Repr

/-- Modelled from the spec: the enum `spectypes.Header_HeaderType`, declared outside
the source tree; a header is classified as `pass_send`, `pass_reply`, `pass_both`
or `pass_ignore`. -/
inductive Header_HeaderType where
  | pass_send
  | pass_reply
  | pass_both
  | pass_ignore
  deriving DecidableEq, Repr

/-- Modelled from the spec: the enum `spectypes.FUNCTION_TAG` of parse directives
and headers, declared outside the source tree. -/
inductive FUNCTION_TAG where
  | DISABLED
  | GET_BLOCKNUM
  | GET_BLOCK_BY_NUM
  | SET_LATEST_IN_METADATA
  | SET_LATEST_IN_BODY
  | VERIFICATION
  deriving DecidableEq, Repr

/-- A header directive `spectypes.Header` of an api collection. -/
structure Header where
  Name : String
  Kind : Header_HeaderType
  FunctionTag : FUNCTION_TAG
  deriving DecidableEq, Repr

/-- The data `spectypes.CollectionData` identifying an api collection; `Type_` is its
field `Type`, the connection type. -/
structure CollectionData where
  ApiInterface : String
  InternalPath : String
  Type_ : String
  AddOn : String
  deriving DecidableEq, Repr

/-- An extension `spectypes.Extension` declared by a collection: its name and the
block distance of its rule. -/
structure Extension where
  Name : String
  RuleBlock : Nat
  deriving DecidableEq, Repr

/-- An api `spectypes.Api` of a collection. -/
structure Api where
  Enabled : Bool
  Name : String
  ComputeUnits : Nat
  TimeoutMs : Nat
  HangingApi : Bool
  deriving DecidableEq, Repr

/-- A parse directive `spectypes.ParseDirective`. -/
structure ParseDirective where
  FunctionTag : FUNCTION_TAG
  FunctionTemplate : String
  ApiName : String
  deriving DecidableEq, Repr

/-- One expected value `spectypes.ParseValue` of a verification. -/
structure ParseValue where
  Extension : String
  ExpectedValue : String
  LatestDistance : Nat
  deriving DecidableEq, Repr

/-- A verification `spectypes.Verification` of a collection. -/
structure Verification where
  Name : String
  ParseDirective : ParseDirective
  Values : List ParseValue
  Severity : Nat
  deriving DecidableEq, Repr

/-- An api collection `spectypes.ApiCollection`. -/
structure ApiCollection where
  Enabled : Bool
  CollectionData : CollectionData
  Apis : List Api
  Headers : List Header
  ParseDirectives : List ParseDirective
  Extensions : List Extension
  Verifications : List Verification
  deriving DecidableEq, Repr

/-! ## Parser tables (`common.go`) -/

/-- The key `VerificationKey`. -/
structure VerificationKey where
  Extension : String
  Addon : String
  deriving DecidableEq, Repr

/-- The container `VerificationContainer`. -/
structure VerificationContainer where
  ConnectionType : String
  Name : String
  ParseDirective : ParseDirective
  Value : String
  LatestDistance : Nat
  Severity : Nat
  VerificationKey : VerificationKey
  deriving DecidableEq, Repr

/-- The container `TaggedContainer`. -/
structure TaggedContainer where
  Parsing : ParseDirective
  ApiCollection : ApiCollection
  deriving DecidableEq, Repr

/-- The key `CollectionKey`. -/
structure CollectionKey where
  ConnectionType : String
  InternalPath : String
  Addon : String
  deriving DecidableEq, Repr

/-- The container `ApiContainer`. -/
structure ApiContainer where
  api : Api
  collectionKey : CollectionKey
  deriving DecidableEq, Repr

/-- The key `ApiKey`. -/
structure ApiKey where
  Name : String
  ConnectionType : String
  deriving DecidableEq, Repr

/-- The key `extensionslib.ExtensionKey` of the configured-extensions table. -/
structure ExtensionKey where
  Extension : String
  ConnectionType : String
  InternalPath : String
  Addon : String
  deriving DecidableEq, Repr

/-- The state of `extensionslib.ExtensionParser`: the extension names the spec
declares and the table configured by the last policy. -/
structure ExtensionParser where
  AllowedExtensions : GoMap String Unit
  configuredExtensions : GoMap ExtensionKey Extension
  deriving DecidableEq, Repr

/-- Modelled from the spec: the setter `SetConfiguredExtensions` of the extension
parser (package `extensionslib`, outside the source tree); the table is replaced as
a whole on every policy update, never patched. -/
def ExtensionParser.SetConfiguredExtensions (ep : ExtensionParser)
    (configuredExtensions : GoMap ExtensionKey Extension) : ExtensionParser :=
  { ep with configuredExtensions := configuredExtensions }

/-! ## The base chain parser (`base_chain_parser.go`) -/

/-- The fields of `BaseChainParser` (the lock and the spec snapshot apart). -/
structure BaseChainParser where
  taggedApis : GoMap FUNCTION_TAG TaggedContainer
  serverApis : GoMap ApiKey ApiContainer
  apiCollections : GoMap CollectionKey ApiCollection
  headers : GoMap ApiKey Header
  verifications : GoMap VerificationKey (List VerificationContainer)
  allowedAddons : GoMap String Bool
  extensionParser : ExtensionParser
  active : Bool
  deriving DecidableEq, Repr

/-- The function `strings.ToLower` of the Go library: every character of the string is
replaced by its lower-case form. The mapping of characters, `unicode.ToLower` of the
library, is the first argument; on ASCII it is `Char.toLower`, which replaces the
letters `A` to `Z` and keeps every other character. -/
def strings.ToLower (lower : Char → Char) (s : String) : String :=
  String.mk (s.data.map lower)

/-- The result of `HandleHeaders`. -/
structure HandledHeaders where
  filteredHeaders : List Metadata
  overwriteRequestedBlock : String
  ignoredMetadata : List Metadata
  deriving DecidableEq, Repr

/-- One iteration of the loop of `HandleHeaders` over the incoming headers; `lower` is
the mapping of characters that `strings.ToLower` applies. -/
def HandleHeaders.step (lower : Char → Char) (bcp : BaseChainParser) (apiCollection : ApiCollection)
    (headersDirection : Header_HeaderType) (acc : HandledHeaders) (header : Metadata) :
    HandledHeaders :=
  let headerName := strings.ToLower lower header.Name
  let apiKey : ApiKey := ⟨headerName, apiCollection.CollectionData.Type_⟩
  match bcp.headers.get? apiKey with
  | none => acc
  | some headerDirective =>
    if headerDirective.Kind = headersDirection ∨
        headerDirective.Kind = Header_HeaderType.pass_both then
      { filteredHeaders := acc.filteredHeaders ++ [header]
        overwriteRequestedBlock :=
          if headerDirective.FunctionTag = FUNCTION_TAG.SET_LATEST_IN_METADATA then header.Value
          else acc.overwriteRequestedBlock
        ignoredMetadata := acc.ignoredMetadata }
    else if headerDirective.Kind = Header_HeaderType.pass_ignore then
      { acc with ignoredMetadata := acc.ignoredMetadata ++ [header] }
    else acc

/-- The method `BaseChainParser.HandleHeaders`. A nil slice and an empty slice are both the
empty list. -/
def HandleHeaders (lower : Char → Char) (bcp : BaseChainParser) (metadata : List Metadata)
    (apiCollection : ApiCollection) (headersDirection : Header_HeaderType) : HandledHeaders :=
  if metadata.length = 0 then ⟨[], "", []⟩
  else metadata.foldl (HandleHeaders.step lower bcp apiCollection headersDirection) ⟨[], "", []⟩

/-- The directive the header index holds for an incoming header, if any. -/
def directiveOf (lower : Char → Char)
    (bcp : BaseChainParser) (apiCollection : ApiCollection) (header : Metadata) :
    Option Header :=
  bcp.headers.get? ⟨strings.ToLower lower header.Name, apiCollection.CollectionData.Type_⟩

/-- Whether the header has a directive whose kind is the direction or `pass_both`. -/
def isForwarded (lower : Char → Char) (bcp : BaseChainParser) (apiCollection : ApiCollection)
    (headersDirection : Header_HeaderType) (header : Metadata) : Bool :=
  match directiveOf lower bcp apiCollection header with
  | none => false
  | some d => decide (d.Kind = headersDirection ∨ d.Kind = Header_HeaderType.pass_both)

/-- Whether the header has a directive tagged `SET_LATEST_IN_METADATA`. -/
def setsLatest (lower : Char → Char)
    (bcp : BaseChainParser) (apiCollection : ApiCollection) (header : Metadata) :
    Bool :=
  match directiveOf lower bcp apiCollection header with
  | none => false
  | some d => decide (d.FunctionTag = FUNCTION_TAG.SET_LATEST_IN_METADATA)

/-- Whether the header has a directive of kind `pass_ignore`. -/
def isIgnoreKind (lower : Char → Char)
    (bcp : BaseChainParser) (apiCollection : ApiCollection) (header : Metadata) :
    Bool :=
  match directiveOf lower bcp apiCollection header with
  | none => false
  | some d => decide (d.Kind = Header_HeaderType.pass_ignore)

/-- The message container `baseChainMessageContainer`, reduced to the api and the api
collection the message was matched to. -/
structure baseChainMessageContainer where
  api : Api
  apiCollection : ApiCollection
  deriving DecidableEq, Repr

/-- Modelled from the spec: the accessor `GetAddon` of a chain message (declared
outside the source tree): the addon of the api collection of the message. -/
def GetAddon (nodeMessage : baseChainMessageContainer) : String :=
  nodeMessage.apiCollection.CollectionData.AddOn

/-- The method `BaseChainParser.validateAddons`; reading a missing key of `allowedAddons` gives
`false`. -/
def validateAddons (bcp : BaseChainParser) (nodeMessage : baseChainMessageContainer) :
    Except String Unit :=
  let addon := GetAddon nodeMessage
  if addon ≠ "" then
    let allowed := (bcp.allowedAddons.get? addon).getD false
    if !allowed then Except.error "consumer policy does not allow addon"
    else Except.ok ()
  else Except.ok ()

/-- The method `BaseChainParser.Validate`. -/
def Validate (bcp : BaseChainParser) (nodeMessage : baseChainMessageContainer) :
    Except String Unit :=
  validateAddons bcp nodeMessage

/-- The service `epochstorage.EndpointService` a policy lists. -/
structure EndpointService where
  ApiInterface : String
  Addon : String
  Extension : String
  deriving DecidableEq, Repr

/-- The interface `PolicyInf`: the two queries of a policy, each of which may fail. -/
structure PolicyInf where
  GetSupportedAddons : String → Except String (List String)
  GetSupportedExtensions : String → Except String (List EndpointService)

/-- The method `BaseChainParser.BuildMapFromPolicyQuery`. -/
def BuildMapFromPolicyQuery (policy : PolicyInf) (chainId : String) (apiInterface : String) :
    Except String (GoMap String Unit) :=
  match policy.GetSupportedAddons chainId with
  | Except.error err => Except.error err
  | Except.ok addons =>
    match policy.GetSupportedExtensions chainId with
    | Except.error err => Except.error err
    | Except.ok extensions =>
      let services : GoMap String Unit := addons.foldl (fun m addon => m.set addon ()) []
      Except.ok (extensions.foldl (fun m consumerExtension =>
        if consumerExtension.ApiInterface = apiInterface then m.set consumerExtension.Extension ()
        else m) services)

/-- The inner loop of `SetPolicyFromAddonAndExtensionMap` over the extensions of one
collection. -/
def configureCollection (policyInformation : GoMap String Unit) (collectionKey : CollectionKey)
    (configuredExtensions : GoMap ExtensionKey Extension) (extensions : List Extension) :
    GoMap ExtensionKey Extension :=
  extensions.foldl (fun acc extension =>
    if extension.Name = "" then acc
    else if policyInformation.contains extension.Name then
      acc.set ⟨extension.Name, collectionKey.ConnectionType, collectionKey.InternalPath,
        collectionKey.Addon⟩ extension
    else acc) configuredExtensions

/-- The table `configuredExtensions` that `SetPolicyFromAddonAndExtensionMap` builds
from scratch by ranging over the api collections. -/
def buildConfiguredExtensions (apiCollections : GoMap CollectionKey ApiCollection)
    (policyInformation : GoMap String Unit) : GoMap ExtensionKey Extension :=
  apiCollections.foldl (fun acc entry =>
    configureCollection policyInformation entry.1 acc entry.2.Extensions) []

/-- The method `BaseChainParser.SetPolicyFromAddonAndExtensionMap`: the configured extensions are
rebuilt and handed to the extension parser, then every key of `allowedAddons` that
the policy names is set to `true`. -/
def SetPolicyFromAddonAndExtensionMap (bcp : BaseChainParser)
    (policyInformation : GoMap String Unit) : BaseChainParser :=
  { bcp with
    extensionParser := bcp.extensionParser.SetConfiguredExtensions
      (buildConfiguredExtensions bcp.apiCollections policyInformation)
    allowedAddons := bcp.allowedAddons.map (fun entry =>
      (entry.1, if policyInformation.contains entry.1 then true else entry.2)) }

/-- The method `BaseChainParser.SetPolicy`: the parser after the call and the returned error. -/
def SetPolicy (bcp : BaseChainParser) (policy : PolicyInf) (chainId : String)
    (apiInterface : String) : BaseChainParser × Option String :=
  match BuildMapFromPolicyQuery policy chainId apiInterface with
  | Except.error err => (bcp, some err)
  | Except.ok policyInformation =>
    (SetPolicyFromAddonAndExtensionMap bcp policyInformation, none)

/-! ## Separating addons and extensions, verifications -/

/-- The method `BaseChainParser.isAddon`: the string is a key of `allowedAddons`. -/
def isAddon (bcp : BaseChainParser) (addon : String) : Bool :=
  bcp.allowedAddons.contains addon

/-- Modelled from the spec: the test `AllowedExtension` of the extension parser
(package `extensionslib`, outside the source tree): the name is one of
`AllowedExtensions`. The parser only asks it about non-empty strings. -/
def ExtensionParser.AllowedExtension (ep : ExtensionParser) (extension : String) : Bool :=
  ep.AllowedExtensions.contains extension

/-- The method `BaseChainParser.isExtension`. -/
def isExtension (bcp : BaseChainParser) (extension : String) : Bool :=
  bcp.extensionParser.AllowedExtension extension

/-- The variables of the loop of `SeparateAddonsExtensions`. The error value `err` is
the chain of wrapped errors, written as the list of the strings reported invalid, in
the order they were met; the nil error is the empty list. -/
structure SeparatedSupported where
  checked : GoMap String Unit
  addons : List String
  extensions : List String
  err : List String
  deriving DecidableEq, Repr

/-- One iteration of the loop of `SeparateAddonsExtensions`. -/
def SeparateAddonsExtensions.step (bcp : BaseChainParser) (acc : SeparatedSupported)
    (supportedToCheck : String) : SeparatedSupported :=
  if acc.checked.contains supportedToCheck then acc
  else
    let checked := acc.checked.set supportedToCheck ()
    if isAddon bcp supportedToCheck then
      { acc with checked := checked, addons := acc.addons ++ [supportedToCheck] }
    else if supportedToCheck = "" then { acc with checked := checked }
    else if isExtension bcp supportedToCheck then
      { acc with checked := checked, extensions := acc.extensions ++ [supportedToCheck] }
    else { acc with checked := checked, err := acc.err ++ [supportedToCheck] }

/-- The method `BaseChainParser.SeparateAddonsExtensions`; the fields `addons`,
`extensions` and `err` of the result are the three returned values. -/
def SeparateAddonsExtensions (bcp : BaseChainParser) (supported : List String) :
    SeparatedSupported :=
  supported.foldl (SeparateAddonsExtensions.step bcp) ⟨[], [], [], []⟩

/-- The method `BaseChainParser.GetVerifications`: the returned verifications (nil is
the empty list) and the returned error. -/
def GetVerifications (bcp : BaseChainParser) (supported : List String) :
    List VerificationContainer × List String :=
  let separated := SeparateAddonsExtensions bcp supported
  if separated.err ≠ [] then ([], separated.err)
  else
    let extensions := if separated.extensions.length = 0 then [""] else separated.extensions
    let addons := separated.addons ++ [""]
    (addons.foldl (fun retVerifications addon =>
      extensions.foldl (fun retVerifications extension =>
        match bcp.verifications.get? ⟨extension, addon⟩ with
        | some verifications => retVerifications ++ verifications
        | none => retVerifications) retVerifications) [], [])

/-- The strings of a list in the order of their first occurrence, each once. -/
def firstOccurrences : List String → List String
  | [] => []
  | x :: xs => x :: (firstOccurrences xs).filter (fun y => decide (y ≠ x))

/-- Whether `SeparateAddonsExtensions` reports the string as invalid: it is not empty
and neither an addon key nor an allowed extension. -/
def isInvalidSupported (bcp : BaseChainParser) (s : String) : Bool :=
  !isAddon bcp s && decide (s ≠ "") && !isExtension bcp s

/-- The first occurrences of a list that are not keys of `checked` yet. -/
def uncheckedOccurrences (checked : GoMap String Unit) (l : List String) : List String :=
  (firstOccurrences l).filter (fun y => !checked.contains y)

/-! ## Building the parser from a spec -/

/-- A chain spec `spectypes.Spec`: its index, whether it is enabled, and its api
collections in order. -/
structure Spec where
  Index : String
  Enabled : Bool
  ApiCollections : List ApiCollection
  deriving DecidableEq, Repr

/-- Modelled from the spec: the constant `spectypes.APIInterfaceRest`, declared outside
the source tree: the name `rest` of the REST interface. -/
def APIInterfaceRest : String := "rest"

/-- The text `replace-me-with-regex` that stands for a path variable while the name
is quoted. -/
def placeholderText : List Char := "replace-me-with-regex".data

/-- After an opening brace: the rest of the text behind the match of `[^}]+}`, if
there is one (a non-empty run of characters other than the closing brace, followed by
a closing brace). -/
def matchBraceBody (l : List Char) : Option (List Char) :=
  match l.takeWhile (fun c => decide (c ≠ '}')), l.dropWhile (fun c => decide (c ≠ '}')) with
  | _ :: _, _ :: rest => some rest
  | _, _ => none

/-- The call `re.ReplaceAll` for the pattern of a path variable (an opening brace, one
or more characters that are no closing brace, a closing brace): every leftmost match
is replaced by the placeholder. The first argument bounds the number of steps. -/
def replacePathVariables : Nat → List Char → List Char
  | 0, l => l
  | _ + 1, [] => []
  | n + 1, c :: cs =>
    if c = '{' then
      match matchBraceBody cs with
      | some rest => placeholderText ++ replacePathVariables n rest
      | none => c :: replacePathVariables n cs
    else c :: replacePathVariables n cs

/-- The function `regexp.QuoteMeta` of the Go library: a backslash is put before each
of the characters that are special in a regular expression. -/
def regexp.QuoteMeta (l : List Char) : List Char :=
  l.flatMap (fun c =>
    if c ∈ ['\\', '.', '+', '*', '?', '(', ')', '|', '[', ']', '{', '}', '^', '$'] then ['\\', c]
    else [c])

/-- The function `strings.ReplaceAll` of the Go library for a non-empty text `old`:
the occurrences of `old` are replaced from the left, without overlap. The first
argument bounds the number of steps. -/
def strings.ReplaceAll (old new : List Char) : Nat → List Char → List Char
  | 0, l => l
  | _ + 1, [] => []
  | n + 1, c :: cs =>
    if old.isPrefixOf (c :: cs) then new ++ strings.ReplaceAll old new n ((c :: cs).drop old.length)
    else c :: strings.ReplaceAll old new n cs

/-- The name under which `getServiceApis` indexes an api of the REST interface: the
path variables give the pattern of one path segment, everything else is quoted. -/
def restApiName (name : String) : String :=
  let processedName := replacePathVariables name.data.length name.data
  let processedName := regexp.QuoteMeta processedName
  String.mk (strings.ReplaceAll placeholderText "[^\\/\\s]+".data processedName.length
    processedName)

/-- The five tables `getServiceApis` returns. -/
structure ServiceApis where
  serverApis : GoMap ApiKey ApiContainer
  taggedApis : GoMap FUNCTION_TAG TaggedContainer
  apiCollections : GoMap CollectionKey ApiCollection
  headers : GoMap ApiKey Header
  verifications : GoMap VerificationKey (List VerificationContainer)
  deriving DecidableEq, Repr

/-- The collection key `getServiceApis` derives from a collection. -/
def collectionKeyOf (apiCollection : ApiCollection) : CollectionKey :=
  ⟨apiCollection.CollectionData.Type_, apiCollection.CollectionData.InternalPath,
    apiCollection.CollectionData.AddOn⟩

/-- The loop of `getServiceApis` over the parse directives of a collection. -/
def indexParseDirectives (apiCollection : ApiCollection)
    (taggedApis : GoMap FUNCTION_TAG TaggedContainer) : GoMap FUNCTION_TAG TaggedContainer :=
  apiCollection.ParseDirectives.foldl (fun m parsing =>
    m.set parsing.FunctionTag ⟨parsing, apiCollection⟩) taggedApis

/-- The loop of `getServiceApis` over the apis of a collection. -/
def indexApis (rpcInterface : String) (apiCollection : ApiCollection)
    (serverApis : GoMap ApiKey ApiContainer) : GoMap ApiKey ApiContainer :=
  apiCollection.Apis.foldl (fun m api =>
    if !api.Enabled then m
    else if rpcInterface = APIInterfaceRest then
      m.set ⟨restApiName api.Name, (collectionKeyOf apiCollection).ConnectionType⟩
        ⟨api, collectionKeyOf apiCollection⟩
    else
      m.set ⟨api.Name, (collectionKeyOf apiCollection).ConnectionType⟩
        ⟨api, collectionKeyOf apiCollection⟩) serverApis

/-- The loop of `getServiceApis` over the headers of a collection. -/
def indexHeaders (apiCollection : ApiCollection) (headers : GoMap ApiKey Header) :
    GoMap ApiKey Header :=
  apiCollection.Headers.foldl (fun m header =>
    m.set ⟨header.Name, (collectionKeyOf apiCollection).ConnectionType⟩ header) headers

/-- The loop of `getServiceApis` over the values of one verification. -/
def indexVerification (apiCollection : ApiCollection) (verification : Verification)
    (verifications : GoMap VerificationKey (List VerificationContainer)) :
    GoMap VerificationKey (List VerificationContainer) :=
  verification.Values.foldl (fun m parseValue =>
    let verificationKey : VerificationKey :=
      ⟨parseValue.Extension, apiCollection.CollectionData.AddOn⟩
    let verCont : VerificationContainer :=
      { ConnectionType := apiCollection.CollectionData.Type_
        Name := verification.Name
        ParseDirective := verification.ParseDirective
        Value := parseValue.ExpectedValue
        LatestDistance := parseValue.LatestDistance
        VerificationKey := verificationKey
        Severity := verification.Severity }
    match m.get? verificationKey with
    | none => m.set verificationKey [verCont]
    | some extensionVerifications => m.set verificationKey (extensionVerifications ++ [verCont]))
    verifications

/-- The body of the loop of `getServiceApis` over the api collections of the spec. -/
def indexCollection (rpcInterface : String) (t : ServiceApis) (apiCollection : ApiCollection) :
    ServiceApis :=
  if !apiCollection.Enabled then t
  else if apiCollection.CollectionData.ApiInterface ≠ rpcInterface then t
  else
    { taggedApis := indexParseDirectives apiCollection t.taggedApis
      serverApis := indexApis rpcInterface apiCollection t.serverApis
      headers := indexHeaders apiCollection t.headers
      verifications := apiCollection.Verifications.foldl (fun m verification =>
        indexVerification apiCollection verification m) t.verifications
      apiCollections := t.apiCollections.set (collectionKeyOf apiCollection) apiCollection }

/-- The function `getServiceApis`. -/
def getServiceApis (spec : Spec) (rpcInterface : String) : ServiceApis :=
  if spec.Enabled then
    spec.ApiCollections.foldl (indexCollection rpcInterface) ⟨[], [], [], [], []⟩
  else ⟨[], [], [], [], []⟩

/-- The method `BaseChainParser.Construct`: the tables are stored, every addon of a
stored collection becomes a key of `allowedAddons` with the value `false`, and the
extension parser is made anew with the names of all extensions of the stored
collections. The spec snapshot is not kept in this model. -/
def Construct (bcp : BaseChainParser) (_spec : Spec)
    (taggedApis : GoMap FUNCTION_TAG TaggedContainer) (serverApis : GoMap ApiKey ApiContainer)
    (apiCollections : GoMap CollectionKey ApiCollection) (headers : GoMap ApiKey Header)
    (verifications : GoMap VerificationKey (List VerificationContainer)) : BaseChainParser :=
  { bcp with
    serverApis := serverApis
    taggedApis := taggedApis
    headers := headers
    apiCollections := apiCollections
    verifications := verifications
    allowedAddons := apiCollections.foldl (fun allowedAddons entry =>
      allowedAddons.set entry.2.CollectionData.AddOn false) []
    extensionParser :=
      { AllowedExtensions := apiCollections.foldl (fun allowedExtensions entry =>
          entry.2.Extensions.foldl (fun allowedExtensions extension =>
            allowedExtensions.set extension.Name ()) allowedExtensions) []
        configuredExtensions := [] } }

/-- The parser built from a spec: `Construct` on the tables of `getServiceApis`. -/
def parserOf (bcp : BaseChainParser) (spec : Spec) (rpcInterface : String) : BaseChainParser :=
  Construct bcp spec (getServiceApis spec rpcInterface).taggedApis
    (getServiceApis spec rpcInterface).serverApis
    (getServiceApis spec rpcInterface).apiCollections
    (getServiceApis spec rpcInterface).headers
    (getServiceApis spec rpcInterface).verifications

/-- The method `BaseChainParser.GetParsingByTag`: the directive, the collection data
and whether the tag is indexed (the nil pointers are `none`). -/
def GetParsingByTag (bcp : BaseChainParser) (tag : FUNCTION_TAG) :
    Option ParseDirective × Option CollectionData × Bool :=
  match bcp.taggedApis.get? tag with
  | none => (none, none, false)
  | some val => (some val.Parsing, some val.ApiCollection.CollectionData, true)

/-- The method `BaseChainParser.getSupportedApi` on an existing parser. -/
def getSupportedApi (apip : BaseChainParser) (name connectionType : String) :
    Except String ApiContainer :=
  match apip.serverApis.get? ⟨name, connectionType⟩ with
  | none => Except.error "api not supported"
  | some apiCont =>
    if !apiCont.api.Enabled then Except.error "api is disabled"
    else Except.ok apiCont

/-- The method `BaseChainParser.getApiCollection` on an existing parser. -/
def getApiCollection (apip : BaseChainParser) (connectionType internalPath addon : String) :
    Except String ApiCollection :=
  match apip.apiCollections.get? ⟨connectionType, internalPath, addon⟩ with
  | none => Except.error "api not supported"
  | some api =>
    if !api.Enabled then Except.error "api is disabled"
    else Except.ok api

/-- Whether `getServiceApis` indexes the collection: it is enabled and of the
requested interface. -/
def isIndexed (rpcInterface : String) (c : ApiCollection) : Bool :=
  c.Enabled && decide (c.CollectionData.ApiInterface = rpcInterface)

/-- The parse directives of the enabled collections of the interface, each with its
collection, in spec order. -/
def specDirectives (spec : Spec) (rpcInterface : String) :
    List (ParseDirective × ApiCollection) :=
  (spec.ApiCollections.filter (isIndexed rpcInterface)).flatMap
    (fun c => c.ParseDirectives.map (fun d => (d, c)))

/-- The name under which an api is indexed: the pattern of its name for the REST
interface, the name itself otherwise. -/
def apiIndexName (rpcInterface : String) (name : String) : String :=
  if rpcInterface = APIInterfaceRest then restApiName name else name

/-- The assignments to `serverApis` that one collection causes, in order. -/
def apiEntriesOf (rpcInterface : String) (c : ApiCollection) : List (ApiKey × ApiContainer) :=
  (c.Apis.filter (fun a => a.Enabled)).map (fun a =>
    (⟨apiIndexName rpcInterface a.Name, (collectionKeyOf c).ConnectionType⟩,
      ⟨a, collectionKeyOf c⟩))

/-- The assignments to `serverApis` that a spec causes, in spec order. -/
def serverApiEntries (spec : Spec) (rpcInterface : String) : List (ApiKey × ApiContainer) :=
  (spec.ApiCollections.filter (isIndexed rpcInterface)).flatMap (apiEntriesOf rpcInterface)

/-- The assignments to `taggedApis` that one collection causes, in order. -/
def taggedEntriesOf (c : ApiCollection) : List (FUNCTION_TAG × TaggedContainer) :=
  c.ParseDirectives.map (fun d => (d.FunctionTag, ⟨d, c⟩))

/-- The assignments to `headers` that one collection causes, in order. -/
def headerEntriesOf (c : ApiCollection) : List (ApiKey × Header) :=
  c.Headers.map (fun h => (⟨h.Name, (collectionKeyOf c).ConnectionType⟩, h))

/-- The assignments to `apiCollections` that a spec causes, in spec order. -/
def collectionEntries (spec : Spec) (rpcInterface : String) :
    List (CollectionKey × ApiCollection) :=
  (spec.ApiCollections.filter (isIndexed rpcInterface)).map (fun c => (collectionKeyOf c, c))

/-! ## Relay timeouts (`common.go`) -/

/-- A value of the 64-bit signed Go types (`int`, `int64`, `time.Duration`): the
integer is reduced to the range from `-2^63` up to `2^63 - 1`, as the machine
arithmetic and the conversions do. -/
def wrapInt64 (x : Int) : Int := (x + 9223372036854775808) % 18446744073709551616 -
  9223372036854775808

/-- What `GetRelayTimeout` reads of the interface `ChainMessage`: the results of its
methods `TimeoutOverride()`, a `time.Duration` in nanoseconds, and `GetApi()`. -/
structure ChainMessage where
  TimeoutOverride : Int
  GetApi : Api
  deriving DecidableEq, Repr

/-- The four results of the method `ChainBlockStats()` of a chain parser; the second is
the average block time, a `time.Duration` in nanoseconds. -/
structure ChainBlockStats where
  allowedBlockLagForQosSync : Int
  averageBlockTime : Int
  blockDistanceForFinalizedData : Nat
  blocksInFinalizationProof : Nat
  deriving DecidableEq, Repr

/-- The declarations of the package `common` that `GetRelayTimeout` uses and that are
outside the source tree: the function `GetTimePerCu` and the constant
`AverageWorldLatency`, both of type `time.Duration`. -/
structure RelayTimeCommon where
  GetTimePerCu : Nat → Int
  AverageWorldLatency : Int

/-- Modelled from the spec: the helper `IsHangingApi`, which is not in the source tree:
the hanging flag of the api of the message. -/
def IsHangingApi (chainMessage : ChainMessage) : Bool :=
  chainMessage.GetApi.HangingApi

/-- Modelled from the spec: the helper `GetComputeUnits`, which is not in the source
tree: the compute-unit cost of the api of the message. -/
def GetComputeUnits (chainMessage : ChainMessage) : Nat :=
  chainMessage.GetApi.ComputeUnits

/-- The constant `time.Millisecond`, in nanoseconds. -/
def time.Millisecond : Int := 1000000

/-- The function `GetRelayTimeout` of `common.go`. Durations are 64-bit integers;
every sum, product and conversion is reduced by `wrapInt64`. -/
def GetRelayTimeout (common : RelayTimeCommon) (chainMessage : ChainMessage)
    (chainParser : ChainBlockStats) (timeouts : Int) : Int :=
  if chainMessage.TimeoutOverride ≠ 0 then chainMessage.TimeoutOverride
  else
    let extraRelayTimeout : Int :=
      if IsHangingApi chainMessage then chainParser.averageBlockTime else 0
    let relayTimeAddition : Int :=
      if chainMessage.GetApi.TimeoutMs > 0 then
        wrapInt64 (time.Millisecond * wrapInt64 (chainMessage.GetApi.TimeoutMs : Int))
      else common.GetTimePerCu (GetComputeUnits chainMessage)
    wrapInt64 (wrapInt64 (extraRelayTimeout +
      wrapInt64 (wrapInt64 (wrapInt64 (timeouts + 1)) * relayTimeAddition)) +
      common.AverageWorldLatency)

/-! ## Protocol versions (`params.go`) -/

/-- The four version strings of the protocol parameters. -/
structure Version where
  ProviderTarget : String
  ProviderMin : String
  ConsumerTarget : String
  ConsumerMin : String
  deriving DecidableEq, Repr

/-- The constant `TARGET_VERSION`. -/
def TARGET_VERSION : String := "0.33.3"

/-- The constant `MIN_VERSION`. -/
def MIN_VERSION : String := "0.32.1"

/-- The default version parameters `DefaultVersion`. -/
def DefaultVersion : Version :=
  ⟨TARGET_VERSION, MIN_VERSION, TARGET_VERSION, MIN_VERSION⟩

/-- The constant `MAX_MINOR`: the limit of the minor field and the stride of the major
field in the encoding, together with `MAX_REVISION`. -/
def MAX_MINOR : Nat := 10000

/-- The constant `MAX_REVISION`: the limit of the revision field and the stride of the
minor field in the encoding. -/
def MAX_REVISION : Nat := 10000

/-- The function `strings.Split` of the Go library for a separator of one character:
the pieces between the separators, at least one piece. -/
def strings.Split (sep : Char) : List Char → List (List Char)
  | [] => [[]]
  | c :: cs =>
    if c = sep then [] :: strings.Split sep cs
    else
      match strings.Split sep cs with
      | [] => [[c]]
      | piece :: pieces => (c :: piece) :: pieces

/-- The value of a decimal digit, if the character is one. -/
def digitValue (c : Char) : Option Nat :=
  if c.isDigit then some (c.toNat - '0'.toNat) else none

/-- The number written by a list of characters when all of them are decimal digits;
the first argument is the number read so far. -/
def parseDigits : Nat → List Char → Option Nat
  | acc, [] => some acc
  | acc, c :: cs =>
    match digitValue c with
    | some d => parseDigits (acc * 10 + d) cs
    | none => none

/-- The call `strconv.ParseUint(s, 10, 0)` of the Go library on a 64-bit platform: a
non-empty run of decimal digits, without sign, whose value is below `2^64`; everything
else is an error. -/
def strconv.ParseUint (s : List Char) : Option Nat :=
  match s with
  | [] => none
  | _ :: _ =>
    match parseDigits 0 s with
    | some n => if n < 18446744073709551616 then some n else none
    | none => none

/-- The errors `versionToInteger` returns, by the place that raises them. -/
inductive VersionError where
  | invalidFormat
  | major
  | minor
  | revision
  | minorTooBig
  | revisionTooBig
  deriving DecidableEq, Repr

/-- The function `versionToInteger` of `params.go`. The number is computed in the type
`uint64` and converted to `int`. -/
def versionToInteger (v : String) : Except VersionError Int :=
  match strings.Split '.' v.data with
  | [s0, s1, s2] =>
    match strconv.ParseUint s0 with
    | none => Except.error VersionError.major
    | some maj =>
      match strconv.ParseUint s1 with
      | none => Except.error VersionError.minor
      | some min =>
        match strconv.ParseUint s2 with
        | none => Except.error VersionError.revision
        | some rev =>
          if min > MAX_MINOR then Except.error VersionError.minorTooBig
          else if rev > MAX_REVISION then Except.error VersionError.revisionTooBig
          else
            let n : Nat := (maj * MAX_MINOR * MAX_REVISION + min * MAX_REVISION + rev) %
              18446744073709551616
            Except.ok (wrapInt64 (n : Int))
  | _ => Except.error VersionError.invalidFormat

/-- A value of the empty interface handed to a parameter validator: a `Version`, or a
value of another type. -/
inductive ParamValue where
  | version (v : Version)
  | other (typeName : String)
  deriving DecidableEq, Repr

/-- The errors `validateVersion` returns, by the place that raises them. -/
inductive ValidateVersionError where
  | invalidParameterType
  | providerTarget (err : VersionError)
  | providerMin (err : VersionError)
  | consumerTarget (err : VersionError)
  | consumerMin (err : VersionError)
  | providerMismatch
  | consumerMismatch
  | targetMismatch
  | minMismatch
  deriving DecidableEq, Repr

/-- The function `validateVersion` of `params.go`; `none` is the result `nil`. -/
def validateVersion (v : ParamValue) : Option ValidateVersionError :=
  match v with
  | ParamValue.other _ => some ValidateVersionError.invalidParameterType
  | ParamValue.version version =>
    match versionToInteger version.ProviderTarget with
    | Except.error err => some (ValidateVersionError.providerTarget err)
    | Except.ok newProviderTarget =>
      match versionToInteger version.ProviderMin with
      | Except.error err => some (ValidateVersionError.providerMin err)
      | Except.ok newProviderMin =>
        match versionToInteger version.ConsumerTarget with
        | Except.error err => some (ValidateVersionError.consumerTarget err)
        | Except.ok newConsumerTarget =>
          match versionToInteger version.ConsumerMin with
          | Except.error err => some (ValidateVersionError.consumerMin err)
          | Except.ok newConsumerMin =>
            if newProviderMin > newProviderTarget then
              some ValidateVersionError.providerMismatch
            else if newConsumerMin > newConsumerTarget then
              some ValidateVersionError.consumerMismatch
            else if newProviderTarget ≠ newConsumerTarget then
              some ValidateVersionError.targetMismatch
            else if newProviderMin ≠ newConsumerMin then
              some ValidateVersionError.minMismatch
            else none

/-- The number a run of decimal digits writes, most significant digit first. -/
def decimalValue (s : List Char) : Nat :=
  s.foldl (fun acc c => acc * 10 + (c.toNat - '0'.toNat)) 0

/-- An unsigned decimal integer: a non-empty run of the digits `0` to `9`. -/
def isUnsignedDecimal (s : List Char) : Bool :=
  !s.isEmpty && s.all Char.isDigit

/-- The text `v` is the dotted triple `major.minor.revision` of the unsigned decimal
integers `s0`, `s1`, `s2`, with minor and revision within their limits. -/
def isDottedTriple (v s0 s1 s2 : List Char) : Prop :=
  v = s0 ++ '.' :: (s1 ++ '.' :: s2) ∧
    isUnsignedDecimal s0 = true ∧ isUnsignedDecimal s1 = true ∧ isUnsignedDecimal s2 = true ∧
    decimalValue s1 ≤ MAX_MINOR ∧ decimalValue s2 ≤ MAX_REVISION

/-- The encoding of a version: `major*10000*10000 + minor*10000 + revision`. -/
def encodedVersion (s0 s1 s2 : List Char) : Nat :=
  decimalValue s0 * 10000 * 10000 + decimalValue s1 * 10000 + decimalValue s2

/-! ## The provider conflicts query (module `conflict`) -/

/-- Modelled from the spec: the results of a vote, whose declaration is outside the
source tree; the test of the query names `NoVote` and `Provider0`. -/
inductive VoteResult where
  | NoVote
  | Commit
  | Provider0
  | Provider1
  | NoneOfTheProviders
  deriving DecidableEq, Repr

/-- One vote of a conflict vote: the address of the voter and the result. -/
structure Vote where
  Address : String
  Result : VoteResult
  deriving DecidableEq, Repr

/-- A provider of a conflict vote, reduced to its account. -/
structure ConflictProvider where
  Account : String
  deriving DecidableEq, Repr

/-- A stored conflict vote, reduced to the fields the query reads. -/
structure ConflictVote where
  Index : String
  FirstProvider : ConflictProvider
  SecondProvider : ConflictProvider
  Votes : List Vote
  deriving DecidableEq, Repr

/-- The response of the provider conflicts query. -/
structure QueryProviderConflictsResponse where
  Reported : List String
  NotVoted : List String
  deriving DecidableEq, Repr

/-- Modelled from the spec: the query `ProviderConflicts` of the conflict keeper, which
is not in the source tree (only its test is). Over the stored conflict votes, in store
order: `Reported` lists the index of every conflict vote in which the address is the
account of the first or of the second provider, `NotVoted` the index of every conflict
vote in which the address has a vote with the result `NoVote`; the query succeeds. -/
def ProviderConflicts (conflictVotes : List ConflictVote) (provider : String) :
    Except String QueryProviderConflictsResponse :=
  Except.ok
    { Reported := (conflictVotes.filter (fun conflictVote =>
        decide (conflictVote.FirstProvider.Account = provider ∨
          conflictVote.SecondProvider.Account = provider))).map (fun c => c.Index)
      NotVoted := (conflictVotes.filter (fun conflictVote =>
        conflictVote.Votes.any (fun vote =>
          decide (vote.Address = provider ∧ vote.Result = VoteResult.NoVote)))).map
          (fun c => c.Index) }

/-! ## REST messages (`restMessage.go`) -/

/-- The message `RestMessage`, reduced to the two paths `GetParams` reads. -/
structure RestMessage where
  Path : String
  SpecPath : String
  deriving DecidableEq, Repr

/-- What `GetParams` reads of a parsed URL: the field `Path` and the result of the
method `Query()`, a map from each query key to its values in order. -/
structure URL where
  Path : String
  Query : GoMap String (List String)
  deriving DecidableEq, Repr

/-- The function `strings.Trim` of the Go library: the leading and the trailing
characters that are in the cutset are removed. -/
def strings.Trim (s : List Char) (cutset : List Char) : List Char :=
  ((s.dropWhile (fun c => decide (c ∈ cutset))).reverse.dropWhile
    (fun c => decide (c ∈ cutset))).reverse

/-- The function `strings.Join` of the Go library for the separator `,`. -/
def strings.Join (values : List String) : String :=
  String.mk (List.intercalate [','] (values.map String.data))

/-- The three outcomes of `GetParams`: the index expression `objectPath[index]` panics,
the result is nil, or the result is a map of parameters. -/
inductive GetParamsResult where
  | panic
  | nil
  | parameters (m : GoMap String String)
  deriving DecidableEq, Repr

/-- One iteration of the loop of `GetParams` over the segments of the spec path;
`none` is the panic of an index out of range. -/
def GetParams.step (objectPath : List (List Char)) (acc : Option (GoMap String String))
    (entry : Nat × List Char) : Option (GoMap String String) :=
  match acc with
  | none => none
  | some parameters =>
    if '{' ∈ entry.2 then
      match objectPath.get? entry.1 with
      | some segment =>
        some (parameters.set (String.mk (strings.Trim entry.2 ['{', '}'])) (String.mk segment))
      | none => none
    else some parameters

/-- The method `RestMessage.GetParams`. The function `url.Parse` of the Go library is
the first argument; `none` is its error. -/
def GetParams (urlParse : String → Option URL) (cp : RestMessage) : GetParamsResult :=
  match urlParse cp.Path with
  | none => GetParamsResult.nil
  | some urlObj =>
    let parsedMethod := urlObj.Path
    let objectSpec := strings.Split '/' cp.SpecPath.data
    let objectPath := strings.Split '/' parsedMethod.data
    match objectSpec.enum.foldl (GetParams.step objectPath) (some []) with
    | none => GetParamsResult.panic
    | some parameters =>
      let parameters := urlObj.Query.foldl
        (fun parameters entry => parameters.set entry.1 (strings.Join entry.2)) parameters
      if parameters.length = 0 then GetParamsResult.nil
      else GetParamsResult.parameters parameters

/-- The assignments the first loop of `GetParams` makes when no index is out of range,
in order: for every segment of the spec path that contains an opening brace, the
trimmed segment and the segment of the request path at the same index. -/
def specParameterEntries (objectSpec objectPath : List (List Char)) : List (String × String) :=
  (objectSpec.enum.filter (fun p => decide ('{' ∈ p.2))).map (fun p =>
    (String.mk (strings.Trim p.2 ['{', '}']), String.mk (objectPath.getD p.1 [])))

/-- The assignments the second loop of `GetParams` makes, in order: every query key
with its joined values. -/
def queryEntries (urlObj : URL) : List (String × String) :=
  urlObj.Query.map (fun entry => (entry.1, strings.Join entry.2))

/-- Whether the request path has a segment at the index of every segment of the spec
path that contains an opening brace. -/
def segmentsInRange (objectSpec objectPath : List (List Char)) : Bool :=
  objectSpec.enum.all (fun p => !decide ('{' ∈ p.2) || decide (p.1 < objectPath.length))

/-! ## Matching a REST path against the pattern of an api -/

/-- A piece of the regular expressions `getServiceApis` builds for the REST interface:
a character that matches itself, or the class `[^\/\s]+`, which matches one or more
characters other than the slash and the white space characters. -/
inductive PatternToken where
  | literal (c : Char)
  | segment
  deriving DecidableEq, Repr

/-- The reading of a pattern by the Go library `regexp`, for the patterns that
`getServiceApis` builds: a backslash makes the next character literal, the text
`[^\/\s]+` is the class of a path segment, every other character is literal. -/
def compilePattern : List Char → List PatternToken
  | '[' :: '^' :: '\\' :: '/' :: '\\' :: 's' :: ']' :: '+' :: rest =>
    PatternToken.segment :: compilePattern rest
  | '\\' :: c :: rest => PatternToken.literal c :: compilePattern rest
  | c :: rest => PatternToken.literal c :: compilePattern rest
  | [] => []

/-- The characters the class `[^\/\s]` matches: all but the slash and the white space
of the Go library `regexp` (tab, line feed, form feed, carriage return, space). -/
def isSegmentChar (c : Char) : Bool :=
  !decide (c ∈ ['/', '\t', '\n', '\x0c', '\r', ' '])

/-- Whether the whole text matches the sequence of pieces. -/
def matchTokens : List PatternToken → List Char → Bool
  | [], [] => true
  | [], _ :: _ => false
  | _ :: _, [] => false
  | PatternToken.literal c :: tokens, x :: xs => decide (x = c) && matchTokens tokens xs
  | PatternToken.segment :: tokens, x :: xs =>
    isSegmentChar x && (matchTokens tokens xs || matchTokens (PatternToken.segment :: tokens) xs)

/-- The calls `regexp.Compile("^" + pattern + "$")` and `MatchString(name)` of
`matchSpecApiByName`, for the patterns that `getServiceApis` builds. -/
def regexpMatch (pattern : String) (name : String) : Bool :=
  matchTokens (compilePattern pattern.data) name.data

/-- The function `matchSpecApiByName`: the first api, in the order in which the map is
ranged over, whose anchored pattern matches the name and whose connection type is the
given one. The code skips a pattern that does not compile; the patterns that
`getServiceApis` builds for the REST interface do compile. -/
def matchSpecApiByName (name connectionType : String) (serverApis : GoMap ApiKey ApiContainer) :
    Option ApiContainer :=
  (serverApis.find? (fun entry =>
    regexpMatch entry.1.Name name && decide (entry.1.ConnectionType = connectionType))).map
    (fun entry => entry.2)

/-- The pieces of an api name: every path variable (a match of an opening brace, one or
more characters that are no closing brace, a closing brace, taken from the left) is
the piece `segment`, every other character is a literal piece. The first argument
bounds the number of steps. -/
def nameTokens : Nat → List Char → List PatternToken
  | 0, l => l.map PatternToken.literal
  | _ + 1, [] => []
  | n + 1, c :: cs =>
    if c = '{' then
      match matchBraceBody cs with
      | some rest => PatternToken.segment :: nameTokens n rest
      | none => PatternToken.literal c :: nameTokens n cs
    else PatternToken.literal c :: nameTokens n cs

/-- A text is an instance of a sequence of pieces: every literal piece stands for its
character, every piece `segment` for a non-empty run of characters other than the slash
and the white space characters. -/
inductive IsInstance : List PatternToken → List Char → Prop where
  | nil : IsInstance [] []
  | literal (c : Char) (tokens : List PatternToken) (s : List Char) :
      IsInstance tokens s → IsInstance (PatternToken.literal c :: tokens) (c :: s)
  | segment (run : List Char) (tokens : List PatternToken) (s : List Char) :
      run ≠ [] → (∀ x ∈ run, isSegmentChar x = true) → IsInstance tokens s →
      IsInstance (PatternToken.segment :: tokens) (run ++ s)

/-- What `regexp.QuoteMeta` makes of one character. -/
def quoteChar (c : Char) : List Char :=
  if c ∈ ['\\', '.', '+', '*', '?', '(', ')', '|', '[', ']', '{', '}', '^', '$'] then ['\\', c]
  else [c]

/-- The text of a sequence of pieces, with a given text for a literal character and a
given text for the piece `segment`. -/
def expandTokens (literalText : Char → List Char) (segmentText : List Char)
    (tokens : List PatternToken) : List Char :=
  tokens.flatMap (fun token =>
    match token with
    | PatternToken.literal c => literalText c
    | PatternToken.segment => segmentText)

/-- Whether the placeholder text starts at no literal character of the quoted name, in
which the path variables are replaced by the placeholder text. -/
def placeholderOnlyAtVariables : List PatternToken → Bool
  | [] => true
  | PatternToken.segment :: tokens => placeholderOnlyAtVariables tokens
  | PatternToken.literal c :: tokens =>
    !placeholderText.isPrefixOf (c :: expandTokens quoteChar placeholderText tokens) &&
      placeholderOnlyAtVariables tokens

/-- Modelled from the spec: the lookup `getSupportedApi` of the REST dialect parser, which
is not in the source tree: the api is fetched by `matchSpecApiByName` over the api table,
given in the order in which the map is ranged over, instead of the map lookup; a
disabled api is an error, as in `BaseChainParser.getSupportedApi`. -/
def RestChainParser.getSupportedApi (serverApis : GoMap ApiKey ApiContainer)
    (name connectionType : String) : Except String ApiContainer :=
  match matchSpecApiByName name connectionType serverApis with
  | none => Except.error "rest api not supported"
  | some apiCont =>
    if !apiCont.api.Enabled then Except.error "api is disabled"
    else Except.ok apiCont

/-! ## Example parsers -/

/-- A parser with empty tables. -/
def emptyParser : BaseChainParser :=
  { taggedApis := [], serverApis := [], apiCollections := [], headers := [],
    verifications := [], allowedAddons := [], extensionParser := ⟨[], []⟩, active := true }

/-- A REST collection of connection type `GET` with the given addon and extensions. -/
def restCollection (addon : String) (extensions : List Extension) : ApiCollection :=
  ⟨true, ⟨"rest", "", "GET", addon⟩, [], [], [], extensions, []⟩

/-- A parser whose header index knows the block-height header (sent on, tagged
`SET_LATEST_IN_METADATA`), a reply header, a header passed both ways and an ignored
header. -/
def headerParser : BaseChainParser :=
  { emptyParser with
    headers := [
      (⟨"x-cosmos-block-height", "GET"⟩,
        ⟨"x-cosmos-block-height", Header_HeaderType.pass_send,
          FUNCTION_TAG.SET_LATEST_IN_METADATA⟩),
      (⟨"grpc-metadata-x-cosmos-block-height", "GET"⟩,
        ⟨"grpc-metadata-x-cosmos-block-height", Header_HeaderType.pass_reply,
          FUNCTION_TAG.DISABLED⟩),
      (⟨"x-trace", "GET"⟩, ⟨"x-trace", Header_HeaderType.pass_both, FUNCTION_TAG.DISABLED⟩),
      (⟨"lava-internal", "GET"⟩,
        ⟨"lava-internal", Header_HeaderType.pass_ignore, FUNCTION_TAG.DISABLED⟩)] }

/-- Whether a policy allows the service name `a` for the interface: `a` is one of its
supported addons, or the extension of one of its supported services of the interface. -/
def policyAllows (policy : PolicyInf) (chainId : String) (apiInterface : String) (a : String) :
    Bool :=
  (match policy.GetSupportedAddons chainId with
    | Except.ok addons => decide (a ∈ addons)
    | Except.error _ => false) ||
  (match policy.GetSupportedExtensions chainId with
    | Except.ok extensions =>
      extensions.any (fun s => decide (s.ApiInterface = apiInterface ∧ s.Extension = a))
    | Except.error _ => false)

/-- A parser over a spec with a default collection declaring the extension `archive`
and a collection of the addon `debug`; no addon is allowed yet. -/
def addonParser : BaseChainParser :=
  { emptyParser with
    apiCollections := [
      (⟨"GET", "", ""⟩, restCollection "" [⟨"archive", 128⟩]),
      (⟨"GET", "", "debug"⟩, restCollection "debug" [])]
    allowedAddons := [("", false), ("debug", false)]
    extensionParser := ⟨[("archive", ())], []⟩ }

/-- A parser over a spec that has the default collection only. -/
def plainParser : BaseChainParser :=
  { emptyParser with
    apiCollections := [(⟨"GET", "", ""⟩, restCollection "" [⟨"archive", 128⟩])]
    allowedAddons := [("", false)]
    extensionParser := ⟨[("archive", ())], []⟩ }

/-- A policy that supports the addon `debug` and the extension `archive` on REST. -/
def debugPolicy : PolicyInf :=
  { GetSupportedAddons := fun _ => Except.ok ["debug"]
    GetSupportedExtensions := fun _ => Except.ok [⟨"rest", "", "archive"⟩] }

/-- The verification stored under the extension `archive` for the addon `debug`. -/
def verifArchiveDebug : VerificationContainer :=
  ⟨"GET", "pruning", ⟨FUNCTION_TAG.VERIFICATION, "", "block"⟩, "1", 0, 0, ⟨"archive", "debug"⟩⟩

/-- The verification stored under the extension `archive` for the default addon. -/
def verifArchive : VerificationContainer :=
  ⟨"GET", "pruning", ⟨FUNCTION_TAG.VERIFICATION, "", "block"⟩, "1", 0, 0, ⟨"archive", ""⟩⟩

/-- The verification stored under no extension for the addon `debug`. -/
def verifDebug : VerificationContainer :=
  ⟨"GET", "chain-id", ⟨FUNCTION_TAG.VERIFICATION, "", "status"⟩, "lava", 0, 0, ⟨"", "debug"⟩⟩

/-- The verification stored under no extension for the default addon. -/
def verifDefault : VerificationContainer :=
  ⟨"GET", "chain-id", ⟨FUNCTION_TAG.VERIFICATION, "", "status"⟩, "lava", 0, 0, ⟨"", ""⟩⟩

/-- A parser with the addon keys `""` and `debug`, the allowed extension `archive`, and
one verification under each of the four keys they span. -/
def verificationParser : BaseChainParser :=
  { addonParser with
    verifications := [
      (⟨"archive", "debug"⟩, [verifArchiveDebug]),
      (⟨"archive", ""⟩, [verifArchive]),
      (⟨"", "debug"⟩, [verifDebug]),
      (⟨"", ""⟩, [verifDefault])] }

/-- A disabled spec with one enabled REST collection of the addon `debug`, which
declares an api and a parse directive. -/
def disabledSpec : Spec :=
  ⟨"LAV1", false, [
    ⟨true, ⟨"rest", "", "GET", "debug"⟩, [⟨true, "/debug/trace", 10, 0, false⟩], [],
      [⟨FUNCTION_TAG.GET_BLOCKNUM, "", "/blocks/latest"⟩], [], []⟩]⟩

/-- An enabled spec with one REST collection that declares the balances api, whose
name has a path variable, and a parse directive. -/
def bankSpec : Spec :=
  ⟨"LAV1", true, [
    ⟨true, ⟨"rest", "", "GET", ""⟩,
      [⟨true, "/cosmos/bank/v1beta1/balances/\x7baddr\x7d", 10, 0, false⟩], [],
      [⟨FUNCTION_TAG.GET_BLOCKNUM, "", "/blocks/latest"⟩], [⟨"archive", 128⟩], []⟩]⟩

/-- The default collection of the example JSON-RPC spec: one api, one parse directive,
the extension `archive` and a verification with two values. -/
def ethDefaultCollection : ApiCollection :=
  ⟨true, ⟨"jsonrpc", "", "POST", ""⟩, [⟨true, "eth_blockNumber", 10, 0, false⟩], [],
    [⟨FUNCTION_TAG.GET_BLOCKNUM, "", "eth_blockNumber"⟩], [⟨"archive", 128⟩],
    [⟨"chain-id", ⟨FUNCTION_TAG.VERIFICATION, "", "eth_chainId"⟩,
      [⟨"", "0x1", 0⟩, ⟨"archive", "0x1", 0⟩], 0⟩]⟩

/-- An enabled JSON-RPC spec with a default collection and a collection of the addon
`debug`. -/
def ethSpec : Spec :=
  ⟨"ETH1", true, [
    ethDefaultCollection,
    ⟨true, ⟨"jsonrpc", "", "POST", "debug"⟩, [⟨true, "debug_traceCall", 20, 0, false⟩], [],
      [], [], []⟩]⟩

/-- The verification container `getServiceApis` builds for the chain-id verification
of the example JSON-RPC spec under the extension `archive`. -/
def ethArchiveVerification : VerificationContainer :=
  ⟨"POST", "chain-id", ⟨FUNCTION_TAG.VERIFICATION, "", "eth_chainId"⟩, "0x1", 0, 0,
    ⟨"archive", ""⟩⟩

/-- The seven conflict votes `TestProviderConflicts` stores: the conflict vote `i` has
the index `i`; the accounts and votes are those the test sets, with providers named
`p0` to `p6`. -/
def testConflictVotes : List ConflictVote :=
  [ ⟨"0", ⟨"p0"⟩, ⟨""⟩, []⟩,
    ⟨"1", ⟨""⟩, ⟨"p1"⟩, []⟩,
    ⟨"2", ⟨"p2"⟩, ⟨"p2"⟩, []⟩,
    ⟨"3", ⟨""⟩, ⟨""⟩, [⟨"p3", VoteResult.NoVote⟩]⟩,
    ⟨"4", ⟨""⟩, ⟨""⟩, [⟨"p4", VoteResult.Provider0⟩]⟩,
    ⟨"5", ⟨"p5"⟩, ⟨""⟩, [⟨"p5", VoteResult.NoVote⟩]⟩,
    ⟨"6", ⟨"p6"⟩, ⟨""⟩, [⟨"p6", VoteResult.Provider0⟩]⟩ ]

/-- The pairs `key=value` of a raw query, split at the first `=`; a pair without `=`
has the empty value. -/
def queryPair (pair : List Char) : String × String :=
  (String.mk (pair.takeWhile (fun c => decide (c ≠ '='))),
    String.mk ((pair.dropWhile (fun c => decide (c ≠ '='))).drop 1))

/-- An example of the URL parser: the text before the first `?` is the path, the text
behind it is split at `&` into pairs, and the values of a key are collected in order.
On a request path without scheme, host, fragment and escapes this is what `url.Parse`
and `Query()` of the Go library give. -/
def simpleUrlParse (rawURL : String) : Option URL :=
  let path := rawURL.data.takeWhile (fun c => decide (c ≠ '?'))
  let rawQuery := (rawURL.data.dropWhile (fun c => decide (c ≠ '?'))).drop 1
  some
    { Path := String.mk path
      Query := ((strings.Split '&' rawQuery).filter (fun pair => !pair.isEmpty)).foldl
        (fun (m : GoMap String (List String)) pair =>
          m.set (queryPair pair).1 ((m.get? (queryPair pair).1).getD [] ++ [(queryPair pair).2]))
        [] }

/-- The request of the balances api with a query. -/
def balancesRequest : RestMessage :=
  ⟨"/cosmos/bank/v1beta1/balances/lava1abc?pagination.limit=10",
    "/cosmos/bank/v1beta1/balances/\x7baddr\x7d"⟩

/-- Example values of the declarations of the package `common`: a time of 100 ms per
compute unit and an average world latency of 300 ms, in nanoseconds. -/
def exampleRelayTimeCommon : RelayTimeCommon :=
  ⟨fun cu => 100000000 * (cu : Int), 300000000⟩

/-- A message without timeout override for a non-hanging api of 10 compute units
without a timeout of its own. -/
def plainChainMessage : ChainMessage :=
  ⟨0, ⟨true, "eth_blockNumber", 10, 0, false⟩⟩

/-- An enabled REST spec whose default collection declares the header `x-trace`, passed
both ways, and the header `X-Request-Id`, written with upper-case letters. -/
def headerSpec : Spec :=
  ⟨"LAV1", true, [
    ⟨true, ⟨"rest", "", "GET", ""⟩, [⟨true, "/blocks/latest", 10, 0, false⟩],
      [⟨"x-trace", Header_HeaderType.pass_both, FUNCTION_TAG.DISABLED⟩,
        ⟨"X-Request-Id", Header_HeaderType.pass_both, FUNCTION_TAG.DISABLED⟩],
      [], [], []⟩]⟩

/-- An enabled REST spec with a default collection and a collection of the addon
`debug`, each declaring one api. -/
def debugSpec : Spec :=
  ⟨"LAV1", true, [
    ⟨true, ⟨"rest", "", "GET", ""⟩, [⟨true, "/blocks/latest", 10, 0, false⟩], [], [], [], []⟩,
    ⟨true, ⟨"rest", "", "GET", "debug"⟩, [⟨true, "/debug/trace", 20, 0, false⟩], [], [], [],
      []⟩]⟩

/-- A message of the spec `debugSpec`: the api `/debug/trace` with its collection, of
the addon `debug`. -/
def debugTraceMessage : baseChainMessageContainer :=
  ⟨⟨true, "/debug/trace", 20, 0, false⟩,
    ⟨true, ⟨"rest", "", "GET", "debug"⟩, [⟨true, "/debug/trace", 20, 0, false⟩], [], [], [],
      []⟩⟩

/-- A policy that supports no addon and no extension; its queries succeed. -/
def noPolicy : PolicyInf :=
  { GetSupportedAddons := fun _ => Except.ok []
    GetSupportedExtensions := fun _ => Except.ok [] }

/-- An enabled JSON-RPC spec in which the default collection and the collection of the
addon `debug` have the same connection type and both declare the api `eth_call`. -/
def sharedNameSpec : Spec :=
  ⟨"ETH1", true, [
    ⟨true, ⟨"jsonrpc", "", "POST", ""⟩, [⟨true, "eth_call", 10, 0, false⟩], [], [], [], []⟩,
    ⟨true, ⟨"jsonrpc", "", "POST", "debug"⟩, [⟨true, "eth_call", 20, 0, false⟩], [], [], [],
      []⟩]⟩

/-- An enabled REST spec with one api whose path variable is written with a slash. -/
def slashVariableSpec : Spec :=
  ⟨"LAV1", true, [
    ⟨true, ⟨"rest", "", "GET", ""⟩, [⟨true, "/tx/\x7bhash/index\x7d", 10, 0, false⟩], [], [],
      [], []⟩]⟩

/-! ## Properties -/

/-! ### The comparator computes the maximum and the minimum -/

theorem staleOrEq_total (c : SentinelBlocks) (x y : Int) :
    staleOrEq c x y ∨ staleOrEq c y x := by
  unfold staleOrEq
  omega

theorem freshness_of_nonneg (c : SentinelBlocks) (hc : c.Ordered) (x : Int) (hx : 0 ≤ x) :
    freshness c x = (1, x.toNat) := by
  obtain ⟨h1, h2, h3, h4, h5, h6, -⟩ := hc
  unfold freshness
  rw [if_neg (by omega), if_neg (by omega), if_neg (by omega), if_neg (by omega),
    if_neg (by omega), if_neg (by omega)]

theorem freshness_sentinels (c : SentinelBlocks) (hc : c.Ordered) :
    freshness c c.NOT_APPLICABLE = (6, 0) ∧ freshness c c.LATEST_BLOCK = (5, 0) ∧
    freshness c c.PENDING_BLOCK = (4, 0) ∧ freshness c c.SAFE_BLOCK = (3, 0) ∧
    freshness c c.FINALIZED_BLOCK = (2, 0) ∧ freshness c c.EARLIEST_BLOCK = (0, 0) := by
  obtain ⟨h1, h2, h3, h4, h5, h6, h7, h8, h9, h10, h11⟩ := hc
  unfold freshness
  refine ⟨by simp, ?_, ?_, ?_, ?_, ?_⟩
  · rw [if_neg (by omega), if_pos rfl]
  · rw [if_neg (by omega), if_neg (by omega), if_pos rfl]
  · rw [if_neg (by omega), if_neg (by omega), if_neg (by omega), if_pos rfl]
  · rw [if_neg (by omega), if_neg (by omega), if_neg (by omega), if_neg (by omega), if_pos rfl]
  · rw [if_neg h7, if_neg h8, if_neg h9, if_neg h10, if_neg h11, if_pos rfl]

theorem batchClass_of_nonneg (e x : Int) (he : e < 0) (hx : 0 ≤ x) : batchClass e x = 1 := by
  unfold batchClass
  rw [if_neg (by omega), if_neg (by omega)]

theorem batchClass_of_neg (e x : Int) (he : x ≠ e) (hx : x < 0) : batchClass e x = 2 := by
  unfold batchClass
  rw [if_neg he, if_pos hx]

theorem batchClass_self (e : Int) : batchClass e e = 0 := by
  unfold batchClass
  rw [if_pos rfl]

/-- The class and the freshness of each kind of requested block. -/
theorem block_class (c : SentinelBlocks) (hc : c.Ordered) (x : Int)
    (hx : IsRequestedBlock c x) :
    (0 ≤ x ∧ batchClass c.EARLIEST_BLOCK x = 1 ∧ (freshness c x).1 = 1 ∧
      ((freshness c x).2 : Int) = x) ∨
    (x = c.NOT_APPLICABLE ∧ batchClass c.EARLIEST_BLOCK x = 2 ∧ (freshness c x).1 = 6 ∧
      (freshness c x).2 = 0) ∨
    (x = c.LATEST_BLOCK ∧ batchClass c.EARLIEST_BLOCK x = 2 ∧ (freshness c x).1 = 5 ∧
      (freshness c x).2 = 0) ∨
    (x = c.PENDING_BLOCK ∧ batchClass c.EARLIEST_BLOCK x = 2 ∧ (freshness c x).1 = 4 ∧
      (freshness c x).2 = 0) ∨
    (x = c.SAFE_BLOCK ∧ batchClass c.EARLIEST_BLOCK x = 2 ∧ (freshness c x).1 = 3 ∧
      (freshness c x).2 = 0) ∨
    (x = c.FINALIZED_BLOCK ∧ batchClass c.EARLIEST_BLOCK x = 2 ∧ (freshness c x).1 = 2 ∧
      (freshness c x).2 = 0) ∨
    (x = c.EARLIEST_BLOCK ∧ batchClass c.EARLIEST_BLOCK x = 0 ∧ (freshness c x).1 = 0 ∧
      (freshness c x).2 = 0) := by
  obtain ⟨f1, f2, f3, f4, f5, f6⟩ := freshness_sentinels c hc
  have fn := freshness_of_nonneg c hc x
  obtain ⟨h1, h2, h3, h4, h5, h6, h7, h8, h9, h10, h11⟩ := hc
  rcases hx with hx | hx | hx | hx | hx | hx | hx
  · left
    rw [fn hx]
    exact ⟨hx, batchClass_of_nonneg _ _ h6 hx, rfl, Int.toNat_of_nonneg hx⟩
  · subst hx
    rw [f1]
    exact Or.inr (Or.inl ⟨rfl, batchClass_of_neg _ _ (Ne.symm h7) h5, rfl, rfl⟩)
  · subst hx
    rw [f2]
    exact Or.inr (Or.inr (Or.inl ⟨rfl, batchClass_of_neg _ _ (Ne.symm h8) (by omega), rfl, rfl⟩))
  · subst hx
    rw [f3]
    exact Or.inr (Or.inr (Or.inr (Or.inl
      ⟨rfl, batchClass_of_neg _ _ (Ne.symm h9) (by omega), rfl, rfl⟩)))
  · subst hx
    rw [f4]
    exact Or.inr (Or.inr (Or.inr (Or.inr (Or.inl
      ⟨rfl, batchClass_of_neg _ _ (Ne.symm h10) (by omega), rfl, rfl⟩))))
  · subst hx
    rw [f5]
    exact Or.inr (Or.inr (Or.inr (Or.inr (Or.inr (Or.inl
      ⟨rfl, batchClass_of_neg _ _ (Ne.symm h11) (by omega), rfl, rfl⟩)))))
  · subst hx
    rw [f6]
    exact Or.inr (Or.inr (Or.inr (Or.inr (Or.inr (Or.inr
      ⟨rfl, batchClass_self _, rfl, rfl⟩)))))

theorem freshness_injective (c : SentinelBlocks) (hc : c.Ordered) (a b : Int)
    (ha : IsRequestedBlock c a) (hb : IsRequestedBlock c b)
    (h : freshness c a = freshness c b) : a = b := by
  have ca := block_class c hc a ha
  have cb := block_class c hc b hb
  rw [h] at ca
  generalize freshness c b = fb at ca cb
  generalize batchClass c.EARLIEST_BLOCK a = ba at ca
  generalize batchClass c.EARLIEST_BLOCK b = bb at cb
  obtain ⟨k, n⟩ := fb
  simp only at ca cb
  omega

/-- On requested blocks the order of the comparator is the freshness order. -/
theorem staleOrEq_iff_batchLE (c : SentinelBlocks) (hc : c.Ordered) (a b : Int)
    (ha : IsRequestedBlock c a) (hb : IsRequestedBlock c b) :
    staleOrEq c a b ↔ batchLE c.EARLIEST_BLOCK a b := by
  have ca := block_class c hc a ha
  have cb := block_class c hc b hb
  obtain ⟨h1, h2, h3, h4, h5, -⟩ := hc
  unfold staleOrEq batchLE
  generalize freshness c a = fa at ca ⊢
  generalize freshness c b = fb at cb ⊢
  generalize batchClass c.EARLIEST_BLOCK a = ba at ca ⊢
  generalize batchClass c.EARLIEST_BLOCK b = bb at cb ⊢
  obtain ⟨ka, na⟩ := fa
  obtain ⟨kb, nb⟩ := fb
  simp only at ca cb ⊢
  omega

theorem compare_batchLE (e a b : Int) :
    (CompareRequestedBlockInBatch e a b = (a, b) ∧ batchLE e b a) ∨
    (CompareRequestedBlockInBatch e a b = (b, a) ∧ batchLE e a b) := by
  unfold CompareRequestedBlockInBatch returnBigger batchLE batchClass
  split_ifs <;> simp only [Prod.mk.injEq, true_and, and_true] <;> omega

theorem batchLE_refl (e a : Int) : batchLE e a a := by
  unfold batchLE
  omega

theorem batchLE_total (e a b : Int) : batchLE e a b ∨ batchLE e b a := by
  unfold batchLE
  omega

theorem batchLE_antisymm (e a b : Int) (h1 : batchLE e a b) (h2 : batchLE e b a) : a = b := by
  unfold batchLE at h1 h2
  omega

theorem batchLE_trans (e a b c : Int) (h1 : batchLE e a b) (h2 : batchLE e b c) :
    batchLE e a c := by
  unfold batchLE at *
  omega

theorem compare_is_max_min (c : SentinelBlocks) (hc : c.Ordered) (a b : Int)
    (ha : IsRequestedBlock c a) (hb : IsRequestedBlock c b) :
    (CompareRequestedBlockInBatch c.EARLIEST_BLOCK a b = (a, b) ∧ staleOrEq c b a) ∨
    (CompareRequestedBlockInBatch c.EARLIEST_BLOCK a b = (b, a) ∧ staleOrEq c a b) := by
  rw [staleOrEq_iff_batchLE c hc b a hb ha, staleOrEq_iff_batchLE c hc a b ha hb]
  exact compare_batchLE c.EARLIEST_BLOCK a b

theorem latestOf_spec (e x y : Int) :
    (latestOf e x y = x ∨ latestOf e x y = y) ∧
    batchLE e x (latestOf e x y) ∧ batchLE e y (latestOf e x y) := by
  unfold latestOf
  rcases compare_batchLE e x y with ⟨h, hle⟩ | ⟨h, hle⟩
  · rw [h]
    exact ⟨Or.inl rfl, batchLE_refl e x, hle⟩
  · rw [h]
    exact ⟨Or.inr rfl, hle, batchLE_refl e y⟩

theorem earliestOf_spec (e x y : Int) :
    (earliestOf e x y = x ∨ earliestOf e x y = y) ∧
    batchLE e (earliestOf e x y) x ∧ batchLE e (earliestOf e x y) y := by
  unfold earliestOf
  rcases compare_batchLE e x y with ⟨h, hle⟩ | ⟨h, hle⟩
  · rw [h]
    exact ⟨Or.inr rfl, hle, batchLE_refl e y⟩
  · rw [h]
    exact ⟨Or.inl rfl, batchLE_refl e x, hle⟩

theorem latestOf_comm (e x y : Int) : latestOf e x y = latestOf e y x := by
  obtain ⟨h1, h2, h3⟩ := latestOf_spec e x y
  obtain ⟨k1, k2, k3⟩ := latestOf_spec e y x
  generalize latestOf e x y = u at h1 h2 h3 ⊢
  generalize latestOf e y x = v at k1 k2 k3 ⊢
  unfold batchLE at h2 h3 k2 k3
  rcases h1 with rfl | rfl <;> rcases k1 with rfl | rfl <;> omega

theorem earliestOf_comm (e x y : Int) : earliestOf e x y = earliestOf e y x := by
  obtain ⟨h1, h2, h3⟩ := earliestOf_spec e x y
  obtain ⟨k1, k2, k3⟩ := earliestOf_spec e y x
  generalize earliestOf e x y = u at h1 h2 h3 ⊢
  generalize earliestOf e y x = v at k1 k2 k3 ⊢
  unfold batchLE at h2 h3 k2 k3
  rcases h1 with rfl | rfl <;> rcases k1 with rfl | rfl <;> omega

/-- The two components of the reduction are two independent folds. -/
theorem reduceBatch_eq (e first : Int) (rest : List Int) :
    reduceBatch e first rest =
      (rest.foldl (latestOf e) first, rest.foldl (earliestOf e) first) := by
  unfold reduceBatch
  have key : ∀ (l : List Int) (p : Int × Int),
      l.foldl (fun acc x => (latestOf e acc.1 x, earliestOf e acc.2 x)) p =
        (l.foldl (latestOf e) p.1, l.foldl (earliestOf e) p.2) := by
    intro l
    induction l with
    | nil => intro p; rfl
    | cons y ys ih => intro p; simp only [List.foldl_cons]; rw [ih]
  exact key rest (first, first)

theorem foldl_latestOf_max (e : Int) (rest : List Int) : ∀ first : Int,
    rest.foldl (latestOf e) first ∈ first :: rest ∧
    ∀ x ∈ first :: rest, batchLE e x (rest.foldl (latestOf e) first) := by
  induction rest with
  | nil =>
    intro first
    refine ⟨List.mem_singleton.mpr rfl, ?_⟩
    intro x hx
    rw [List.mem_singleton.mp hx]
    exact batchLE_refl e first
  | cons y ys ih =>
    intro first
    obtain ⟨hm, hb⟩ := ih (latestOf e first y)
    obtain ⟨s1, s2, s3⟩ := latestOf_spec e first y
    simp only [List.foldl_cons]
    constructor
    · rcases List.mem_cons.mp hm with h | h
      · rw [h]
        rcases s1 with s1 | s1 <;> rw [s1] <;> simp
      · exact List.mem_cons_of_mem _ (List.mem_cons_of_mem _ h)
    · intro x hx
      have top := hb (latestOf e first y) (List.mem_cons_self _ _)
      rcases List.mem_cons.mp hx with h | h
      · rw [h]
        exact batchLE_trans e _ _ _ s2 top
      · rcases List.mem_cons.mp h with h | h
        · rw [h]
          exact batchLE_trans e _ _ _ s3 top
        · exact hb x (List.mem_cons_of_mem _ h)

theorem foldl_earliestOf_min (e : Int) (rest : List Int) : ∀ first : Int,
    rest.foldl (earliestOf e) first ∈ first :: rest ∧
    ∀ x ∈ first :: rest, batchLE e (rest.foldl (earliestOf e) first) x := by
  induction rest with
  | nil =>
    intro first
    refine ⟨List.mem_singleton.mpr rfl, ?_⟩
    intro x hx
    rw [List.mem_singleton.mp hx]
    exact batchLE_refl e first
  | cons y ys ih =>
    intro first
    obtain ⟨hm, hb⟩ := ih (earliestOf e first y)
    obtain ⟨s1, s2, s3⟩ := earliestOf_spec e first y
    simp only [List.foldl_cons]
    constructor
    · rcases List.mem_cons.mp hm with h | h
      · rw [h]
        rcases s1 with s1 | s1 <;> rw [s1] <;> simp
      · exact List.mem_cons_of_mem _ (List.mem_cons_of_mem _ h)
    · intro x hx
      have bot := hb (earliestOf e first y) (List.mem_cons_self _ _)
      rcases List.mem_cons.mp hx with h | h
      · rw [h]
        exact batchLE_trans e _ _ _ bot s2
      · rcases List.mem_cons.mp h with h | h
        · rw [h]
          exact batchLE_trans e _ _ _ bot s3
        · exact hb x (List.mem_cons_of_mem _ h)

/-- The reduction does not depend on the order of the batch. -/
theorem reduceBatch_perm (e first first' : Int) (rest rest' : List Int)
    (hp : (first' :: rest').Perm (first :: rest)) :
    reduceBatch e first' rest' = reduceBatch e first rest := by
  rw [reduceBatch_eq, reduceBatch_eq]
  obtain ⟨m1, b1⟩ := foldl_latestOf_max e rest first
  obtain ⟨m2, b2⟩ := foldl_latestOf_max e rest' first'
  obtain ⟨n1, c1⟩ := foldl_earliestOf_min e rest first
  obtain ⟨n2, c2⟩ := foldl_earliestOf_min e rest' first'
  have e1 : rest'.foldl (latestOf e) first' = rest.foldl (latestOf e) first :=
    batchLE_antisymm e _ _ (b1 _ (hp.mem_iff.mp m2)) (b2 _ (hp.mem_iff.mpr m1))
  have e2 : rest'.foldl (earliestOf e) first' = rest.foldl (earliestOf e) first :=
    batchLE_antisymm e _ _ (c2 _ (hp.mem_iff.mpr n1)) (c1 _ (hp.mem_iff.mp n2))
  rw [e1, e2]

theorem latestOf_assoc (e x y z : Int) :
    latestOf e (latestOf e x y) z = latestOf e x (latestOf e y z) := by
  have hp : (x :: [y, z]).Perm (y :: [z, x]) := by
    simpa using (List.perm_append_comm : ([x] ++ [y, z]).Perm ([y, z] ++ [x]))
  have h1 := reduceBatch_perm e y x [z, x] [y, z] hp
  rw [reduceBatch_eq, reduceBatch_eq] at h1
  have h2 := congrArg Prod.fst h1
  simp only [List.foldl_cons, List.foldl_nil] at h2
  rw [h2, latestOf_comm e (latestOf e y z) x]

theorem earliestOf_assoc (e x y z : Int) :
    earliestOf e (earliestOf e x y) z = earliestOf e x (earliestOf e y z) := by
  have hp : (x :: [y, z]).Perm (y :: [z, x]) := by
    simpa using (List.perm_append_comm : ([x] ++ [y, z]).Perm ([y, z] ++ [x]))
  have h1 := reduceBatch_perm e y x [z, x] [y, z] hp
  rw [reduceBatch_eq, reduceBatch_eq] at h1
  have h2 := congrArg Prod.snd h1
  simp only [List.foldl_cons, List.foldl_nil] at h2
  rw [h2, earliestOf_comm e (earliestOf e y z) x]

/-! ### Claims on the batch comparator -/

/-- C1: for requested blocks `a` and `b` (sentinels or non-negative numbers),
`CompareRequestedBlockInBatch a b` is the pair of `a` and `b` with the fresher block
first, under the order `NOT_APPLICABLE > LATEST > PENDING > SAFE > FINALIZED >
numbers (bigger is fresher) > EARLIEST`; the order is total and distinguishes any two
requested blocks, and `CompareRequestedBlockInBatch 16 LATEST_BLOCK` is
`(LATEST_BLOCK, 16)`. -/
theorem C1_compare_returns_latest_earliest (c : SentinelBlocks) (hc : c.Ordered) (a b : Int)
    (ha : IsRequestedBlock c a) (hb : IsRequestedBlock c b) :
    ((CompareRequestedBlockInBatch c.EARLIEST_BLOCK a b = (a, b) ∧ staleOrEq c b a) ∨
      (CompareRequestedBlockInBatch c.EARLIEST_BLOCK a b = (b, a) ∧ staleOrEq c a b)) ∧
    (staleOrEq c a b ∨ staleOrEq c b a) ∧
    (staleOrEq c a b → staleOrEq c b a → a = b) ∧
    (freshness c c.NOT_APPLICABLE = (6, 0) ∧ freshness c c.LATEST_BLOCK = (5, 0) ∧
      freshness c c.PENDING_BLOCK = (4, 0) ∧ freshness c c.SAFE_BLOCK = (3, 0) ∧
      freshness c c.FINALIZED_BLOCK = (2, 0) ∧ freshness c c.EARLIEST_BLOCK = (0, 0) ∧
      ∀ n : Int, 0 ≤ n → freshness c n = (1, n.toNat)) ∧
    CompareRequestedBlockInBatch c.EARLIEST_BLOCK 16 c.LATEST_BLOCK = (c.LATEST_BLOCK, 16) := by
  refine ⟨compare_is_max_min c hc a b ha hb, staleOrEq_total c a b, ?_, ?_, ?_⟩
  · intro h1 h2
    rw [staleOrEq_iff_batchLE c hc a b ha hb] at h1
    rw [staleOrEq_iff_batchLE c hc b a hb ha] at h2
    exact batchLE_antisymm _ _ _ h1 h2
  · obtain ⟨f1, f2, f3, f4, f5, f6⟩ := freshness_sentinels c hc
    exact ⟨f1, f2, f3, f4, f5, f6, freshness_of_nonneg c hc⟩
  · obtain ⟨h1, h2, h3, h4, h5, h6, h7, h8, h9, h10, h11⟩ := hc
    unfold CompareRequestedBlockInBatch
    rw [if_neg (by omega), if_neg (Ne.symm h8), if_neg (by omega), if_pos (by omega)]

/-- C1 at the sentinels -1 .. -6: the batch of block 16 and `LATEST_BLOCK`. -/
theorem C1_compare_witness :
    CompareRequestedBlockInBatch (-3) 16 (-2) = (-2, 16) :=
  (C1_compare_returns_latest_earliest chainSentinels (by decide) 16 (-2)
    (by decide) (by decide)).2.2.2.2

/-- C2: reducing a non-empty batch of requested blocks left to right with
`CompareRequestedBlockInBatch` yields a pair of members of the batch, the first at
least as fresh and the second at most as fresh as every member; every permutation of
the batch gives the same pair; and the latest and the earliest component are each
commutative and associative. -/
theorem C2_reduce_batch_max_min (c : SentinelBlocks) (hc : c.Ordered) (first : Int)
    (rest : List Int) (hv : ∀ x ∈ first :: rest, IsRequestedBlock c x) :
    ((reduceBatch c.EARLIEST_BLOCK first rest).1 ∈ first :: rest ∧
      (reduceBatch c.EARLIEST_BLOCK first rest).2 ∈ first :: rest ∧
      ∀ x ∈ first :: rest,
        staleOrEq c x (reduceBatch c.EARLIEST_BLOCK first rest).1 ∧
        staleOrEq c (reduceBatch c.EARLIEST_BLOCK first rest).2 x) ∧
    (∀ (first' : Int) (rest' : List Int), (first' :: rest').Perm (first :: rest) →
      reduceBatch c.EARLIEST_BLOCK first' rest' = reduceBatch c.EARLIEST_BLOCK first rest) ∧
    (∀ x y : Int, latestOf c.EARLIEST_BLOCK x y = latestOf c.EARLIEST_BLOCK y x) ∧
    (∀ x y z : Int, latestOf c.EARLIEST_BLOCK (latestOf c.EARLIEST_BLOCK x y) z =
      latestOf c.EARLIEST_BLOCK x (latestOf c.EARLIEST_BLOCK y z)) ∧
    (∀ x y : Int, earliestOf c.EARLIEST_BLOCK x y = earliestOf c.EARLIEST_BLOCK y x) ∧
    (∀ x y z : Int, earliestOf c.EARLIEST_BLOCK (earliestOf c.EARLIEST_BLOCK x y) z =
      earliestOf c.EARLIEST_BLOCK x (earliestOf c.EARLIEST_BLOCK y z)) := by
  obtain ⟨m1, b1⟩ := foldl_latestOf_max c.EARLIEST_BLOCK rest first
  obtain ⟨n1, c1⟩ := foldl_earliestOf_min c.EARLIEST_BLOCK rest first
  refine ⟨?_, fun first' rest' hp => reduceBatch_perm _ _ _ _ _ hp,
    latestOf_comm _, latestOf_assoc _, earliestOf_comm _, earliestOf_assoc _⟩
  rw [reduceBatch_eq]
  refine ⟨m1, n1, fun x hx => ⟨?_, ?_⟩⟩
  · rw [staleOrEq_iff_batchLE c hc _ _ (hv x hx) (hv _ m1)]
    exact b1 x hx
  · rw [staleOrEq_iff_batchLE c hc _ _ (hv _ n1) (hv x hx)]
    exact c1 x hx

/-- C2 at the sentinels -1 .. -6 on the batch 16, LATEST, 7, EARLIEST, SAFE. -/
theorem C2_reduce_batch_witness :
    reduceBatch (-3) 16 [-2, 7, -3, -5] = (-2, -3) ∧
    reduceBatch (-3) (-5) [-3, 16, 7, -2] = reduceBatch (-3) 16 [-2, 7, -3, -5] :=
  ⟨by decide,
    (C2_reduce_batch_max_min chainSentinels (by decide) 16 [-2, 7, -3, -5]
      (by decide)).2.1 (-5) [-3, 16, 7, -2] (by decide)⟩

/-! ### Header handling -/

theorem directiveOf_eq (lower : Char → Char)
    (bcp : BaseChainParser) (col : ApiCollection) (h : Metadata) :
    bcp.headers.get? ⟨strings.ToLower lower h.Name, col.CollectionData.Type_⟩ =
      directiveOf lower bcp col h := rfl

/-- One iteration of the loop in terms of the three tests on the header. -/
theorem step_eq (lower : Char → Char)
    (bcp : BaseChainParser) (col : ApiCollection) (dir : Header_HeaderType)
    (acc : HandledHeaders) (h : Metadata) :
    HandleHeaders.step lower bcp col dir acc h =
      if isForwarded lower bcp col dir h = true then
        { filteredHeaders := acc.filteredHeaders ++ [h]
          overwriteRequestedBlock :=
            if setsLatest lower bcp col h = true then h.Value else acc.overwriteRequestedBlock
          ignoredMetadata := acc.ignoredMetadata }
      else if isIgnoreKind lower bcp col h = true then
        { acc with ignoredMetadata := acc.ignoredMetadata ++ [h] }
      else acc := by
  unfold HandleHeaders.step isForwarded setsLatest isIgnoreKind
  simp only [directiveOf_eq]
  cases directiveOf lower bcp col h with
  | none => simp
  | some d => simp only [decide_eq_true_eq]

theorem foldl_step_filtered (lower : Char → Char) (bcp : BaseChainParser) (col : ApiCollection)
    (dir : Header_HeaderType) (md : List Metadata) : ∀ acc : HandledHeaders,
    (md.foldl (HandleHeaders.step lower bcp col dir) acc).filteredHeaders =
      acc.filteredHeaders ++ md.filter (isForwarded lower bcp col dir) := by
  induction md with
  | nil => intro acc; simp
  | cons h t ih =>
    intro acc
    rw [List.foldl_cons, ih, step_eq]
    cases hf : isForwarded lower bcp col dir h with
    | true => simp [List.filter_cons_of_pos, hf]
    | false =>
      rw [List.filter_cons_of_neg (by simp [hf])]
      cases isIgnoreKind lower bcp col h <;> simp

theorem foldl_step_ignored (lower : Char → Char) (bcp : BaseChainParser) (col : ApiCollection)
    (dir : Header_HeaderType) (md : List Metadata) : ∀ acc : HandledHeaders,
    (md.foldl (HandleHeaders.step lower bcp col dir) acc).ignoredMetadata =
      acc.ignoredMetadata ++
        md.filter (fun h => !isForwarded lower bcp col dir h && isIgnoreKind lower bcp col h) := by
  induction md with
  | nil => intro acc; simp
  | cons h t ih =>
    intro acc
    rw [List.foldl_cons, ih, step_eq]
    cases hf : isForwarded lower bcp col dir h with
    | true =>
      rw [List.filter_cons_of_neg (by simp [hf])]
      simp
    | false =>
      cases hi : isIgnoreKind lower bcp col h with
      | true =>
        rw [List.filter_cons_of_pos (by simp [hf, hi])]
        simp
      | false =>
        rw [List.filter_cons_of_neg (by simp [hf, hi])]
        simp

theorem foldl_step_overwrite (lower : Char → Char) (bcp : BaseChainParser) (col : ApiCollection)
    (dir : Header_HeaderType) (md : List Metadata) : ∀ acc : HandledHeaders,
    (md.foldl (HandleHeaders.step lower bcp col dir) acc).overwriteRequestedBlock =
      match (md.filter (fun h => isForwarded lower bcp col dir h && setsLatest lower bcp col h)).getLast?
      with
      | some h => h.Value
      | none => acc.overwriteRequestedBlock := by
  induction md with
  | nil => intro acc; simp
  | cons h t ih =>
    intro acc
    rw [List.foldl_cons, ih, step_eq]
    cases hf : isForwarded lower bcp col dir h with
    | true =>
      cases hs : setsLatest lower bcp col h with
      | true =>
        rw [List.filter_cons_of_pos (by simp [hf, hs]), List.getLast?_cons]
        cases (List.filter (fun h => isForwarded lower bcp col dir h && setsLatest lower bcp col h)
          t).getLast? <;> simp
      | false =>
        rw [List.filter_cons_of_neg (by simp [hf, hs])]
        simp
    | false =>
      rw [List.filter_cons_of_neg (by simp [hf])]
      cases isIgnoreKind lower bcp col h <;> simp

theorem HandleHeaders_filtered (lower : Char → Char) (bcp : BaseChainParser) (md : List Metadata)
    (col : ApiCollection) (dir : Header_HeaderType) :
    (HandleHeaders lower bcp md col dir).filteredHeaders = md.filter (isForwarded lower bcp col dir) := by
  unfold HandleHeaders
  split
  · next h0 => rw [List.length_eq_zero.mp h0]; rfl
  · rw [foldl_step_filtered]; rfl

theorem HandleHeaders_ignored (lower : Char → Char) (bcp : BaseChainParser) (md : List Metadata)
    (col : ApiCollection) (dir : Header_HeaderType) :
    (HandleHeaders lower bcp md col dir).ignoredMetadata =
      md.filter (fun h => !isForwarded lower bcp col dir h && isIgnoreKind lower bcp col h) := by
  unfold HandleHeaders
  split
  · next h0 => rw [List.length_eq_zero.mp h0]; rfl
  · rw [foldl_step_ignored]; rfl

theorem HandleHeaders_overwrite (lower : Char → Char) (bcp : BaseChainParser) (md : List Metadata)
    (col : ApiCollection) (dir : Header_HeaderType) :
    (HandleHeaders lower bcp md col dir).overwriteRequestedBlock =
      match (md.filter (fun h => isForwarded lower bcp col dir h && setsLatest lower bcp col h)).getLast?
      with
      | some h => h.Value
      | none => "" := by
  unfold HandleHeaders
  split
  · next h0 => rw [List.length_eq_zero.mp h0]; rfl
  · rw [foldl_step_overwrite]

theorem isForwarded_iff (lower : Char → Char)
    (bcp : BaseChainParser) (col : ApiCollection) (dir : Header_HeaderType)
    (h : Metadata) :
    isForwarded lower bcp col dir h = true ↔
      ∃ d, directiveOf lower bcp col h = some d ∧
        (d.Kind = dir ∨ d.Kind = Header_HeaderType.pass_both) := by
  unfold isForwarded
  cases directiveOf lower bcp col h with
  | none => simp
  | some d => simp

theorem isIgnoreKind_iff (lower : Char → Char)
    (bcp : BaseChainParser) (col : ApiCollection) (h : Metadata) :
    isIgnoreKind lower bcp col h = true ↔
      ∃ d, directiveOf lower bcp col h = some d ∧ d.Kind = Header_HeaderType.pass_ignore := by
  unfold isIgnoreKind
  cases directiveOf lower bcp col h with
  | none => simp
  | some d => simp

/-- C3: the filtered list of `HandleHeaders` is the input list, order kept, restricted
to the headers whose directive under `(lower(name), collection type)` has the kind of
the direction or the kind `pass_both`; a header without a directive is neither in the
filtered nor in the ignored output. -/
theorem C3_filtered_is_forwarded_subsequence (lower : Char → Char)
    (bcp : BaseChainParser) (md : List Metadata)
    (col : ApiCollection) (dir : Header_HeaderType) :
    (HandleHeaders lower bcp md col dir).filteredHeaders =
      md.filter (fun h =>
        match bcp.headers.get? ⟨strings.ToLower lower h.Name, col.CollectionData.Type_⟩ with
        | none => false
        | some d => decide (d.Kind = dir ∨ d.Kind = Header_HeaderType.pass_both)) ∧
    ∀ h : Metadata,
      bcp.headers.get? ⟨strings.ToLower lower h.Name, col.CollectionData.Type_⟩ = none →
      h ∉ (HandleHeaders lower bcp md col dir).filteredHeaders ∧
      h ∉ (HandleHeaders lower bcp md col dir).ignoredMetadata := by
  refine ⟨HandleHeaders_filtered lower bcp md col dir, ?_⟩
  intro h hnone
  rw [HandleHeaders_filtered, HandleHeaders_ignored]
  have hf : isForwarded lower bcp col dir h = false := by
    unfold isForwarded directiveOf
    rw [hnone]
  have hi : isIgnoreKind lower bcp col h = false := by
    unfold isIgnoreKind directiveOf
    rw [hnone]
  constructor
  · intro hmem
    rw [List.mem_filter, hf] at hmem
    exact Bool.false_ne_true hmem.2
  · intro hmem
    rw [List.mem_filter, hf, hi] at hmem
    exact Bool.false_ne_true hmem.2

/-- C4, as the code has it: when the direction is not `pass_ignore`, no header of the
filtered list has a directive of kind `pass_ignore`, and every input header whose
directive has kind `pass_ignore` is in the ignored list. -/
theorem C4_ignored_headers_are_moved (lower : Char → Char)
    (bcp : BaseChainParser) (md : List Metadata)
    (col : ApiCollection) (dir : Header_HeaderType)
    (hdir : dir ≠ Header_HeaderType.pass_ignore) :
    (∀ h ∈ (HandleHeaders lower bcp md col dir).filteredHeaders, ∀ d : Header,
      directiveOf lower bcp col h = some d → d.Kind ≠ Header_HeaderType.pass_ignore) ∧
    (∀ h ∈ md, ∀ d : Header, directiveOf lower bcp col h = some d →
      d.Kind = Header_HeaderType.pass_ignore →
      h ∈ (HandleHeaders lower bcp md col dir).ignoredMetadata) := by
  rw [HandleHeaders_filtered, HandleHeaders_ignored]
  constructor
  · intro h hmem d hd hk
    obtain ⟨d', hd', hk'⟩ := (isForwarded_iff lower bcp col dir h).mp (List.mem_filter.mp hmem).2
    rw [hd] at hd'
    cases hd'
    rcases hk' with hk' | hk'
    · exact hdir (hk'.symm.trans hk)
    · rw [hk] at hk'
      cases hk'
  · intro h hmem d hd hk
    rw [List.mem_filter]
    refine ⟨hmem, ?_⟩
    have hi : isIgnoreKind lower bcp col h = true := (isIgnoreKind_iff lower bcp col h).mpr ⟨d, hd, hk⟩
    have hf : isForwarded lower bcp col dir h = false := by
      cases hfw : isForwarded lower bcp col dir h with
      | false => rfl
      | true =>
        obtain ⟨d', hd', hk'⟩ := (isForwarded_iff lower bcp col dir h).mp hfw
        rw [hd] at hd'
        cases hd'
        rcases hk' with hk' | hk'
        · exact absurd (hk'.symm.trans hk) hdir
        · rw [hk] at hk'
          cases hk'
    rw [hf, hi]
    rfl

/-- C4 on the example parser, direction `pass_send`: the ignored header is moved. -/
theorem C4_ignored_headers_witness :
    (⟨"Lava-Internal", "1"⟩ : Metadata) ∈
      (HandleHeaders Char.toLower headerParser [⟨"X-Trace", "a"⟩, ⟨"Lava-Internal", "1"⟩]
        (restCollection "" []) Header_HeaderType.pass_send).ignoredMetadata :=
  (C4_ignored_headers_are_moved Char.toLower headerParser [⟨"X-Trace", "a"⟩, ⟨"Lava-Internal", "1"⟩]
    (restCollection "" []) Header_HeaderType.pass_send (by decide)).2
    ⟨"Lava-Internal", "1"⟩ (by decide)
    ⟨"lava-internal", Header_HeaderType.pass_ignore, FUNCTION_TAG.DISABLED⟩ (by decide) rfl

/-- C4 fails as stated: with the direction `pass_ignore` a header whose directive has
kind `pass_ignore` is returned in the filtered list and not in the ignored list. -/
theorem C4_counterexample :
    directiveOf Char.toLower headerParser (restCollection "" []) ⟨"Lava-Internal", "1"⟩ =
      some ⟨"lava-internal", Header_HeaderType.pass_ignore, FUNCTION_TAG.DISABLED⟩ ∧
    (⟨"Lava-Internal", "1"⟩ : Metadata) ∈
      (HandleHeaders Char.toLower headerParser [⟨"Lava-Internal", "1"⟩] (restCollection "" [])
        Header_HeaderType.pass_ignore).filteredHeaders ∧
    (⟨"Lava-Internal", "1"⟩ : Metadata) ∉
      (HandleHeaders Char.toLower headerParser [⟨"Lava-Internal", "1"⟩] (restCollection "" [])
        Header_HeaderType.pass_ignore).ignoredMetadata := by
  decide

/-- C5: a header is in the filtered output for `pass_send` or in the one for
`pass_reply` exactly when it is an input header with a directive whose kind is not
`pass_ignore`; an input header whose directive has kind `pass_both` is in both. -/
theorem C5_send_reply_union (lower : Char → Char) (bcp : BaseChainParser) (md : List Metadata)
    (col : ApiCollection) :
    (∀ h : Metadata,
      (h ∈ (HandleHeaders lower bcp md col Header_HeaderType.pass_send).filteredHeaders ∨
        h ∈ (HandleHeaders lower bcp md col Header_HeaderType.pass_reply).filteredHeaders) ↔
      (h ∈ md ∧ ∃ d : Header, directiveOf lower bcp col h = some d ∧
        d.Kind ≠ Header_HeaderType.pass_ignore)) ∧
    (∀ h ∈ md, ∀ d : Header, directiveOf lower bcp col h = some d →
      d.Kind = Header_HeaderType.pass_both →
      h ∈ (HandleHeaders lower bcp md col Header_HeaderType.pass_send).filteredHeaders ∧
      h ∈ (HandleHeaders lower bcp md col Header_HeaderType.pass_reply).filteredHeaders) := by
  simp only [HandleHeaders_filtered, List.mem_filter, isForwarded_iff]
  constructor
  · intro h
    constructor
    · rintro (⟨hm, d, hd, hk⟩ | ⟨hm, d, hd, hk⟩)
      · refine ⟨hm, d, hd, ?_⟩
        rcases hk with hk | hk <;> rw [hk] <;> decide
      · refine ⟨hm, d, hd, ?_⟩
        rcases hk with hk | hk <;> rw [hk] <;> decide
    · rintro ⟨hm, d, hd, hk⟩
      cases hkind : d.Kind with
      | pass_send => exact Or.inl ⟨hm, d, hd, Or.inl hkind⟩
      | pass_reply => exact Or.inr ⟨hm, d, hd, Or.inl hkind⟩
      | pass_both => exact Or.inl ⟨hm, d, hd, Or.inr hkind⟩
      | pass_ignore => exact absurd hkind hk
  · intro h hm d hd hk
    exact ⟨⟨hm, d, hd, Or.inr hk⟩, ⟨hm, d, hd, Or.inr hk⟩⟩

/-- C6: the overwrite block returned by `HandleHeaders` is the value of the last header
of the filtered list whose directive is tagged `SET_LATEST_IN_METADATA`, and the empty
string when the filtered list has none; the header `X-Cosmos-Block-Height: 42`, with
a directive of kind `pass_send` carrying that tag, is forwarded in the direction
`pass_send` and gives the overwrite block `42`. -/
theorem C6_overwrite_is_last_tagged_value (lower : Char → Char)
    (bcp : BaseChainParser) (md : List Metadata)
    (col : ApiCollection) (dir : Header_HeaderType) :
    (HandleHeaders lower bcp md col dir).overwriteRequestedBlock =
      (match ((HandleHeaders lower bcp md col dir).filteredHeaders.filter
          (setsLatest lower bcp col)).getLast? with
        | some h => h.Value
        | none => "") ∧
    (∀ d : Header, directiveOf lower bcp col ⟨"X-Cosmos-Block-Height", "42"⟩ = some d →
      d.Kind = Header_HeaderType.pass_send →
      d.FunctionTag = FUNCTION_TAG.SET_LATEST_IN_METADATA →
      HandleHeaders lower bcp [⟨"X-Cosmos-Block-Height", "42"⟩] col Header_HeaderType.pass_send =
        ⟨[⟨"X-Cosmos-Block-Height", "42"⟩], "42", []⟩) := by
  constructor
  · rw [HandleHeaders_overwrite, HandleHeaders_filtered, List.filter_filter]
    have hfun : (fun h => isForwarded lower bcp col dir h && setsLatest lower bcp col h) =
        (fun a => setsLatest lower bcp col a && isForwarded lower bcp col dir a) := by
      funext h
      exact Bool.and_comm _ _
    rw [hfun]
  · intro d hd hk ht
    have hf : isForwarded lower bcp col Header_HeaderType.pass_send
        ⟨"X-Cosmos-Block-Height", "42"⟩ = true :=
      (isForwarded_iff _ _ _ _ _).mpr ⟨d, hd, Or.inl hk⟩
    have hs : setsLatest lower bcp col ⟨"X-Cosmos-Block-Height", "42"⟩ = true := by
      unfold setsLatest
      rw [hd]
      exact decide_eq_true ht
    unfold HandleHeaders
    rw [if_neg (by decide), List.foldl_cons, List.foldl_nil, step_eq, if_pos hf, if_pos hs]
    rfl

/-- C6 on the example parser: the block-height header sets the overwrite block. -/
theorem C6_block_height_witness :
    HandleHeaders Char.toLower headerParser [⟨"X-Cosmos-Block-Height", "42"⟩] (restCollection "" [])
      Header_HeaderType.pass_send = ⟨[⟨"X-Cosmos-Block-Height", "42"⟩], "42", []⟩ :=
  (C6_overwrite_is_last_tagged_value Char.toLower headerParser [] (restCollection "" [])
    Header_HeaderType.pass_send).2
    ⟨"x-cosmos-block-height", Header_HeaderType.pass_send,
      FUNCTION_TAG.SET_LATEST_IN_METADATA⟩ (by decide) rfl rfl

/-! ### Go maps -/

theorem GoMap.get?_set {K V : Type} [DecidableEq K] (m : GoMap K V) (k k' : K) (v : V) :
    (m.set k v).get? k' = if k = k' then some v else m.get? k' := by
  induction m with
  | nil => simp [GoMap.set, GoMap.get?]
  | cons p rest ih =>
    obtain ⟨k0, v0⟩ := p
    unfold GoMap.set
    by_cases h0 : k0 = k
    · rw [if_pos h0]
      subst h0
      by_cases h1 : k0 = k' <;> simp [GoMap.get?, h1]
    · rw [if_neg h0]
      by_cases h1 : k0 = k'
      · subst h1
        have h2 : ¬ k = k0 := fun h => h0 h.symm
        simp [GoMap.get?, h2]
      · simp only [GoMap.get?, if_neg h1, ih]

theorem GoMap.contains_set {K V : Type} [DecidableEq K] (m : GoMap K V) (k k' : K) (v : V) :
    (m.set k v).contains k' = true ↔ k = k' ∨ m.contains k' = true := by
  unfold GoMap.contains
  rw [GoMap.get?_set]
  by_cases h : k = k' <;> simp [h]

theorem GoMap.contains_iff_mem_keys {K V : Type} [DecidableEq K] (m : GoMap K V) (k : K) :
    m.contains k = true ↔ k ∈ m.keys := by
  induction m with
  | nil => simp [GoMap.contains, GoMap.get?, GoMap.keys]
  | cons p rest ih =>
    obtain ⟨k0, v0⟩ := p
    unfold GoMap.contains at ih ⊢
    unfold GoMap.keys at ih ⊢
    by_cases h : k0 = k
    · simp [GoMap.get?, h]
    · have h' : ¬ k = k0 := fun e => h e.symm
      simp only [GoMap.get?, if_neg h, ih, List.map_cons, List.mem_cons, h', false_or]

/-! ### Policies -/

theorem get?_allowedAddons_update (P : GoMap String Unit) (m : GoMap String Bool) (a : String) :
    GoMap.get? (m.map (fun entry => (entry.1, if P.contains entry.1 then true else entry.2))) a =
      (m.get? a).map (fun v => if P.contains a then true else v) := by
  induction m with
  | nil => rfl
  | cons p rest ih =>
    obtain ⟨k0, v0⟩ := p
    by_cases h : k0 = a
    · subst h
      simp [GoMap.get?]
    · simp only [List.map_cons, GoMap.get?, if_neg h]
      exact ih

theorem keys_allowedAddons_update (P : GoMap String Unit) (m : GoMap String Bool) :
    GoMap.keys (m.map (fun entry => (entry.1, if P.contains entry.1 then true else entry.2))) =
      GoMap.keys m := by
  unfold GoMap.keys
  rw [List.map_map]
  rfl

theorem contains_foldl_addons (l : List String) (a : String) : ∀ m : GoMap String Unit,
    GoMap.contains (l.foldl (fun m addon => m.set addon ()) m) a = true ↔
      (m.contains a = true ∨ a ∈ l) := by
  induction l with
  | nil => intro m; simp
  | cons x xs ih =>
    intro m
    rw [List.foldl_cons, ih, GoMap.contains_set, List.mem_cons]
    constructor
    · rintro ((h | h) | h)
      · exact Or.inr (Or.inl h.symm)
      · exact Or.inl h
      · exact Or.inr (Or.inr h)
    · rintro (h | h | h)
      · exact Or.inl (Or.inr h)
      · exact Or.inl (Or.inl h.symm)
      · exact Or.inr h

theorem contains_foldl_extensions (apiInterface : String) (l : List EndpointService)
    (a : String) : ∀ m : GoMap String Unit,
    GoMap.contains (l.foldl (fun m consumerExtension =>
        if consumerExtension.ApiInterface = apiInterface then
          m.set consumerExtension.Extension ()
        else m) m) a = true ↔
      (m.contains a = true ∨ ∃ s ∈ l, s.ApiInterface = apiInterface ∧ s.Extension = a) := by
  induction l with
  | nil => intro m; simp
  | cons x xs ih =>
    intro m
    rw [List.foldl_cons, ih]
    by_cases hx : x.ApiInterface = apiInterface
    · rw [if_pos hx, GoMap.contains_set]
      constructor
      · rintro ((h | h) | ⟨s, hs, h⟩)
        · exact Or.inr ⟨x, List.mem_cons_self _ _, hx, h⟩
        · exact Or.inl h
        · exact Or.inr ⟨s, List.mem_cons_of_mem _ hs, h⟩
      · rintro (h | ⟨s, hs, h1, h2⟩)
        · exact Or.inl (Or.inr h)
        · rcases List.mem_cons.mp hs with e | e
          · subst e
            exact Or.inl (Or.inl h2)
          · exact Or.inr ⟨s, e, h1, h2⟩
    · rw [if_neg hx]
      constructor
      · rintro (h | ⟨s, hs, h⟩)
        · exact Or.inl h
        · exact Or.inr ⟨s, List.mem_cons_of_mem _ hs, h⟩
      · rintro (h | ⟨s, hs, h1, h2⟩)
        · exact Or.inl h
        · rcases List.mem_cons.mp hs with e | e
          · subst e
            exact absurd h1 hx
          · exact Or.inr ⟨s, e, h1, h2⟩

/-- The map built from a policy holds exactly the names the policy allows. -/
theorem BuildMapFromPolicyQuery_contains (policy : PolicyInf) (chainId apiInterface : String)
    (m : GoMap String Unit)
    (h : BuildMapFromPolicyQuery policy chainId apiInterface = Except.ok m) (a : String) :
    m.contains a = policyAllows policy chainId apiInterface a := by
  unfold BuildMapFromPolicyQuery at h
  unfold policyAllows
  cases hA : policy.GetSupportedAddons chainId with
  | error err => rw [hA] at h; cases h
  | ok addons =>
    cases hE : policy.GetSupportedExtensions chainId with
    | error err => rw [hA, hE] at h; cases h
    | ok extensions =>
      rw [hA, hE] at h
      simp only [Except.ok.injEq] at h
      rw [Bool.eq_iff_iff, ← h, contains_foldl_extensions, contains_foldl_addons]
      simp [GoMap.contains, GoMap.get?]

/-- The method `SetPolicy` returns no error exactly when both queries of the policy succeed. -/
theorem SetPolicy_ok (bcp : BaseChainParser) (policy : PolicyInf)
    (chainId apiInterface : String)
    (h : (SetPolicy bcp policy chainId apiInterface).2 = none) :
    ∃ m, BuildMapFromPolicyQuery policy chainId apiInterface = Except.ok m ∧
      (SetPolicy bcp policy chainId apiInterface).1 = SetPolicyFromAddonAndExtensionMap bcp m := by
  unfold SetPolicy at h ⊢
  cases hB : BuildMapFromPolicyQuery policy chainId apiInterface with
  | error err => rw [hB] at h; cases h
  | ok m => exact ⟨m, rfl, rfl⟩

/-! ### The configured extensions -/

theorem configureCollection_cons (P : GoMap String Unit) (ck : CollectionKey)
    (acc : GoMap ExtensionKey Extension) (e : Extension) (es : List Extension) :
    configureCollection P ck acc (e :: es) =
      configureCollection P ck
        (if e.Name = "" then acc
          else if P.contains e.Name then
            acc.set ⟨e.Name, ck.ConnectionType, ck.InternalPath, ck.Addon⟩ e
          else acc) es := rfl

theorem configureCollection_get? (P : GoMap String Unit) (ck : CollectionKey)
    (exts : List Extension) : ∀ (acc : GoMap ExtensionKey Extension) (k : ExtensionKey)
    (e : Extension), (configureCollection P ck acc exts).get? k = some e →
      acc.get? k = some e ∨
      (e ∈ exts ∧ e.Name ≠ "" ∧ P.contains e.Name = true ∧
        k = ⟨e.Name, ck.ConnectionType, ck.InternalPath, ck.Addon⟩) := by
  induction exts with
  | nil => intro acc k e h; exact Or.inl h
  | cons x xs ih =>
    intro acc k e h
    rw [configureCollection_cons] at h
    rcases ih _ k e h with h1 | ⟨h1, h2, h3, h4⟩
    · by_cases hn : x.Name = ""
      · rw [if_pos hn] at h1
        exact Or.inl h1
      · rw [if_neg hn] at h1
        by_cases hp : P.contains x.Name = true
        · rw [if_pos hp, GoMap.get?_set] at h1
          by_cases hk : (⟨x.Name, ck.ConnectionType, ck.InternalPath, ck.Addon⟩ : ExtensionKey) = k
          · rw [if_pos hk] at h1
            cases h1
            exact Or.inr ⟨List.mem_cons_self _ _, hn, hp, hk.symm⟩
          · rw [if_neg hk] at h1
            exact Or.inl h1
        · rw [if_neg hp] at h1
          exact Or.inl h1
    · exact Or.inr ⟨List.mem_cons_of_mem _ h1, h2, h3, h4⟩

theorem configureCollection_contains (P : GoMap String Unit) (ck : CollectionKey)
    (exts : List Extension) : ∀ (acc : GoMap ExtensionKey Extension) (k : ExtensionKey),
    (configureCollection P ck acc exts).contains k = true ↔
      (acc.contains k = true ∨
        ∃ e ∈ exts, e.Name ≠ "" ∧ P.contains e.Name = true ∧
          k = ⟨e.Name, ck.ConnectionType, ck.InternalPath, ck.Addon⟩) := by
  induction exts with
  | nil => intro acc k; simp [configureCollection]
  | cons x xs ih =>
    intro acc k
    rw [configureCollection_cons, ih]
    by_cases hn : x.Name = ""
    · rw [if_pos hn]
      constructor
      · rintro (h | ⟨e, he, h⟩)
        · exact Or.inl h
        · exact Or.inr ⟨e, List.mem_cons_of_mem _ he, h⟩
      · rintro (h | ⟨e, he, h1, h2, h3⟩)
        · exact Or.inl h
        · rcases List.mem_cons.mp he with heq | hmem
          · subst heq
            exact absurd hn h1
          · exact Or.inr ⟨e, hmem, h1, h2, h3⟩
    · rw [if_neg hn]
      by_cases hp : P.contains x.Name = true
      · rw [if_pos hp, GoMap.contains_set]
        constructor
        · rintro ((h | h) | ⟨e, he, h⟩)
          · exact Or.inr ⟨x, List.mem_cons_self _ _, hn, hp, h.symm⟩
          · exact Or.inl h
          · exact Or.inr ⟨e, List.mem_cons_of_mem _ he, h⟩
        · rintro (h | ⟨e, he, h1, h2, h3⟩)
          · exact Or.inl (Or.inr h)
          · rcases List.mem_cons.mp he with heq | hmem
            · subst heq
              exact Or.inl (Or.inl h3.symm)
            · exact Or.inr ⟨e, hmem, h1, h2, h3⟩
      · rw [if_neg hp]
        constructor
        · rintro (h | ⟨e, he, h⟩)
          · exact Or.inl h
          · exact Or.inr ⟨e, List.mem_cons_of_mem _ he, h⟩
        · rintro (h | ⟨e, he, h1, h2, h3⟩)
          · exact Or.inl h
          · rcases List.mem_cons.mp he with heq | hmem
            · subst heq
              exact absurd h2 hp
            · exact Or.inr ⟨e, hmem, h1, h2, h3⟩

theorem foldl_configure_get? (P : GoMap String Unit)
    (cols : GoMap CollectionKey ApiCollection) :
    ∀ (acc : GoMap ExtensionKey Extension) (k : ExtensionKey) (e : Extension),
    GoMap.get? (cols.foldl (fun acc entry =>
        configureCollection P entry.1 acc entry.2.Extensions) acc) k = some e →
      acc.get? k = some e ∨
      ∃ entry ∈ cols, e ∈ entry.2.Extensions ∧ e.Name ≠ "" ∧ P.contains e.Name = true ∧
        k = ⟨e.Name, entry.1.ConnectionType, entry.1.InternalPath, entry.1.Addon⟩ := by
  induction cols with
  | nil => intro acc k e h; exact Or.inl h
  | cons c cs ih =>
    intro acc k e h
    rw [List.foldl_cons] at h
    rcases ih _ k e h with h1 | ⟨entry, hm, h2⟩
    · rcases configureCollection_get? P c.1 c.2.Extensions acc k e h1 with h3 | h3
      · exact Or.inl h3
      · exact Or.inr ⟨c, List.mem_cons_self _ _, h3⟩
    · exact Or.inr ⟨entry, List.mem_cons_of_mem _ hm, h2⟩

theorem foldl_configure_contains (P : GoMap String Unit)
    (cols : GoMap CollectionKey ApiCollection) :
    ∀ (acc : GoMap ExtensionKey Extension) (k : ExtensionKey),
    GoMap.contains (cols.foldl (fun acc entry =>
        configureCollection P entry.1 acc entry.2.Extensions) acc) k = true ↔
      (acc.contains k = true ∨
        ∃ entry ∈ cols, ∃ e ∈ entry.2.Extensions, e.Name ≠ "" ∧ P.contains e.Name = true ∧
          k = ⟨e.Name, entry.1.ConnectionType, entry.1.InternalPath, entry.1.Addon⟩) := by
  induction cols with
  | nil => intro acc k; simp
  | cons c cs ih =>
    intro acc k
    rw [List.foldl_cons, ih, configureCollection_contains]
    constructor
    · rintro ((h | ⟨e, he, h⟩) | ⟨entry, hm, h⟩)
      · exact Or.inl h
      · exact Or.inr ⟨c, List.mem_cons_self _ _, e, he, h⟩
      · exact Or.inr ⟨entry, List.mem_cons_of_mem _ hm, h⟩
    · rintro (h | ⟨entry, hm, e, he, h⟩)
      · exact Or.inl (Or.inl h)
      · rcases List.mem_cons.mp hm with heq | hmem
        · subst heq
          exact Or.inl (Or.inr ⟨e, he, h⟩)
        · exact Or.inr ⟨entry, hmem, e, he, h⟩

/-! ### Claims on the policy -/

/-- C7, at the failing input: on a parser whose addon keys are all `false`, a policy
that allows `debug` followed by a policy that allows nothing leaves `debug` set to
`true`, although the second policy does not contain it; the keys are unchanged. -/
theorem C7_addon_stays_allowed_after_narrower_policy :
    (SetPolicyFromAddonAndExtensionMap
      (SetPolicyFromAddonAndExtensionMap addonParser [("debug", ())]) []).allowedAddons =
      [("", false), ("debug", true)] ∧
    GoMap.contains ([] : GoMap String Unit) "debug" = false ∧
    addonParser.allowedAddons = [("", false), ("debug", false)] := by
  decide

/-- Where the claim on `Validate` holds: when `SetPolicy` returns no error and the entry
of the addon of the message was not `true` before the call, `Validate` succeeds exactly
when the addon is the empty string, or is a key of `allowedAddons` and allowed by the
policy. -/
theorem Validate_after_SetPolicy_of_not_stale (bcp : BaseChainParser) (policy : PolicyInf)
    (chainId apiInterface : String) (msg : baseChainMessageContainer)
    (herr : (SetPolicy bcp policy chainId apiInterface).2 = none)
    (hstale : bcp.allowedAddons.get? (GetAddon msg) ≠ some true) :
    Validate (SetPolicy bcp policy chainId apiInterface).1 msg = Except.ok () ↔
      (GetAddon msg = "" ∨
        (bcp.allowedAddons.contains (GetAddon msg) = true ∧
          policyAllows policy chainId apiInterface (GetAddon msg) = true)) := by
  obtain ⟨m, hm, hs⟩ := SetPolicy_ok bcp policy chainId apiInterface herr
  rw [hs, ← BuildMapFromPolicyQuery_contains policy chainId apiInterface m hm]
  unfold Validate validateAddons SetPolicyFromAddonAndExtensionMap
  simp only [get?_allowedAddons_update]
  by_cases h0 : GetAddon msg = ""
  · simp [h0]
  · unfold GoMap.contains
    cases hg : GoMap.get? bcp.allowedAddons (GetAddon msg) with
    | none => simp [h0]
    | some v =>
      have hv : v = false := by
        cases v with
        | false => rfl
        | true => exact absurd hg hstale
      subst hv
      by_cases hc : (GoMap.get? m (GetAddon msg)).isSome = true <;> simp [h0, hc]

/-- C8, at the failing input: on the parser built from a spec with a collection of the
addon `debug`, a policy that allows `debug` is set and then a policy that allows
nothing; both calls of `SetPolicy` return no error, the message is an api of the spec
with its own collection, its addon `debug` is not empty and not allowed by the policy
set last, and `Validate` accepts it. On the parser as built, the policy that allows
nothing makes `Validate` reject the message. -/
theorem C8_stale_addon_is_validated :
    (SetPolicy (parserOf emptyParser debugSpec "rest") debugPolicy "LAV1" "rest").2 = none ∧
    (SetPolicy (SetPolicy (parserOf emptyParser debugSpec "rest") debugPolicy "LAV1" "rest").1
      noPolicy "LAV1" "rest").2 = none ∧
    debugTraceMessage.apiCollection ∈ debugSpec.ApiCollections ∧
    debugTraceMessage.api ∈ debugTraceMessage.apiCollection.Apis ∧
    GetAddon debugTraceMessage = "debug" ∧
    policyAllows noPolicy "LAV1" "rest" (GetAddon debugTraceMessage) = false ∧
    Validate
      (SetPolicy (SetPolicy (parserOf emptyParser debugSpec "rest") debugPolicy "LAV1" "rest").1
        noPolicy "LAV1" "rest").1 debugTraceMessage = Except.ok () ∧
    Validate (SetPolicy (parserOf emptyParser debugSpec "rest") noPolicy "LAV1" "rest").1
      debugTraceMessage = Except.error "consumer policy does not allow addon" :=
  ⟨by decide, by decide, by decide, by decide, by decide, by decide, rfl, rfl⟩

/-- C9: applying `SetPolicyFromAddonAndExtensionMap` a second time with the same policy
map leaves `allowedAddons` and the configured extensions (the whole parser, in fact)
as they are after the first application. -/
theorem C9_SetPolicy_idempotent (bcp : BaseChainParser) (P : GoMap String Unit) :
    (SetPolicyFromAddonAndExtensionMap (SetPolicyFromAddonAndExtensionMap bcp P) P).allowedAddons
      = (SetPolicyFromAddonAndExtensionMap bcp P).allowedAddons ∧
    (SetPolicyFromAddonAndExtensionMap
      (SetPolicyFromAddonAndExtensionMap bcp P) P).extensionParser.configuredExtensions
      = (SetPolicyFromAddonAndExtensionMap bcp P).extensionParser.configuredExtensions ∧
    SetPolicyFromAddonAndExtensionMap (SetPolicyFromAddonAndExtensionMap bcp P) P =
      SetPolicyFromAddonAndExtensionMap bcp P := by
  have hmap : (bcp.allowedAddons.map (fun entry =>
      (entry.1, if P.contains entry.1 then true else entry.2))).map (fun entry =>
      (entry.1, if P.contains entry.1 then true else entry.2)) =
      bcp.allowedAddons.map (fun entry =>
        (entry.1, if P.contains entry.1 then true else entry.2)) := by
    rw [List.map_map]
    apply List.map_congr_left
    intro entry _
    simp only [Function.comp]
    split <;> rfl
  have hwhole : SetPolicyFromAddonAndExtensionMap (SetPolicyFromAddonAndExtensionMap bcp P) P =
      SetPolicyFromAddonAndExtensionMap bcp P := by
    unfold SetPolicyFromAddonAndExtensionMap ExtensionParser.SetConfiguredExtensions
    simp only [hmap]
  exact ⟨by rw [hwhole], by rw [hwhole], hwhole⟩

/-- C10: after `SetPolicyFromAddonAndExtensionMap P` the keys of the configured
extensions are exactly the keys `(e.Name, ConnectionType, InternalPath, Addon)` of the
indexed collections and their extensions `e` with a non-empty name that is in `P`;
every entry holds an extension declared by a collection with the key's connection
type, internal path and addon, under its own name; and the table does not depend on
the table configured before. -/
theorem C10_configured_extensions_rebuilt (bcp : BaseChainParser) (P : GoMap String Unit) :
    (∀ k : ExtensionKey,
      (SetPolicyFromAddonAndExtensionMap bcp P).extensionParser.configuredExtensions.contains k
        = true ↔
      ∃ entry ∈ bcp.apiCollections, ∃ e ∈ entry.2.Extensions,
        e.Name ≠ "" ∧ P.contains e.Name = true ∧
        k = ⟨e.Name, entry.1.ConnectionType, entry.1.InternalPath, entry.1.Addon⟩) ∧
    (∀ (k : ExtensionKey) (e : Extension),
      (SetPolicyFromAddonAndExtensionMap bcp P).extensionParser.configuredExtensions.get? k
        = some e →
      ∃ entry ∈ bcp.apiCollections, e ∈ entry.2.Extensions ∧ e.Name ≠ "" ∧
        P.contains e.Name = true ∧
        k = ⟨e.Name, entry.1.ConnectionType, entry.1.InternalPath, entry.1.Addon⟩) ∧
    (∀ previous : GoMap ExtensionKey Extension,
      (SetPolicyFromAddonAndExtensionMap
        { bcp with extensionParser :=
            { bcp.extensionParser with configuredExtensions := previous } }
        P).extensionParser.configuredExtensions =
      (SetPolicyFromAddonAndExtensionMap bcp P).extensionParser.configuredExtensions) := by
  refine ⟨?_, ?_, fun previous => rfl⟩
  · intro k
    have h := foldl_configure_contains P bcp.apiCollections [] k
    simp only [GoMap.contains, GoMap.get?, Option.isSome_none, Bool.false_eq_true,
      false_or] at h
    exact h
  · intro k e hk
    rcases foldl_configure_get? P bcp.apiCollections [] k e hk with h | h
    · cases h
    · exact h

/-! ### Separating addons and extensions -/

theorem firstOccurrences_cons (x : String) (xs : List String) :
    firstOccurrences (x :: xs) =
      x :: (firstOccurrences xs).filter (fun y => decide (y ≠ x)) := rfl

theorem mem_firstOccurrences (l : List String) (s : String) :
    s ∈ firstOccurrences l ↔ s ∈ l := by
  induction l with
  | nil => simp [firstOccurrences]
  | cons x xs ih =>
    rw [firstOccurrences_cons]
    by_cases h : s = x
    · simp [h]
    · simp [h, List.mem_filter, ih]

theorem nodup_firstOccurrences (l : List String) : (firstOccurrences l).Nodup := by
  induction l with
  | nil => simp [firstOccurrences]
  | cons x xs ih =>
    rw [firstOccurrences_cons, List.nodup_cons]
    refine ⟨?_, ih.filter _⟩
    simp [List.mem_filter]

theorem firstOccurrences_filter (q : String → Bool) (l : List String) :
    firstOccurrences (l.filter q) = (firstOccurrences l).filter q := by
  induction l with
  | nil => rfl
  | cons x xs ih =>
    by_cases hq : q x = true
    · rw [List.filter_cons_of_pos hq, firstOccurrences_cons, firstOccurrences_cons,
        List.filter_cons_of_pos hq, ih, List.filter_filter, List.filter_filter]
      congr 1
      apply List.filter_congr
      intro y _
      exact Bool.and_comm _ _
    · rw [List.filter_cons_of_neg hq, ih, firstOccurrences_cons,
        List.filter_cons_of_neg hq, List.filter_filter]
      apply List.filter_congr
      intro y _
      by_cases hy : y = x
      · subst hy
        simp [hq]
      · simp [hy]

theorem uncheckedOccurrences_cons (checked : GoMap String Unit) (x : String)
    (xs : List String) :
    uncheckedOccurrences checked (x :: xs) =
      if checked.contains x = true then uncheckedOccurrences checked xs
      else x :: uncheckedOccurrences (checked.set x ()) xs := by
  unfold uncheckedOccurrences
  rw [firstOccurrences_cons]
  by_cases hc : checked.contains x = true
  · rw [if_pos hc, List.filter_cons_of_neg (by simp [hc]), List.filter_filter]
    apply List.filter_congr
    intro y _
    by_cases hy : y = x
    · subst hy
      simp [hc]
    · simp [hy]
  · rw [if_neg hc, List.filter_cons_of_pos (by simpa using hc), List.filter_filter]
    congr 1
    apply List.filter_congr
    intro y _
    have hset := GoMap.contains_set checked x y ()
    by_cases hy : y = x
    · subst hy
      simp [(hset.mpr (Or.inl rfl))]
    · have hxy : ¬ x = y := fun e => hy e.symm
      by_cases hcy : checked.contains y = true
      · simp [hy, hcy, hset.mpr (Or.inr hcy)]
      · have : ¬ (GoMap.contains (GoMap.set checked x ()) y = true) := by
          rw [hset]
          rintro (e | e)
          · exact hxy e
          · exact hcy e
        simp [hy, hcy, this]

theorem uncheckedOccurrences_nil (l : List String) :
    uncheckedOccurrences [] l = firstOccurrences l := by
  unfold uncheckedOccurrences
  rw [List.filter_eq_self]
  intro a _
  rfl

/-- The loop of `SeparateAddonsExtensions` from any state: what it returns in terms of
the first occurrences that were not checked before. -/
theorem foldl_separate (bcp : BaseChainParser) (l : List String) :
    ∀ acc : SeparatedSupported,
    (l.foldl (SeparateAddonsExtensions.step bcp) acc).addons =
      acc.addons ++ (uncheckedOccurrences acc.checked l).filter (isAddon bcp) ∧
    (l.foldl (SeparateAddonsExtensions.step bcp) acc).extensions =
      acc.extensions ++ (uncheckedOccurrences acc.checked l).filter
        (fun s => !isAddon bcp s && decide (s ≠ "") && isExtension bcp s) ∧
    (l.foldl (SeparateAddonsExtensions.step bcp) acc).err =
      acc.err ++ (uncheckedOccurrences acc.checked l).filter (isInvalidSupported bcp) := by
  induction l with
  | nil =>
    intro acc
    simp [uncheckedOccurrences, firstOccurrences]
  | cons x xs ih =>
    intro acc
    rw [List.foldl_cons, uncheckedOccurrences_cons]
    obtain ⟨i1, i2, i3⟩ := ih (SeparateAddonsExtensions.step bcp acc x)
    rw [i1, i2, i3]
    by_cases hc : acc.checked.contains x = true
    · have hs : SeparateAddonsExtensions.step bcp acc x = acc := by
        unfold SeparateAddonsExtensions.step
        rw [if_pos hc]
      rw [hs, if_pos hc]
      exact ⟨rfl, rfl, rfl⟩
    · rw [if_neg hc]
      by_cases ha : isAddon bcp x = true
      · have hs : SeparateAddonsExtensions.step bcp acc x =
            { acc with checked := acc.checked.set x (), addons := acc.addons ++ [x] } := by
          unfold SeparateAddonsExtensions.step
          rw [if_neg hc]
          simp only [ha, if_true]
        rw [hs]
        simp [ha, isInvalidSupported]
      · by_cases he : x = ""
        · subst he
          have hs : SeparateAddonsExtensions.step bcp acc "" =
              { acc with checked := acc.checked.set "" () } := by
            unfold SeparateAddonsExtensions.step
            rw [if_neg hc]
            simp only [ha]
            rfl
          rw [hs]
          simp [ha, isInvalidSupported]
        · by_cases hx : isExtension bcp x = true
          · have hs : SeparateAddonsExtensions.step bcp acc x =
                { acc with checked := acc.checked.set x (),
                           extensions := acc.extensions ++ [x] } := by
              unfold SeparateAddonsExtensions.step
              rw [if_neg hc]
              simp only [ha, he, hx, if_true]
              rfl
            rw [hs]
            simp [ha, he, hx, isInvalidSupported]
          · have hs : SeparateAddonsExtensions.step bcp acc x =
                { acc with checked := acc.checked.set x (), err := acc.err ++ [x] } := by
              unfold SeparateAddonsExtensions.step
              rw [if_neg hc]
              simp only [ha, he, hx]
              rfl
            rw [hs]
            simp [ha, he, hx, isInvalidSupported]

theorem SeparateAddonsExtensions_eq (bcp : BaseChainParser) (supported : List String) :
    (SeparateAddonsExtensions bcp supported).addons =
      (firstOccurrences supported).filter (isAddon bcp) ∧
    (SeparateAddonsExtensions bcp supported).extensions =
      (firstOccurrences supported).filter
        (fun s => !isAddon bcp s && decide (s ≠ "") && isExtension bcp s) ∧
    (SeparateAddonsExtensions bcp supported).err =
      (firstOccurrences supported).filter (isInvalidSupported bcp) := by
  have h := foldl_separate bcp supported ⟨[], [], [], []⟩
  simp only [uncheckedOccurrences_nil, List.nil_append] at h
  exact h

/-- C11, as the code has it: the empty string is never among the returned extensions
and never reported invalid, and dropping it from the input changes neither the
extensions nor the error; it is among the returned addons exactly when it is in the
input and is a key of `allowedAddons`. -/
theorem C11_empty_string_separated (bcp : BaseChainParser) (supported : List String) :
    "" ∉ (SeparateAddonsExtensions bcp supported).extensions ∧
    "" ∉ (SeparateAddonsExtensions bcp supported).err ∧
    (SeparateAddonsExtensions bcp (supported.filter (fun s => decide (s ≠ "")))).extensions =
      (SeparateAddonsExtensions bcp supported).extensions ∧
    (SeparateAddonsExtensions bcp (supported.filter (fun s => decide (s ≠ "")))).err =
      (SeparateAddonsExtensions bcp supported).err ∧
    ("" ∈ (SeparateAddonsExtensions bcp supported).addons ↔
      ("" ∈ supported ∧ isAddon bcp "" = true)) := by
  obtain ⟨h1, h2, h3⟩ := SeparateAddonsExtensions_eq bcp supported
  obtain ⟨-, k2, k3⟩ :=
    SeparateAddonsExtensions_eq bcp (supported.filter (fun s => decide (s ≠ "")))
  rw [h1, h2, h3, k2, k3, firstOccurrences_filter, List.filter_filter, List.filter_filter]
  refine ⟨?_, ?_, ?_, ?_, ?_⟩
  · simp [List.mem_filter]
  · simp [List.mem_filter, isInvalidSupported]
  · apply List.filter_congr
    intro y _
    by_cases hy : y = "" <;> simp [hy]
  · apply List.filter_congr
    intro y _
    by_cases hy : y = "" <;> simp [hy, isInvalidSupported]
  · rw [List.mem_filter, mem_firstOccurrences]

/-- C11 fails as stated: on a parser whose spec has the default collection, so that
the empty string is a key of `allowedAddons`, the input with the empty string alone
returns the empty string as an addon. -/
theorem C11_counterexample :
    plainParser.allowedAddons = [("", false)] ∧
    (SeparateAddonsExtensions plainParser [""]).addons = [""] := by
  decide

/-- C12: `SeparateAddonsExtensions` returns an error exactly when the input holds a
non-empty string that is neither a key of `allowedAddons` nor an allowed extension;
the returned addons and extensions have no duplicates, are in the order of first
occurrence in the input, and are the lists returned, without error, for the input
with the invalid strings removed. -/
theorem C12_error_iff_invalid_supported (bcp : BaseChainParser) (supported : List String) :
    ((SeparateAddonsExtensions bcp supported).err ≠ [] ↔
      ∃ s ∈ supported, s ≠ "" ∧ isAddon bcp s = false ∧ isExtension bcp s = false) ∧
    (SeparateAddonsExtensions bcp supported).addons.Nodup ∧
    (SeparateAddonsExtensions bcp supported).extensions.Nodup ∧
    (SeparateAddonsExtensions bcp supported).addons =
      (firstOccurrences supported).filter (isAddon bcp) ∧
    (SeparateAddonsExtensions bcp supported).extensions =
      (firstOccurrences supported).filter
        (fun s => !isAddon bcp s && decide (s ≠ "") && isExtension bcp s) ∧
    (SeparateAddonsExtensions bcp
      (supported.filter (fun s => !isInvalidSupported bcp s))).addons =
      (SeparateAddonsExtensions bcp supported).addons ∧
    (SeparateAddonsExtensions bcp
      (supported.filter (fun s => !isInvalidSupported bcp s))).extensions =
      (SeparateAddonsExtensions bcp supported).extensions ∧
    (SeparateAddonsExtensions bcp
      (supported.filter (fun s => !isInvalidSupported bcp s))).err = [] := by
  obtain ⟨h1, h2, h3⟩ := SeparateAddonsExtensions_eq bcp supported
  obtain ⟨k1, k2, k3⟩ :=
    SeparateAddonsExtensions_eq bcp (supported.filter (fun s => !isInvalidSupported bcp s))
  rw [k1, k2, k3, firstOccurrences_filter, List.filter_filter, List.filter_filter,
    List.filter_filter]
  refine ⟨?_, ?_, ?_, h1, h2, ?_, ?_, ?_⟩
  · rw [h3, Ne, List.filter_eq_nil_iff]
    simp only [mem_firstOccurrences, isInvalidSupported, not_forall, Bool.and_eq_true,
      Bool.not_eq_true', decide_eq_true_eq, Classical.not_not, exists_prop]
    constructor
    · rintro ⟨s, hs, ⟨ha, hn⟩, he⟩
      exact ⟨s, hs, hn, ha, he⟩
    · rintro ⟨s, hs, hn, ha, he⟩
      exact ⟨s, hs, ⟨ha, hn⟩, he⟩
  · rw [h1]
    exact (nodup_firstOccurrences supported).filter _
  · rw [h2]
    exact (nodup_firstOccurrences supported).filter _
  · rw [h1]
    apply List.filter_congr
    intro y _
    by_cases ha : isAddon bcp y = true <;> simp [ha, isInvalidSupported]
  · rw [h2]
    apply List.filter_congr
    intro y _
    by_cases ha : isAddon bcp y = true <;> by_cases he : isExtension bcp y = true <;>
      simp [ha, he, isInvalidSupported]
  · rw [List.filter_eq_nil_iff]
    intro y _
    simp

/-! ### Verifications -/

theorem foldl_append_flatMap {α β : Type} (f : α → List β) (l : List α) :
    ∀ init : List β, l.foldl (fun r x => r ++ f x) init = init ++ l.flatMap f := by
  induction l with
  | nil => intro init; simp
  | cons x xs ih =>
    intro init
    rw [List.foldl_cons, ih, List.flatMap_cons, List.append_assoc]

/-- The two nested loops of `GetVerifications` as one concatenation. -/
theorem collectVerifications_eq (bcp : BaseChainParser) (addons extensions : List String) :
    addons.foldl (fun retVerifications addon =>
      extensions.foldl (fun retVerifications extension =>
        match bcp.verifications.get? ⟨extension, addon⟩ with
        | some verifications => retVerifications ++ verifications
        | none => retVerifications) retVerifications) [] =
    addons.flatMap (fun addon => extensions.flatMap (fun extension =>
      (bcp.verifications.get? ⟨extension, addon⟩).getD [])) := by
  have inner : ∀ addon : String,
      (fun (retVerifications : List VerificationContainer) (extension : String) =>
        match bcp.verifications.get? ⟨extension, addon⟩ with
        | some verifications => retVerifications ++ verifications
        | none => retVerifications) =
      (fun r extension => r ++ (bcp.verifications.get? ⟨extension, addon⟩).getD []) := by
    intro addon
    funext r extension
    cases GoMap.get? bcp.verifications ⟨extension, addon⟩ <;> simp
  simp only [inner, foldl_append_flatMap]
  rfl

/-- C13, as the code has it: when `SeparateAddonsExtensions` accepts the list,
`GetVerifications` returns, without error, the concatenation of the verifications
stored under the keys `(extension, addon)` for the addon ranging over the returned
addons followed by the empty addon and, for each addon, the extension ranging over
the returned extensions, or over the empty extension alone when none was returned. -/
theorem C13_verifications_concatenated (bcp : BaseChainParser) (supported : List String)
    (hok : (SeparateAddonsExtensions bcp supported).err = []) :
    GetVerifications bcp supported =
      (((SeparateAddonsExtensions bcp supported).addons ++ [""]).flatMap (fun addon =>
        (if (SeparateAddonsExtensions bcp supported).extensions = [] then [""]
          else (SeparateAddonsExtensions bcp supported).extensions).flatMap (fun extension =>
            (bcp.verifications.get? ⟨extension, addon⟩).getD [])), []) := by
  unfold GetVerifications
  simp only [hok, ne_eq, not_true_eq_false, if_false, List.length_eq_zero]
  rw [collectVerifications_eq]

/-- C13 on the example parser: the addon `debug` and the extension `archive`. -/
theorem C13_verifications_witness :
    GetVerifications verificationParser ["archive", "debug"] =
      ([verifArchiveDebug, verifArchive], []) :=
  (C13_verifications_concatenated verificationParser ["archive", "debug"] (by decide)).trans
    (by decide)

/-- C13 fails as stated: with a returned extension the keys of the empty extension are
not read; the verification stored under `("", debug)` is not returned although
`debug` is a returned addon. -/
theorem C13_counterexample :
    (SeparateAddonsExtensions verificationParser ["archive", "debug"]).err = [] ∧
    (SeparateAddonsExtensions verificationParser ["archive", "debug"]).addons = ["debug"] ∧
    verificationParser.verifications.get? ⟨"", "debug"⟩ = some [verifDebug] ∧
    verifDebug ∉ (GetVerifications verificationParser ["archive", "debug"]).1 := by
  decide

/-- C15, as the code has it: when `archive` is an allowed extension, `debug` an addon
key and `unknownX` neither, `GetVerifications` on the three of them returns no
verification and the error that reports `unknownX`, and nothing else, invalid. -/
theorem C15_unknown_supported_is_an_error (bcp : BaseChainParser)
    (harchive : isExtension bcp "archive" = true) (hdebug : isAddon bcp "debug" = true)
    (hnoAddon : isAddon bcp "unknownX" = false)
    (hnoExtension : isExtension bcp "unknownX" = false) :
    GetVerifications bcp ["archive", "debug", "unknownX"] = ([], ["unknownX"]) := by
  have herr : (SeparateAddonsExtensions bcp ["archive", "debug", "unknownX"]).err =
      ["unknownX"] := by
    rw [(SeparateAddonsExtensions_eq bcp _).2.2]
    have hfo : firstOccurrences ["archive", "debug", "unknownX"] =
        ["archive", "debug", "unknownX"] := by decide
    rw [hfo]
    simp [isInvalidSupported, harchive, hdebug, hnoAddon, hnoExtension]
  unfold GetVerifications
  simp [herr]

/-- C15 on the example parser. -/
theorem C15_unknown_supported_witness :
    GetVerifications verificationParser ["archive", "debug", "unknownX"] =
      ([], ["unknownX"]) :=
  C15_unknown_supported_is_an_error verificationParser (by decide) (by decide) (by decide)
    (by decide)

/-- C15 fails as stated: the parser holds a verification under each of the four keys,
yet the call with `unknownX` returns none of them. -/
theorem C15_counterexample :
    verificationParser.verifications.get? ⟨"archive", "debug"⟩ = some [verifArchiveDebug] ∧
    verificationParser.verifications.get? ⟨"archive", ""⟩ = some [verifArchive] ∧
    verificationParser.verifications.get? ⟨"", "debug"⟩ = some [verifDebug] ∧
    verificationParser.verifications.get? ⟨"", ""⟩ = some [verifDefault] ∧
    (GetVerifications verificationParser ["archive", "debug", "unknownX"]).1 = [] := by
  decide

/-! ### Tables built by assignments -/

/-- After a sequence of assignments the value of a key is the value of the last
assignment to it, or the former value if there is none. -/
theorem GoMap.get?_foldl_set {K V : Type} [DecidableEq K] (ps : List (K × V)) (k : K) :
    ∀ m : GoMap K V,
    GoMap.get? (ps.foldl (fun m p => GoMap.set m p.1 p.2) m) k =
      match (ps.filter (fun p => decide (p.1 = k))).getLast? with
      | some p => some p.2
      | none => m.get? k := by
  induction ps with
  | nil => intro m; rfl
  | cons p ps ih =>
    intro m
    rw [List.foldl_cons, ih, GoMap.get?_set]
    by_cases hk : p.1 = k
    · rw [List.filter_cons_of_pos (by simpa using hk), List.getLast?_cons, if_pos hk]
      cases (List.filter (fun p => decide (p.1 = k)) ps).getLast? <;> rfl
    · rw [List.filter_cons_of_neg (by simpa using hk), if_neg hk]

theorem GoMap.mem_set {K V : Type} [DecidableEq K] (m : GoMap K V) (k : K) (v : V)
    (e : K × V) (h : e ∈ m.set k v) : e = (k, v) ∨ e ∈ m := by
  induction m with
  | nil =>
    simp only [GoMap.set, List.mem_singleton] at h
    exact Or.inl h
  | cons p rest ih =>
    obtain ⟨k0, v0⟩ := p
    unfold GoMap.set at h
    by_cases h0 : k0 = k
    · rw [if_pos h0] at h
      rcases List.mem_cons.mp h with e1 | e1
      · exact Or.inl e1
      · exact Or.inr (List.mem_cons_of_mem _ e1)
    · rw [if_neg h0] at h
      rcases List.mem_cons.mp h with e1 | e1
      · exact Or.inr (e1 ▸ List.mem_cons_self _ _)
      · rcases ih e1 with e2 | e2
        · exact Or.inl e2
        · exact Or.inr (List.mem_cons_of_mem _ e2)

theorem GoMap.mem_foldl_set {K V : Type} [DecidableEq K] (ps : List (K × V)) :
    ∀ (m : GoMap K V) (e : K × V),
    e ∈ ps.foldl (fun m p => GoMap.set m p.1 p.2) m → e ∈ ps ∨ e ∈ m := by
  induction ps with
  | nil => intro m e h; exact Or.inr h
  | cons p ps ih =>
    intro m e h
    rw [List.foldl_cons] at h
    rcases ih _ e h with h1 | h1
    · exact Or.inl (List.mem_cons_of_mem _ h1)
    · rcases GoMap.mem_set m p.1 p.2 e h1 with h2 | h2
      · exact Or.inl (h2 ▸ List.mem_cons_self _ _)
      · exact Or.inr h2

theorem GoMap.nodup_keys_set {K V : Type} [DecidableEq K] (m : GoMap K V) (k : K) (v : V)
    (h : m.keys.Nodup) : (m.set k v).keys.Nodup := by
  induction m with
  | nil => simp [GoMap.set, GoMap.keys]
  | cons p rest ih =>
    obtain ⟨k0, v0⟩ := p
    have hk : k0 ∉ GoMap.keys rest ∧ (GoMap.keys rest).Nodup := by
      simpa [GoMap.keys] using h
    unfold GoMap.set
    by_cases h0 : k0 = k
    · rw [if_pos h0]
      subst h0
      simpa [GoMap.keys] using h
    · rw [if_neg h0]
      have hnot : k0 ∉ GoMap.keys (GoMap.set rest k v) := by
        rw [← GoMap.contains_iff_mem_keys, GoMap.contains_set, GoMap.contains_iff_mem_keys]
        rintro (e | e)
        · exact h0 e.symm
        · exact hk.1 e
      have := ih hk.2
      simp only [GoMap.keys, List.map_cons, List.nodup_cons]
      exact ⟨hnot, this⟩

theorem GoMap.nodup_keys_foldl_set {K V : Type} [DecidableEq K] (ps : List (K × V)) :
    ∀ m : GoMap K V, m.keys.Nodup →
      (GoMap.keys (ps.foldl (fun m p => GoMap.set m p.1 p.2) m)).Nodup := by
  induction ps with
  | nil => intro m h; exact h
  | cons p ps ih =>
    intro m h
    rw [List.foldl_cons]
    exact ih _ (GoMap.nodup_keys_set m p.1 p.2 h)

/-- In a map with distinct keys the entries are what reading returns. -/
theorem GoMap.mem_iff_get? {K V : Type} [DecidableEq K] (m : GoMap K V) (h : m.keys.Nodup)
    (k : K) (v : V) : (k, v) ∈ m ↔ m.get? k = some v := by
  induction m with
  | nil => simp [GoMap.get?]
  | cons p rest ih =>
    obtain ⟨k0, v0⟩ := p
    have hk : k0 ∉ GoMap.keys rest ∧ (GoMap.keys rest).Nodup := by
      simpa [GoMap.keys] using h
    by_cases h0 : k0 = k
    · subst h0
      simp only [GoMap.get?, if_true, List.mem_cons, Prod.mk.injEq, true_and, Option.some.injEq]
      constructor
      · rintro (e | e)
        · exact e.symm
        · exact absurd (List.mem_map_of_mem Prod.fst e) hk.1
      · intro e
        exact Or.inl e.symm
    · have h1 : ¬ k = k0 := fun e => h0 e.symm
      simp only [GoMap.get?, if_neg h0, List.mem_cons, Prod.mk.injEq, h1, false_and, false_or]
      exact ih hk.2

/-! ### The tables of `getServiceApis` -/

theorem indexCollection_eq (rpcInterface : String) (t : ServiceApis) (c : ApiCollection) :
    indexCollection rpcInterface t c =
      if isIndexed rpcInterface c = true then
        { taggedApis := indexParseDirectives c t.taggedApis
          serverApis := indexApis rpcInterface c t.serverApis
          headers := indexHeaders c t.headers
          verifications := c.Verifications.foldl (fun m verification =>
            indexVerification c verification m) t.verifications
          apiCollections := t.apiCollections.set (collectionKeyOf c) c }
      else t := by
  unfold indexCollection isIndexed
  by_cases he : c.Enabled = true <;>
    by_cases hi : c.CollectionData.ApiInterface = rpcInterface <;> simp [he, hi]

theorem indexApis_eq (rpcInterface : String) (c : ApiCollection)
    (m : GoMap ApiKey ApiContainer) :
    indexApis rpcInterface c m =
      (apiEntriesOf rpcInterface c).foldl (fun m p => GoMap.set m p.1 p.2) m := by
  unfold indexApis apiEntriesOf
  generalize c.Apis = apis
  induction apis generalizing m with
  | nil => rfl
  | cons a rest ih =>
    rw [List.foldl_cons, ih]
    by_cases he : a.Enabled = true
    · rw [List.filter_cons_of_pos he, List.map_cons, List.foldl_cons]
      by_cases hr : rpcInterface = APIInterfaceRest
      · simp [he, hr, apiIndexName]
      · simp [he, hr, apiIndexName]
    · rw [List.filter_cons_of_neg he]
      simp [he]

theorem indexParseDirectives_eq (c : ApiCollection) (m : GoMap FUNCTION_TAG TaggedContainer) :
    indexParseDirectives c m =
      (taggedEntriesOf c).foldl (fun m p => GoMap.set m p.1 p.2) m := by
  unfold indexParseDirectives taggedEntriesOf
  rw [List.foldl_map]

theorem indexHeaders_eq (c : ApiCollection) (m : GoMap ApiKey Header) :
    indexHeaders c m = (headerEntriesOf c).foldl (fun m p => GoMap.set m p.1 p.2) m := by
  unfold indexHeaders headerEntriesOf
  rw [List.foldl_map]

/-- The four tables filled by plain assignments, as the assignments of the indexed
collections in order. -/
theorem foldl_indexCollection (rpcInterface : String) (cols : List ApiCollection) :
    ∀ t : ServiceApis,
    (cols.foldl (indexCollection rpcInterface) t).serverApis =
      ((cols.filter (isIndexed rpcInterface)).flatMap (apiEntriesOf rpcInterface)).foldl
        (fun m p => GoMap.set m p.1 p.2) t.serverApis ∧
    (cols.foldl (indexCollection rpcInterface) t).taggedApis =
      ((cols.filter (isIndexed rpcInterface)).flatMap taggedEntriesOf).foldl
        (fun m p => GoMap.set m p.1 p.2) t.taggedApis ∧
    (cols.foldl (indexCollection rpcInterface) t).headers =
      ((cols.filter (isIndexed rpcInterface)).flatMap headerEntriesOf).foldl
        (fun m p => GoMap.set m p.1 p.2) t.headers ∧
    (cols.foldl (indexCollection rpcInterface) t).apiCollections =
      ((cols.filter (isIndexed rpcInterface)).map (fun c => (collectionKeyOf c, c))).foldl
        (fun m p => GoMap.set m p.1 p.2) t.apiCollections := by
  induction cols with
  | nil => intro t; exact ⟨rfl, rfl, rfl, rfl⟩
  | cons c cs ih =>
    intro t
    rw [List.foldl_cons]
    obtain ⟨i1, i2, i3, i4⟩ := ih (indexCollection rpcInterface t c)
    rw [i1, i2, i3, i4, indexCollection_eq]
    by_cases hc : isIndexed rpcInterface c = true
    · rw [if_pos hc, List.filter_cons_of_pos hc]
      refine ⟨?_, ?_, ?_, ?_⟩ <;>
        simp only [List.flatMap_cons, List.map_cons, List.foldl_append, List.foldl_cons,
          indexApis_eq, indexParseDirectives_eq, indexHeaders_eq]
    · rw [if_neg hc, List.filter_cons_of_neg hc]
      exact ⟨rfl, rfl, rfl, rfl⟩

theorem getServiceApis_disabled (spec : Spec) (rpcInterface : String)
    (h : spec.Enabled = false) : getServiceApis spec rpcInterface = ⟨[], [], [], [], []⟩ := by
  unfold getServiceApis
  rw [h]
  rfl

theorem getServiceApis_tables (spec : Spec) (rpcInterface : String)
    (h : spec.Enabled = true) :
    (getServiceApis spec rpcInterface).serverApis =
      (serverApiEntries spec rpcInterface).foldl (fun m p => GoMap.set m p.1 p.2) [] ∧
    (getServiceApis spec rpcInterface).taggedApis =
      ((specDirectives spec rpcInterface).map (fun p =>
        (p.1.FunctionTag, (⟨p.1, p.2⟩ : TaggedContainer)))).foldl
        (fun m p => GoMap.set m p.1 p.2) [] ∧
    (getServiceApis spec rpcInterface).apiCollections =
      (collectionEntries spec rpcInterface).foldl (fun m p => GoMap.set m p.1 p.2) [] := by
  unfold getServiceApis serverApiEntries specDirectives collectionEntries
  rw [if_pos h]
  obtain ⟨i1, i2, -, i4⟩ :=
    foldl_indexCollection rpcInterface spec.ApiCollections ⟨[], [], [], [], []⟩
  refine ⟨i1, ?_, i4⟩
  rw [i2]
  congr 1
  unfold taggedEntriesOf
  generalize List.filter (isIndexed rpcInterface) spec.ApiCollections = cols
  induction cols with
  | nil => rfl
  | cons c cs ih =>
    simp only [List.flatMap_cons, List.map_append, List.map_map, ih]
    rfl

theorem GoMap.get?_foldl_set_some {K V : Type} [DecidableEq K] (ps : List (K × V)) (k : K)
    (v : V) (h : GoMap.get? (ps.foldl (fun m p => GoMap.set m p.1 p.2) []) k = some v) :
    (k, v) ∈ ps := by
  rw [GoMap.get?_foldl_set] at h
  cases hl : (ps.filter (fun p => decide (p.1 = k))).getLast? with
  | none => rw [hl] at h; cases h
  | some p =>
    rw [hl] at h
    have hm := List.mem_of_getLast?_eq_some hl
    rw [List.mem_filter] at hm
    simp only [Option.some.injEq] at h
    have hk : p.1 = k := by simpa using hm.2
    have hp : p = (k, v) := Prod.ext hk h
    rw [← hp]
    exact hm.1

theorem GoMap.get?_foldl_set_of_mem {K V : Type} [DecidableEq K] (ps : List (K × V)) (k : K)
    (v0 : V) (m : GoMap K V) (h : (k, v0) ∈ ps) :
    ∃ v, GoMap.get? (ps.foldl (fun m p => GoMap.set m p.1 p.2) m) k = some v ∧ (k, v) ∈ ps := by
  rw [GoMap.get?_foldl_set]
  cases hl : (ps.filter (fun p => decide (p.1 = k))).getLast? with
  | none =>
    rw [List.getLast?_eq_none_iff, List.filter_eq_nil_iff] at hl
    exact absurd (by simp) (hl (k, v0) h)
  | some p =>
    have hm := List.mem_of_getLast?_eq_some hl
    rw [List.mem_filter] at hm
    have hk : p.1 = k := by simpa using hm.2
    refine ⟨p.2, rfl, ?_⟩
    rw [← hk]
    exact hm.1

theorem mem_collectionEntries (spec : Spec) (rpcInterface : String)
    (e : CollectionKey × ApiCollection) :
    e ∈ collectionEntries spec rpcInterface ↔
      e.2 ∈ spec.ApiCollections ∧ isIndexed rpcInterface e.2 = true ∧
        e.1 = collectionKeyOf e.2 := by
  unfold collectionEntries
  rw [List.mem_map]
  constructor
  · rintro ⟨c, hc, rfl⟩
    rw [List.mem_filter] at hc
    exact ⟨hc.1, hc.2, rfl⟩
  · rintro ⟨h1, h2, h3⟩
    exact ⟨e.2, List.mem_filter.mpr ⟨h1, h2⟩, Prod.ext h3.symm rfl⟩

theorem mem_serverApiEntries (spec : Spec) (rpcInterface : String)
    (e : ApiKey × ApiContainer) :
    e ∈ serverApiEntries spec rpcInterface ↔
      ∃ c ∈ spec.ApiCollections, isIndexed rpcInterface c = true ∧
        e.2.api ∈ c.Apis ∧ e.2.api.Enabled = true ∧ e.2.collectionKey = collectionKeyOf c ∧
        e.1 = ⟨apiIndexName rpcInterface e.2.api.Name, c.CollectionData.Type_⟩ := by
  unfold serverApiEntries apiEntriesOf
  simp only [List.mem_flatMap, List.mem_filter, List.mem_map]
  constructor
  · rintro ⟨c, ⟨hc, hi⟩, a, ⟨ha, hen⟩, rfl⟩
    exact ⟨c, hc, hi, ha, hen, rfl, rfl⟩
  · rintro ⟨c, hc, hi, ha, hen, hk, hn⟩
    refine ⟨c, ⟨hc, hi⟩, e.2.api, ⟨ha, hen⟩, ?_⟩
    obtain ⟨k, cont⟩ := e
    obtain ⟨api, ck⟩ := cont
    simp only at hk hn ⊢
    rw [hk, hn]
    rfl

theorem isIndexed_iff (rpcInterface : String) (c : ApiCollection) :
    isIndexed rpcInterface c = true ↔
      (c.Enabled = true ∧ c.CollectionData.ApiInterface = rpcInterface) := by
  unfold isIndexed
  simp

/-- The collection table of an enabled spec: every indexed collection has its key in
the table, and the collection stored under a key is an indexed collection of the
spec with that key. -/
theorem apiCollections_of_enabled (spec : Spec) (rpcInterface : String)
    (h : spec.Enabled = true) :
    (∀ c ∈ spec.ApiCollections, isIndexed rpcInterface c = true →
      ∃ col, (getServiceApis spec rpcInterface).apiCollections.get? (collectionKeyOf c) =
        some col ∧ col ∈ spec.ApiCollections ∧ isIndexed rpcInterface col = true ∧
        collectionKeyOf col = collectionKeyOf c) ∧
    (∀ k col, (getServiceApis spec rpcInterface).apiCollections.get? k = some col →
      col ∈ spec.ApiCollections ∧ isIndexed rpcInterface col = true ∧
        k = collectionKeyOf col) ∧
    (∀ e ∈ (getServiceApis spec rpcInterface).apiCollections,
      e.2 ∈ spec.ApiCollections ∧ isIndexed rpcInterface e.2 = true ∧
        e.1 = collectionKeyOf e.2) ∧
    (GoMap.keys (getServiceApis spec rpcInterface).apiCollections).Nodup := by
  rw [(getServiceApis_tables spec rpcInterface h).2.2]
  refine ⟨?_, ?_, ?_, ?_⟩
  · intro c hc hi
    obtain ⟨col, hget, hmem⟩ := GoMap.get?_foldl_set_of_mem
      (collectionEntries spec rpcInterface) (collectionKeyOf c) c []
      ((mem_collectionEntries spec rpcInterface _).mpr ⟨hc, hi, rfl⟩)
    obtain ⟨m1, m2, m3⟩ := (mem_collectionEntries spec rpcInterface _).mp hmem
    exact ⟨col, hget, m1, m2, m3.symm⟩
  · intro k col hget
    exact (mem_collectionEntries spec rpcInterface _).mp
      (GoMap.get?_foldl_set_some _ k col hget)
  · intro e he
    rcases GoMap.mem_foldl_set _ [] e he with h1 | h1
    · exact (mem_collectionEntries spec rpcInterface _).mp h1
    · cases h1
  · exact GoMap.nodup_keys_foldl_set _ [] List.nodup_nil

/-! ### The verification table -/

theorem foldl_preserves {α β : Type} (P : β → Prop) (f : β → α → β)
    (hf : ∀ b a, P b → P (f b a)) (l : List α) : ∀ b, P b → P (l.foldl f b) := by
  induction l with
  | nil => intro b hb; exact hb
  | cons x xs ih => intro b hb; exact ih _ (hf b x hb)

/-- Every container stored by `indexVerification` carries the key it is stored under. -/
theorem indexVerification_keyed (c : ApiCollection) (verification : Verification)
    (m : GoMap VerificationKey (List VerificationContainer))
    (hm : ∀ k l, m.get? k = some l → ∀ vc ∈ l, vc.VerificationKey = k) :
    ∀ k l, (indexVerification c verification m).get? k = some l →
      ∀ vc ∈ l, vc.VerificationKey = k := by
  unfold indexVerification
  apply foldl_preserves
    (fun (m : GoMap VerificationKey (List VerificationContainer)) =>
      ∀ k l, m.get? k = some l → ∀ vc ∈ l, vc.VerificationKey = k) _ _ _ m hm
  intro b parseValue hb k l hget vc hvc
  simp only at hget
  cases hold : GoMap.get? b ⟨parseValue.Extension, c.CollectionData.AddOn⟩ with
  | none =>
    rw [hold] at hget
    simp only [GoMap.get?_set] at hget
    by_cases hk : (⟨parseValue.Extension, c.CollectionData.AddOn⟩ : VerificationKey) = k
    · rw [if_pos hk] at hget
      simp only [Option.some.injEq] at hget
      rw [← hget, List.mem_singleton] at hvc
      rw [hvc]
      exact hk
    · rw [if_neg hk] at hget
      exact hb k l hget vc hvc
  | some old =>
    rw [hold] at hget
    simp only [GoMap.get?_set] at hget
    by_cases hk : (⟨parseValue.Extension, c.CollectionData.AddOn⟩ : VerificationKey) = k
    · rw [if_pos hk] at hget
      simp only [Option.some.injEq] at hget
      rw [← hget, List.mem_append, List.mem_singleton] at hvc
      rcases hvc with h1 | h1
      · rw [← hk]
        exact hb _ old hold vc h1
      · rw [h1]
        exact hk
    · rw [if_neg hk] at hget
      exact hb k l hget vc hvc

/-- Every container of the verification table of `getServiceApis` carries the key it
is stored under. -/
theorem getServiceApis_verifications_keyed (spec : Spec) (rpcInterface : String) :
    ∀ k l, (getServiceApis spec rpcInterface).verifications.get? k = some l →
      ∀ vc ∈ l, vc.VerificationKey = k := by
  unfold getServiceApis
  by_cases h : spec.Enabled = true
  · rw [if_pos h]
    apply foldl_preserves
      (fun (t : ServiceApis) =>
        ∀ k l, t.verifications.get? k = some l → ∀ vc ∈ l, vc.VerificationKey = k)
    · intro t c ht
      rw [indexCollection_eq]
      by_cases hc : isIndexed rpcInterface c = true
      · rw [if_pos hc]
        simp only
        apply foldl_preserves
          (fun (m : GoMap VerificationKey (List VerificationContainer)) =>
            ∀ k l, m.get? k = some l → ∀ vc ∈ l, vc.VerificationKey = k) _ _ _ _ ht
        intro b verification hb
        exact indexVerification_keyed c verification b hb
      · rw [if_neg hc]
        exact ht
    · intro k l hget
      cases hget
  · rw [if_neg h]
    intro k l hget
    cases hget

theorem GetVerifications_of_ok (bcp : BaseChainParser) (supported : List String)
    (hok : (SeparateAddonsExtensions bcp supported).err = []) :
    GetVerifications bcp supported =
      (((SeparateAddonsExtensions bcp supported).addons ++ [""]).flatMap (fun addon =>
        (if (SeparateAddonsExtensions bcp supported).extensions = [] then [""]
          else (SeparateAddonsExtensions bcp supported).extensions).flatMap (fun extension =>
            (bcp.verifications.get? ⟨extension, addon⟩).getD [])), []) := by
  unfold GetVerifications
  simp only [hok, ne_eq, not_true_eq_false, if_false, List.length_eq_zero]
  rw [collectVerifications_eq]

theorem GetVerifications_of_err (bcp : BaseChainParser) (supported : List String)
    (herr : (SeparateAddonsExtensions bcp supported).err ≠ []) :
    GetVerifications bcp supported = ([], (SeparateAddonsExtensions bcp supported).err) := by
  unfold GetVerifications
  simp only [herr, ne_eq, not_false_eq_true, if_true]

/-- C14: on a parser whose verification table was built by `getServiceApis`, every
container `GetVerifications` returns has its extension in the supported list or
empty, and its addon in the supported list or empty. -/
theorem C14_returned_verifications_are_supported (bcp : BaseChainParser) (spec : Spec)
    (rpcInterface : String) (supported : List String)
    (hbuilt : bcp.verifications = (getServiceApis spec rpcInterface).verifications) :
    ∀ vc ∈ (GetVerifications bcp supported).1,
      (vc.VerificationKey.Extension = "" ∨ vc.VerificationKey.Extension ∈ supported) ∧
      (vc.VerificationKey.Addon = "" ∨ vc.VerificationKey.Addon ∈ supported) := by
  intro vc hvc
  by_cases herr : (SeparateAddonsExtensions bcp supported).err = []
  · rw [GetVerifications_of_ok bcp supported herr] at hvc
    simp only [List.mem_flatMap] at hvc
    obtain ⟨addon, haddon, extension, hextension, hmem⟩ := hvc
    obtain ⟨h1, h2, -⟩ := SeparateAddonsExtensions_eq bcp supported
    cases hget : GoMap.get? bcp.verifications ⟨extension, addon⟩ with
    | none =>
      rw [hget] at hmem
      cases hmem
    | some l =>
      rw [hget] at hmem
      rw [hbuilt] at hget
      have hkey := getServiceApis_verifications_keyed spec rpcInterface _ l hget vc hmem
      rw [hkey]
      constructor
      · by_cases he : (SeparateAddonsExtensions bcp supported).extensions = []
        · rw [if_pos he, List.mem_singleton] at hextension
          exact Or.inl hextension
        · rw [if_neg he, h2, List.mem_filter, mem_firstOccurrences] at hextension
          exact Or.inr hextension.1
      · rw [List.mem_append, List.mem_singleton] at haddon
        rcases haddon with ha | ha
        · rw [h1, List.mem_filter, mem_firstOccurrences] at ha
          exact Or.inr ha.1
        · exact Or.inl ha
  · rw [GetVerifications_of_err bcp supported herr] at hvc
    cases hvc

/-- C14 on the parser of the example JSON-RPC spec, for the supported list `archive`. -/
theorem C14_returned_verifications_witness :
    ethArchiveVerification ∈
      (GetVerifications (parserOf emptyParser ethSpec "jsonrpc") ["archive"]).1 ∧
    ((ethArchiveVerification.VerificationKey.Extension = "" ∨
      ethArchiveVerification.VerificationKey.Extension ∈ ["archive"]) ∧
    (ethArchiveVerification.VerificationKey.Addon = "" ∨
      ethArchiveVerification.VerificationKey.Addon ∈ ["archive"])) :=
  ⟨by decide,
    C14_returned_verifications_are_supported (parserOf emptyParser ethSpec "jsonrpc") ethSpec
      "jsonrpc" ["archive"] rfl ethArchiveVerification (by decide)⟩

/-! ### The addon keys of a constructed parser -/

theorem GoMap.mem_keys_foldl_set {K V : Type} [DecidableEq K] (ps : List (K × V)) (k : K) :
    ∀ m : GoMap K V,
    k ∈ GoMap.keys (ps.foldl (fun m p => GoMap.set m p.1 p.2) m) ↔
      ((∃ p ∈ ps, p.1 = k) ∨ k ∈ m.keys) := by
  induction ps with
  | nil => intro m; simp
  | cons p ps ih =>
    intro m
    rw [List.foldl_cons, ih, ← GoMap.contains_iff_mem_keys (GoMap.set m p.1 p.2),
      GoMap.contains_set, GoMap.contains_iff_mem_keys]
    constructor
    · rintro (⟨q, hq, hk⟩ | h | h)
      · exact Or.inl ⟨q, List.mem_cons_of_mem _ hq, hk⟩
      · exact Or.inl ⟨p, List.mem_cons_self _ _, h⟩
      · exact Or.inr h
    · rintro (⟨q, hq, hk⟩ | h)
      · rcases List.mem_cons.mp hq with e | e
        · subst e
          exact Or.inr (Or.inl hk)
        · exact Or.inl ⟨q, e, hk⟩
      · exact Or.inr (Or.inr h)

theorem Construct_allowedAddons (bcp : BaseChainParser) (spec : Spec)
    (taggedApis : GoMap FUNCTION_TAG TaggedContainer) (serverApis : GoMap ApiKey ApiContainer)
    (apiCollections : GoMap CollectionKey ApiCollection) (headers : GoMap ApiKey Header)
    (verifications : GoMap VerificationKey (List VerificationContainer)) :
    (Construct bcp spec taggedApis serverApis apiCollections headers
      verifications).allowedAddons =
      (apiCollections.map (fun entry => (entry.2.CollectionData.AddOn, false))).foldl
        (fun m p => GoMap.set m p.1 p.2) [] := by
  unfold Construct
  rw [List.foldl_map]

theorem SetPolicy_keys (bcp : BaseChainParser) (policy : PolicyInf)
    (chainId apiInterface : String) :
    GoMap.keys (SetPolicy bcp policy chainId apiInterface).1.allowedAddons =
      GoMap.keys bcp.allowedAddons := by
  unfold SetPolicy
  cases BuildMapFromPolicyQuery policy chainId apiInterface with
  | error err => rfl
  | ok m => exact keys_allowedAddons_update m bcp.allowedAddons

theorem foldl_SetPolicy_keys (ps : List (PolicyInf × String × String)) :
    ∀ bcp : BaseChainParser,
    GoMap.keys (ps.foldl (fun p q => (SetPolicy p q.1 q.2.1 q.2.2).1) bcp).allowedAddons =
      GoMap.keys bcp.allowedAddons := by
  induction ps with
  | nil => intro bcp; rfl
  | cons q qs ih =>
    intro bcp
    rw [List.foldl_cons, ih, SetPolicy_keys]

theorem Validate_of_not_key (bcp : BaseChainParser) (msg : baseChainMessageContainer)
    (hne : GetAddon msg ≠ "") (hkey : GetAddon msg ∉ GoMap.keys bcp.allowedAddons) :
    Validate bcp msg = Except.error "consumer policy does not allow addon" := by
  have hc : ¬ (bcp.allowedAddons.contains (GetAddon msg) = true) := by
    rw [GoMap.contains_iff_mem_keys]
    exact hkey
  unfold GoMap.contains at hc
  unfold Validate validateAddons
  cases hg : GoMap.get? bcp.allowedAddons (GetAddon msg) with
  | none => simp [hne, hg]
  | some v => rw [hg] at hc; exact absurd rfl hc

/-- C16, as the code has it: after `Construct` on the tables of `getServiceApis` the
keys of `allowedAddons` are distinct and are exactly the addons of the enabled
collections of the interface when the spec is enabled (there is no key when the spec
is disabled); every value is `false`; no sequence of `SetPolicy` calls changes the
keys, and after any such sequence `Validate` rejects a message of a non-empty addon
that is not a key. -/
theorem C16_allowedAddons_keys (bcp : BaseChainParser) (spec : Spec) (rpcInterface : String) :
    (∀ a : String, a ∈ GoMap.keys (parserOf bcp spec rpcInterface).allowedAddons ↔
      (spec.Enabled = true ∧ ∃ c ∈ spec.ApiCollections, c.Enabled = true ∧
        c.CollectionData.ApiInterface = rpcInterface ∧ c.CollectionData.AddOn = a)) ∧
    (GoMap.keys (parserOf bcp spec rpcInterface).allowedAddons).Nodup ∧
    (∀ e ∈ (parserOf bcp spec rpcInterface).allowedAddons, e.2 = false) ∧
    (∀ ps : List (PolicyInf × String × String),
      GoMap.keys (ps.foldl (fun p q => (SetPolicy p q.1 q.2.1 q.2.2).1)
        (parserOf bcp spec rpcInterface)).allowedAddons =
      GoMap.keys (parserOf bcp spec rpcInterface).allowedAddons) ∧
    (∀ (ps : List (PolicyInf × String × String)) (msg : baseChainMessageContainer),
      GetAddon msg ≠ "" →
      GetAddon msg ∉ GoMap.keys (parserOf bcp spec rpcInterface).allowedAddons →
      Validate (ps.foldl (fun p q => (SetPolicy p q.1 q.2.1 q.2.2).1)
        (parserOf bcp spec rpcInterface)) msg =
        Except.error "consumer policy does not allow addon") := by
  have hallowed : (parserOf bcp spec rpcInterface).allowedAddons =
      ((getServiceApis spec rpcInterface).apiCollections.map
        (fun entry => (entry.2.CollectionData.AddOn, false))).foldl
        (fun m p => GoMap.set m p.1 p.2) [] := by
    unfold parserOf
    exact Construct_allowedAddons _ _ _ _ _ _ _
  refine ⟨?_, ?_, ?_, ?_, ?_⟩
  · intro a
    rw [hallowed, GoMap.mem_keys_foldl_set]
    simp only [GoMap.keys, List.map_nil, List.not_mem_nil, or_false, List.mem_map,
      exists_exists_and_eq_and]
    by_cases h : spec.Enabled = true
    · obtain ⟨t1, -, t3, -⟩ := apiCollections_of_enabled spec rpcInterface h
      constructor
      · rintro ⟨e, he, hadd⟩
        obtain ⟨m1, m2, -⟩ := t3 e he
        rw [isIndexed_iff] at m2
        exact ⟨h, e.2, m1, m2.1, m2.2, hadd⟩
      · rintro ⟨-, c, hc, hen, hi, hadd⟩
        have hix : isIndexed rpcInterface c = true := (isIndexed_iff _ _).mpr ⟨hen, hi⟩
        obtain ⟨col, hget, -, -, hkey⟩ := t1 c hc hix
        have hmem : (collectionKeyOf c, col) ∈ (getServiceApis spec rpcInterface).apiCollections :=
          (GoMap.mem_iff_get? _ (apiCollections_of_enabled spec rpcInterface h).2.2.2 _ _).mpr
            hget
        refine ⟨(collectionKeyOf c, col), hmem, ?_⟩
        have : (collectionKeyOf col).Addon = (collectionKeyOf c).Addon := by rw [hkey]
        rw [← hadd]
        exact this
    · have hd : spec.Enabled = false := by simpa using h
      rw [getServiceApis_disabled spec rpcInterface hd]
      simp [hd]
  · rw [hallowed]
    exact GoMap.nodup_keys_foldl_set _ [] List.nodup_nil
  · intro e he
    rw [hallowed] at he
    rcases GoMap.mem_foldl_set _ [] e he with h1 | h1
    · rw [List.mem_map] at h1
      obtain ⟨x, -, hx⟩ := h1
      rw [← hx]
    · cases h1
  · intro ps
    exact foldl_SetPolicy_keys ps _
  · intro ps msg hne hkey
    apply Validate_of_not_key _ _ hne
    rw [foldl_SetPolicy_keys]
    exact hkey

/-- C16 fails as stated: a disabled spec with an enabled collection of the addon
`debug` gives a parser without any addon key. -/
theorem C16_counterexample :
    disabledSpec.Enabled = false ∧
    (∃ c ∈ disabledSpec.ApiCollections, c.Enabled = true ∧
      c.CollectionData.ApiInterface = "rest" ∧ c.CollectionData.AddOn = "debug") ∧
    (parserOf emptyParser disabledSpec "rest").allowedAddons = [] := by
  decide

/-! ### Claims on the tables of `getServiceApis` -/

/-- Every entry of the api table comes from an enabled api of an indexed collection
of an enabled spec. -/
theorem serverApis_entry (spec : Spec) (rpcInterface : String) (key : ApiKey)
    (cont : ApiContainer)
    (h : (getServiceApis spec rpcInterface).serverApis.get? key = some cont) :
    spec.Enabled = true ∧ ∃ c ∈ spec.ApiCollections, isIndexed rpcInterface c = true ∧
      cont.api ∈ c.Apis ∧ cont.api.Enabled = true ∧ cont.collectionKey = collectionKeyOf c ∧
      key = ⟨apiIndexName rpcInterface cont.api.Name, c.CollectionData.Type_⟩ := by
  by_cases hs : spec.Enabled = true
  · rw [(getServiceApis_tables spec rpcInterface hs).1] at h
    exact ⟨hs, (mem_serverApiEntries spec rpcInterface (key, cont)).mp
      (GoMap.get?_foldl_set_some _ key cont h)⟩
  · have hd : spec.Enabled = false := by simpa using hs
    rw [getServiceApis_disabled spec rpcInterface hd] at h
    cases h

/-- C17: every container of the api table returned by `getServiceApis` has a collection
key that is a key of the returned collection table, and the collection stored there
has the connection type, the internal path and the addon of the key. -/
theorem C17_api_collection_key_is_indexed (spec : Spec) (rpcInterface : String) :
    ∀ (key : ApiKey) (cont : ApiContainer),
      (getServiceApis spec rpcInterface).serverApis.get? key = some cont →
      ∃ col, (getServiceApis spec rpcInterface).apiCollections.get? cont.collectionKey =
          some col ∧
        col.CollectionData.Type_ = cont.collectionKey.ConnectionType ∧
        col.CollectionData.InternalPath = cont.collectionKey.InternalPath ∧
        col.CollectionData.AddOn = cont.collectionKey.Addon := by
  intro key cont h
  obtain ⟨hs, c, hc, hi, -, -, hk, -⟩ := serverApis_entry spec rpcInterface key cont h
  obtain ⟨col, hget, -, -, hkey⟩ := (apiCollections_of_enabled spec rpcInterface hs).1 c hc hi
  refine ⟨col, by rw [hk]; exact hget, ?_, ?_, ?_⟩ <;> rw [hk, ← hkey] <;> rfl

/-- C17 on the example JSON-RPC spec: the container of `eth_blockNumber`. -/
theorem C17_api_collection_key_witness :
    ∃ col, (getServiceApis ethSpec "jsonrpc").apiCollections.get? ⟨"POST", "", ""⟩ = some col ∧
      col.CollectionData.Type_ = "POST" ∧ col.CollectionData.InternalPath = "" ∧
      col.CollectionData.AddOn = "" :=
  C17_api_collection_key_is_indexed ethSpec "jsonrpc" ⟨"eth_blockNumber", "POST"⟩
    ⟨⟨true, "eth_blockNumber", 10, 0, false⟩, ⟨"POST", "", ""⟩⟩ (by decide)

/-- The entries of the api table of an enabled spec are the final assignments: the table
holds a pair exactly when the lookup of its key gives its container. -/
theorem serverApis_mem_iff (spec : Spec) (rpcInterface : String) (hspec : spec.Enabled = true)
    (key : ApiKey) (cont : ApiContainer) :
    (key, cont) ∈ (getServiceApis spec rpcInterface).serverApis ↔
      (getServiceApis spec rpcInterface).serverApis.get? key = some cont := by
  apply GoMap.mem_iff_get?
  rw [(getServiceApis_tables spec rpcInterface hspec).1]
  exact GoMap.nodup_keys_foldl_set _ [] List.nodup_nil

/-- C18 (amended): on the parser built from an enabled spec, for an enabled api `a` of
an enabled collection `c` of the interface, the lookup by the name of the api and the
connection type of the collection succeeds. For an interface other than REST it is the
map lookup of `getSupportedApi`; for REST it is the lookup by `matchSpecApiByName`, in
whatever order the table is ranged over, and the pattern built from the name has to
match the name itself. The container holds an enabled api whose index name is, or
matches, the name, and the key, of that connection type, of an enabled collection of
the interface that declares the api; the key is the one of `c` when every enabled
collection of that interface and connection type that declares an enabled api whose
index name is, or matches, the name has that same key. -/
theorem C18_getSupportedApi_finds_enabled_api (bcp : BaseChainParser) (spec : Spec)
    (rpcInterface : String) (c : ApiCollection) (a : Api)
    (hspec : spec.Enabled = true)
    (hc : c ∈ spec.ApiCollections) (hcEnabled : c.Enabled = true)
    (hcInterface : c.CollectionData.ApiInterface = rpcInterface)
    (ha : a ∈ c.Apis) (haEnabled : a.Enabled = true) :
    (rpcInterface ≠ APIInterfaceRest →
      ∃ cont, getSupportedApi (parserOf bcp spec rpcInterface) a.Name c.CollectionData.Type_ =
          Except.ok cont ∧
        cont.api.Name = a.Name ∧ cont.api.Enabled = true ∧
        cont.collectionKey.ConnectionType = c.CollectionData.Type_ ∧
        (∃ c' ∈ spec.ApiCollections, c'.Enabled = true ∧
          c'.CollectionData.ApiInterface = rpcInterface ∧ cont.api ∈ c'.Apis ∧
          cont.collectionKey = ⟨c'.CollectionData.Type_, c'.CollectionData.InternalPath,
            c'.CollectionData.AddOn⟩) ∧
        ((∀ c' ∈ spec.ApiCollections, c'.Enabled = true →
            c'.CollectionData.ApiInterface = rpcInterface →
            c'.CollectionData.Type_ = c.CollectionData.Type_ →
            (∃ a' ∈ c'.Apis, a'.Enabled = true ∧ a'.Name = a.Name) →
            collectionKeyOf c' = collectionKeyOf c) →
          cont.collectionKey = ⟨c.CollectionData.Type_, c.CollectionData.InternalPath,
            c.CollectionData.AddOn⟩)) ∧
    (rpcInterface = APIInterfaceRest → regexpMatch (restApiName a.Name) a.Name = true →
      ∀ order : GoMap ApiKey ApiContainer,
        List.Perm order (parserOf bcp spec rpcInterface).serverApis →
        ∃ cont, RestChainParser.getSupportedApi order a.Name c.CollectionData.Type_ =
            Except.ok cont ∧
          regexpMatch (restApiName cont.api.Name) a.Name = true ∧ cont.api.Enabled = true ∧
          cont.collectionKey.ConnectionType = c.CollectionData.Type_ ∧
          (∃ c' ∈ spec.ApiCollections, c'.Enabled = true ∧
            c'.CollectionData.ApiInterface = rpcInterface ∧ cont.api ∈ c'.Apis ∧
            cont.collectionKey = ⟨c'.CollectionData.Type_, c'.CollectionData.InternalPath,
              c'.CollectionData.AddOn⟩) ∧
          ((∀ c' ∈ spec.ApiCollections, c'.Enabled = true →
              c'.CollectionData.ApiInterface = rpcInterface →
              c'.CollectionData.Type_ = c.CollectionData.Type_ →
              (∃ a' ∈ c'.Apis, a'.Enabled = true ∧
                regexpMatch (restApiName a'.Name) a.Name = true) →
              collectionKeyOf c' = collectionKeyOf c) →
            cont.collectionKey = ⟨c.CollectionData.Type_, c.CollectionData.InternalPath,
              c.CollectionData.AddOn⟩)) := by
  have hix : isIndexed rpcInterface c = true := (isIndexed_iff _ _).mpr ⟨hcEnabled, hcInterface⟩
  have hmem : ((⟨apiIndexName rpcInterface a.Name, c.CollectionData.Type_⟩ : ApiKey),
      (⟨a, collectionKeyOf c⟩ : ApiContainer)) ∈ serverApiEntries spec rpcInterface := by
    rw [mem_serverApiEntries]
    exact ⟨c, hc, hix, ha, haEnabled, rfl, rfl⟩
  obtain ⟨own, hget, -⟩ := GoMap.get?_foldl_set_of_mem _ _ _ [] hmem
  rw [← (getServiceApis_tables spec rpcInterface hspec).1] at hget
  constructor
  · intro hrest
    have hname : ∀ n : String, apiIndexName rpcInterface n = n := by
      intro n
      unfold apiIndexName
      rw [if_neg hrest]
    rw [hname] at hget
    obtain ⟨-, c', hc', hi', ha', hen', hk', hkey'⟩ :=
      serverApis_entry spec rpcInterface _ own hget
    simp only [hname, ApiKey.mk.injEq] at hkey'
    obtain ⟨hn, ht⟩ := hkey'
    rw [isIndexed_iff] at hi'
    refine ⟨own, ?_, hn.symm, hen', ?_, ⟨c', hc', hi'.1, hi'.2, ha', hk'⟩, ?_⟩
    · unfold getSupportedApi parserOf Construct
      simp only [hget, hen', Bool.not_true, Bool.false_eq_true, if_false]
    · rw [hk', ht]
      rfl
    · intro huniq
      rw [hk']
      exact huniq c' hc' hi'.1 hi'.2 ht.symm ⟨own.api, ha', hen', hn.symm⟩
  · intro hrest hself order hperm
    have hname : ∀ n : String, apiIndexName rpcInterface n = restApiName n := by
      intro n
      unfold apiIndexName
      rw [if_pos hrest]
    rw [hname] at hget
    have htable : (parserOf bcp spec rpcInterface).serverApis =
        (getServiceApis spec rpcInterface).serverApis := rfl
    rw [htable] at hperm
    have hown : ((⟨restApiName a.Name, c.CollectionData.Type_⟩ : ApiKey), own) ∈ order :=
      hperm.symm.subset ((serverApis_mem_iff spec rpcInterface hspec _ _).2 hget)
    cases hfind : order.find? (fun entry =>
        regexpMatch entry.1.Name a.Name &&
          decide (entry.1.ConnectionType = c.CollectionData.Type_)) with
    | none =>
      rw [List.find?_eq_none] at hfind
      have := hfind _ hown
      simp [hself] at this
    | some entry =>
      have hp := List.find?_some hfind
      have hin : entry ∈ order := List.mem_of_find?_eq_some hfind
      rw [Bool.and_eq_true, decide_eq_true_eq] at hp
      obtain ⟨hmatch, htype⟩ := hp
      have hentry : (getServiceApis spec rpcInterface).serverApis.get? entry.1 = some entry.2 :=
        (serverApis_mem_iff spec rpcInterface hspec _ _).1 (hperm.subset hin)
      obtain ⟨-, c', hc', hi', ha', hen', hk', hkey'⟩ :=
        serverApis_entry spec rpcInterface _ _ hentry
      rw [hname] at hkey'
      rw [isIndexed_iff] at hi'
      have hm' : regexpMatch (restApiName entry.2.api.Name) a.Name = true := by
        rw [hkey'] at hmatch
        exact hmatch
      have ht' : c'.CollectionData.Type_ = c.CollectionData.Type_ := by
        rw [hkey'] at htype
        exact htype
      refine ⟨entry.2, ?_, hm', hen', ?_, ⟨c', hc', hi'.1, hi'.2, ha', hk'⟩, ?_⟩
      · unfold RestChainParser.getSupportedApi matchSpecApiByName
        simp only [hfind, Option.map_some', hen', Bool.not_true, Bool.false_eq_true, if_false]
      · rw [hk', ← ht']
        rfl
      · intro huniq
        rw [hk']
        exact huniq c' hc' hi'.1 hi'.2 ht' ⟨entry.2.api, ha', hen', hm'⟩

/-- C18 on the example specs: the api `eth_blockNumber` of the default collection of
the JSON-RPC spec, and the balances api of the REST spec, looked up by its own name. -/
theorem C18_getSupportedApi_witness :
    (∃ cont, getSupportedApi (parserOf emptyParser ethSpec "jsonrpc") "eth_blockNumber" "POST" =
        Except.ok cont ∧ cont.api.Name = "eth_blockNumber" ∧
      cont.collectionKey.ConnectionType = "POST") ∧
    (∃ cont, RestChainParser.getSupportedApi (parserOf emptyParser bankSpec "rest").serverApis
        "/cosmos/bank/v1beta1/balances/\x7baddr\x7d" "GET" = Except.ok cont ∧
      cont.collectionKey.ConnectionType = "GET") := by
  constructor
  · obtain ⟨cont, h1, h2, -, h4, -⟩ :=
      (C18_getSupportedApi_finds_enabled_api emptyParser ethSpec "jsonrpc" ethDefaultCollection
        ⟨true, "eth_blockNumber", 10, 0, false⟩ (by decide) (by decide) (by decide)
        (by decide) (by decide) (by decide)).1 (by decide)
    exact ⟨cont, h1, h2, h4⟩
  · obtain ⟨cont, h1, -, -, h4, -⟩ :=
      (C18_getSupportedApi_finds_enabled_api emptyParser bankSpec "rest"
        ⟨true, ⟨"rest", "", "GET", ""⟩,
          [⟨true, "/cosmos/bank/v1beta1/balances/\x7baddr\x7d", 10, 0, false⟩], [],
          [⟨FUNCTION_TAG.GET_BLOCKNUM, "", "/blocks/latest"⟩], [⟨"archive", 128⟩], []⟩
        ⟨true, "/cosmos/bank/v1beta1/balances/\x7baddr\x7d", 10, 0, false⟩ (by decide)
        (by decide) (by decide) (by decide) (by decide) (by decide)).2 (by decide) (by decide)
        (parserOf emptyParser bankSpec "rest").serverApis (List.Perm.refl _)
    exact ⟨cont, h1, h4⟩

/-- C18 fails as stated, in three ways. A disabled spec indexes nothing, so the lookup
of an enabled api of an enabled collection fails. When two enabled collections of the
same connection type declare an api of the same name, the lookup for the first
collection returns the key of the second. For REST, the pattern of a name whose path
variable is written with a slash does not match the name, so the lookup by the name
fails. -/
theorem C18_counterexample :
    (disabledSpec.Enabled = false ∧
      (∃ c ∈ disabledSpec.ApiCollections, c.Enabled = true ∧
        c.CollectionData.ApiInterface = "rest" ∧ c.CollectionData.Type_ = "GET" ∧
        ∃ a ∈ c.Apis, a.Enabled = true ∧ a.Name = "/debug/trace") ∧
      getSupportedApi (parserOf emptyParser disabledSpec "rest") "/debug/trace" "GET" =
        Except.error "api not supported" ∧
      RestChainParser.getSupportedApi (parserOf emptyParser disabledSpec "rest").serverApis
        "/debug/trace" "GET" = Except.error "rest api not supported") ∧
    (sharedNameSpec.Enabled = true ∧
      (∃ c ∈ sharedNameSpec.ApiCollections, c.Enabled = true ∧
        c.CollectionData.ApiInterface = "jsonrpc" ∧ c.CollectionData.Type_ = "POST" ∧
        c.CollectionData.InternalPath = "" ∧ c.CollectionData.AddOn = "" ∧
        ∃ a ∈ c.Apis, a.Enabled = true ∧ a.Name = "eth_call") ∧
      getSupportedApi (parserOf emptyParser sharedNameSpec "jsonrpc") "eth_call" "POST" =
        Except.ok ⟨⟨true, "eth_call", 20, 0, false⟩, ⟨"POST", "", "debug"⟩⟩) ∧
    (slashVariableSpec.Enabled = true ∧
      (∃ c ∈ slashVariableSpec.ApiCollections, c.Enabled = true ∧
        c.CollectionData.ApiInterface = "rest" ∧ c.CollectionData.Type_ = "GET" ∧
        ∃ a ∈ c.Apis, a.Enabled = true ∧ a.Name = "/tx/\x7bhash/index\x7d") ∧
      (parserOf emptyParser slashVariableSpec "rest").serverApis.keys =
        [⟨"/tx/[^\\/\\s]+", "GET"⟩] ∧
      RestChainParser.getSupportedApi (parserOf emptyParser slashVariableSpec "rest").serverApis
        "/tx/\x7bhash/index\x7d" "GET" = Except.error "rest api not supported") :=
  ⟨⟨by decide, by decide, rfl, rfl⟩, ⟨by decide, by decide, rfl⟩,
    ⟨by decide, by decide, by decide, rfl⟩⟩

/-- C19: every api in the api table of `getServiceApis` is enabled; every collection in
its collection table is enabled and of the requested interface; the five tables are
empty when the spec is disabled; on a parser built from the tables `getSupportedApi`
and `getApiCollection` never return the error of a disabled api. -/
theorem C19_only_enabled_content_is_indexed (bcp : BaseChainParser) (spec : Spec)
    (rpcInterface : String) :
    (∀ (key : ApiKey) (cont : ApiContainer),
      (getServiceApis spec rpcInterface).serverApis.get? key = some cont →
      cont.api.Enabled = true) ∧
    (∀ (k : CollectionKey) (col : ApiCollection),
      (getServiceApis spec rpcInterface).apiCollections.get? k = some col →
      col.Enabled = true ∧ col.CollectionData.ApiInterface = rpcInterface) ∧
    (spec.Enabled = false → getServiceApis spec rpcInterface = ⟨[], [], [], [], []⟩) ∧
    (∀ name connectionType : String,
      getSupportedApi (parserOf bcp spec rpcInterface) name connectionType ≠
        Except.error "api is disabled") ∧
    (∀ connectionType internalPath addon : String,
      getApiCollection (parserOf bcp spec rpcInterface) connectionType internalPath addon ≠
        Except.error "api is disabled") := by
  have hapi : ∀ (key : ApiKey) (cont : ApiContainer),
      (getServiceApis spec rpcInterface).serverApis.get? key = some cont →
      cont.api.Enabled = true := by
    intro key cont h
    obtain ⟨-, c, -, -, -, hen, -⟩ := serverApis_entry spec rpcInterface key cont h
    exact hen
  have hcol : ∀ (k : CollectionKey) (col : ApiCollection),
      (getServiceApis spec rpcInterface).apiCollections.get? k = some col →
      col.Enabled = true ∧ col.CollectionData.ApiInterface = rpcInterface := by
    intro k col h
    by_cases hs : spec.Enabled = true
    · exact (isIndexed_iff _ _).mp
        ((apiCollections_of_enabled spec rpcInterface hs).2.1 k col h).2.1
    · have hd : spec.Enabled = false := by simpa using hs
      rw [getServiceApis_disabled spec rpcInterface hd] at h
      cases h
  refine ⟨hapi, hcol, getServiceApis_disabled spec rpcInterface, ?_, ?_⟩
  · intro name connectionType
    unfold getSupportedApi
    have hP : (parserOf bcp spec rpcInterface).serverApis =
        (getServiceApis spec rpcInterface).serverApis := rfl
    rw [hP]
    cases hg : GoMap.get? (getServiceApis spec rpcInterface).serverApis
        ⟨name, connectionType⟩ with
    | none =>
      intro h
      simp only [Except.error.injEq] at h
      exact absurd h (by decide)
    | some cont =>
      simp only [hapi _ cont hg, Bool.not_true, Bool.false_eq_true, if_false]
      intro h
      cases h
  · intro connectionType internalPath addon
    unfold getApiCollection
    have hP : (parserOf bcp spec rpcInterface).apiCollections =
        (getServiceApis spec rpcInterface).apiCollections := rfl
    rw [hP]
    cases hg : GoMap.get? (getServiceApis spec rpcInterface).apiCollections
        ⟨connectionType, internalPath, addon⟩ with
    | none =>
      intro h
      simp only [Except.error.injEq] at h
      exact absurd h (by decide)
    | some col =>
      simp only [(hcol _ col hg).1, Bool.not_true, Bool.false_eq_true, if_false]
      intro h
      cases h

/-- The tagged table of an enabled spec holds, for a tag, the last parse directive of
that tag in spec order, with its collection. -/
theorem taggedApis_get? (spec : Spec) (rpcInterface : String) (tag : FUNCTION_TAG)
    (h : spec.Enabled = true) :
    (getServiceApis spec rpcInterface).taggedApis.get? tag =
      (((specDirectives spec rpcInterface).filter
        (fun p => decide (p.1.FunctionTag = tag))).getLast?).map
        (fun p => (⟨p.1, p.2⟩ : TaggedContainer)) := by
  rw [(getServiceApis_tables spec rpcInterface h).2.1, GoMap.get?_foldl_set, List.filter_map,
    List.getLast?_map]
  have hf : ((fun (p : FUNCTION_TAG × TaggedContainer) => decide (p.1 = tag)) ∘
      fun (p : ParseDirective × ApiCollection) =>
        (p.1.FunctionTag, (⟨p.1, p.2⟩ : TaggedContainer))) =
      fun p => decide (p.1.FunctionTag = tag) := rfl
  rw [hf]
  cases (List.filter (fun p => decide (p.1.FunctionTag = tag))
    (specDirectives spec rpcInterface)).getLast? <;> rfl

theorem mem_specDirectives (spec : Spec) (rpcInterface : String)
    (p : ParseDirective × ApiCollection) :
    p ∈ specDirectives spec rpcInterface ↔
      (p.2 ∈ spec.ApiCollections ∧ p.2.Enabled = true ∧
        p.2.CollectionData.ApiInterface = rpcInterface ∧ p.1 ∈ p.2.ParseDirectives) := by
  unfold specDirectives
  simp only [List.mem_flatMap, List.mem_filter, List.mem_map, isIndexed_iff]
  constructor
  · rintro ⟨c, ⟨hc, hen, hi⟩, d, hd, rfl⟩
    exact ⟨hc, hen, hi, hd⟩
  · rintro ⟨hc, hen, hi, hd⟩
    exact ⟨p.2, ⟨hc, hen, hi⟩, p.1, hd, rfl⟩

/-- C20, as the code has it: on a parser built from `getServiceApis`, `GetParsingByTag`
returns, for an enabled spec, the last parse directive of the tag in spec order
among the enabled collections of the interface, with the data of its collection and
`true`, and three empty results when there is none or the spec is disabled; so the
tag is reported to exist exactly when the spec is enabled and an enabled collection
of the interface declares a directive of the tag. -/
theorem C20_GetParsingByTag_last_directive (bcp : BaseChainParser) (spec : Spec)
    (rpcInterface : String) (tag : FUNCTION_TAG) :
    GetParsingByTag (parserOf bcp spec rpcInterface) tag =
      (if spec.Enabled = true then
        match ((specDirectives spec rpcInterface).filter
          (fun p => decide (p.1.FunctionTag = tag))).getLast? with
        | some p => (some p.1, some p.2.CollectionData, true)
        | none => (none, none, false)
      else (none, none, false)) ∧
    ((GetParsingByTag (parserOf bcp spec rpcInterface) tag).2.2 = true ↔
      (spec.Enabled = true ∧ ∃ c ∈ spec.ApiCollections, c.Enabled = true ∧
        c.CollectionData.ApiInterface = rpcInterface ∧
        ∃ d ∈ c.ParseDirectives, d.FunctionTag = tag)) := by
  have hP : (parserOf bcp spec rpcInterface).taggedApis =
      (getServiceApis spec rpcInterface).taggedApis := rfl
  have hfirst : GetParsingByTag (parserOf bcp spec rpcInterface) tag =
      (if spec.Enabled = true then
        match ((specDirectives spec rpcInterface).filter
          (fun p => decide (p.1.FunctionTag = tag))).getLast? with
        | some p => (some p.1, some p.2.CollectionData, true)
        | none => (none, none, false)
      else (none, none, false)) := by
    unfold GetParsingByTag
    rw [hP]
    by_cases h : spec.Enabled = true
    · rw [if_pos h, taggedApis_get? spec rpcInterface tag h]
      cases (List.filter (fun p => decide (p.1.FunctionTag = tag))
        (specDirectives spec rpcInterface)).getLast? <;> rfl
    · have hd : spec.Enabled = false := by simpa using h
      rw [if_neg h, getServiceApis_disabled spec rpcInterface hd]
      rfl
  refine ⟨hfirst, ?_⟩
  rw [hfirst]
  by_cases h : spec.Enabled = true
  · rw [if_pos h]
    cases hl : (List.filter (fun p => decide (p.1.FunctionTag = tag))
        (specDirectives spec rpcInterface)).getLast? with
    | none =>
      rw [List.getLast?_eq_none_iff, List.filter_eq_nil_iff] at hl
      simp only [Bool.false_eq_true, false_iff, not_and, not_exists]
      intro _ c hc hen hi d hd htag
      exact hl (d, c) ((mem_specDirectives spec rpcInterface (d, c)).mpr ⟨hc, hen, hi, hd⟩)
        (by simpa using htag)
    | some p =>
      have hm := List.mem_of_getLast?_eq_some hl
      rw [List.mem_filter, mem_specDirectives] at hm
      obtain ⟨⟨hc, hen, hi, hd⟩, htag⟩ := hm
      simp only [true_iff]
      exact ⟨h, p.2, hc, hen, hi, p.1, hd, by simpa using htag⟩
  · rw [if_neg h]
    simp [h]

/-- C20 fails as stated: an enabled collection of a disabled spec declares a directive
of the tag `GET_BLOCKNUM`, and the parser does not know the tag. -/
theorem C20_counterexample :
    (∃ c ∈ disabledSpec.ApiCollections, c.Enabled = true ∧
      c.CollectionData.ApiInterface = "rest" ∧
      ∃ d ∈ c.ParseDirectives, d.FunctionTag = FUNCTION_TAG.GET_BLOCKNUM) ∧
    GetParsingByTag (parserOf emptyParser disabledSpec "rest") FUNCTION_TAG.GET_BLOCKNUM =
      (none, none, false) := by
  decide

/-! ### Sixty-four-bit arithmetic and the relay timeout -/

theorem wrapInt64_eq_iff (x y : Int) :
    wrapInt64 x = wrapInt64 y ↔ x % 18446744073709551616 = y % 18446744073709551616 := by
  unfold wrapInt64
  omega

theorem wrapInt64_emod (x : Int) :
    wrapInt64 x % 18446744073709551616 = x % 18446744073709551616 := by
  unfold wrapInt64
  omega

theorem wrapInt64_of_range (x : Int) (h1 : -9223372036854775808 ≤ x)
    (h2 : x < 9223372036854775808) : wrapInt64 x = x := by
  unfold wrapInt64
  omega

theorem wrapInt64_add_left (a b : Int) : wrapInt64 (wrapInt64 a + b) = wrapInt64 (a + b) := by
  unfold wrapInt64
  omega

theorem wrapInt64_add_right (a b : Int) : wrapInt64 (a + wrapInt64 b) = wrapInt64 (a + b) := by
  unfold wrapInt64
  omega

theorem wrapInt64_mul_left (a b : Int) : wrapInt64 (wrapInt64 a * b) = wrapInt64 (a * b) := by
  rw [wrapInt64_eq_iff, Int.mul_emod, wrapInt64_emod, ← Int.mul_emod]

theorem wrapInt64_mul_right (a b : Int) : wrapInt64 (a * wrapInt64 b) = wrapInt64 (a * b) := by
  rw [wrapInt64_eq_iff, Int.mul_emod, wrapInt64_emod, ← Int.mul_emod]

theorem GetRelayTimeout_eq (common : RelayTimeCommon) (m : ChainMessage)
    (stats : ChainBlockStats) (timeouts : Int) (h : m.TimeoutOverride = 0) :
    GetRelayTimeout common m stats timeouts =
      wrapInt64 ((timeouts + 1) *
          (if m.GetApi.TimeoutMs > 0 then 1000000 * (m.GetApi.TimeoutMs : Int)
            else common.GetTimePerCu m.GetApi.ComputeUnits) +
        common.AverageWorldLatency +
        (if m.GetApi.HangingApi then stats.averageBlockTime else 0)) := by
  unfold GetRelayTimeout
  rw [if_neg (by simp [h])]
  simp only [IsHangingApi, GetComputeUnits, time.Millisecond]
  rw [wrapInt64_add_left, wrapInt64_eq_iff]
  have e : ∀ B B' : Int, wrapInt64 B = wrapInt64 B' →
      wrapInt64 (wrapInt64 (wrapInt64 (timeouts + 1)) * B) % 18446744073709551616 =
        ((timeouts + 1) * B') % 18446744073709551616 := by
    intro B B' hB
    rw [wrapInt64_emod, ← wrapInt64_eq_iff, wrapInt64_mul_left, wrapInt64_mul_left,
      ← wrapInt64_mul_right, hB, wrapInt64_mul_right]
  by_cases ht : m.GetApi.TimeoutMs > 0
  · rw [if_pos ht, if_pos ht]
    have e' := e (wrapInt64 (1000000 * wrapInt64 (m.GetApi.TimeoutMs : Int)))
      (1000000 * (m.GetApi.TimeoutMs : Int))
      (by rw [wrapInt64_mul_right, wrapInt64_eq_iff, wrapInt64_emod])
    generalize wrapInt64 (wrapInt64 (wrapInt64 (timeouts + 1)) *
      wrapInt64 (1000000 * wrapInt64 (m.GetApi.TimeoutMs : Int))) = p at e' ⊢
    generalize (timeouts + 1) * (1000000 * (m.GetApi.TimeoutMs : Int)) = q at e' ⊢
    omega
  · rw [if_neg ht, if_neg ht]
    have e' := e (common.GetTimePerCu m.GetApi.ComputeUnits)
      (common.GetTimePerCu m.GetApi.ComputeUnits) rfl
    generalize wrapInt64 (wrapInt64 (wrapInt64 (timeouts + 1)) *
      common.GetTimePerCu m.GetApi.ComputeUnits) = p at e' ⊢
    generalize (timeouts + 1) * common.GetTimePerCu m.GetApi.ComputeUnits = q at e' ⊢
    omega

/-- C22: `GetRelayTimeout` returns the `TimeoutOverride` of the message when it is not
zero. Otherwise it returns, as a 64-bit duration, `(timeouts+1) * base +
AverageWorldLatency + extra`, where `base` is `Api.TimeoutMs` milliseconds when
`TimeoutMs > 0` and `GetTimePerCu` of the compute units otherwise, and `extra` is the
average block time when the api is hanging and zero otherwise; the result is that very
number whenever it fits in 64 bits. For a non-hanging api of 10 compute units with
`TimeoutMs = 0`, no override and `timeouts = 0` the result is the duration
`GetTimePerCu(10) + AverageWorldLatency`. -/
theorem C22_GetRelayTimeout_formula (common : RelayTimeCommon) (m : ChainMessage)
    (stats : ChainBlockStats) (timeouts : Int) :
    (m.TimeoutOverride ≠ 0 → GetRelayTimeout common m stats timeouts = m.TimeoutOverride) ∧
    (m.TimeoutOverride = 0 →
      GetRelayTimeout common m stats timeouts =
        wrapInt64 ((timeouts + 1) *
            (if m.GetApi.TimeoutMs > 0 then time.Millisecond * (m.GetApi.TimeoutMs : Int)
              else common.GetTimePerCu m.GetApi.ComputeUnits) +
          common.AverageWorldLatency +
          (if m.GetApi.HangingApi then stats.averageBlockTime else 0))) ∧
    (∀ total : Int, m.TimeoutOverride = 0 →
      total = (timeouts + 1) *
            (if m.GetApi.TimeoutMs > 0 then time.Millisecond * (m.GetApi.TimeoutMs : Int)
              else common.GetTimePerCu m.GetApi.ComputeUnits) +
          common.AverageWorldLatency +
          (if m.GetApi.HangingApi then stats.averageBlockTime else 0) →
      -9223372036854775808 ≤ total → total < 9223372036854775808 →
      GetRelayTimeout common m stats timeouts = total) ∧
    (m.TimeoutOverride = 0 → m.GetApi.HangingApi = false → m.GetApi.ComputeUnits = 10 →
      m.GetApi.TimeoutMs = 0 → timeouts = 0 →
      GetRelayTimeout common m stats timeouts =
        wrapInt64 (common.GetTimePerCu 10 + common.AverageWorldLatency)) := by
  refine ⟨?_, ?_, ?_, ?_⟩
  · intro h
    unfold GetRelayTimeout
    rw [if_pos h]
  · intro h
    exact GetRelayTimeout_eq common m stats timeouts h
  · intro total h ht h1 h2
    rw [GetRelayTimeout_eq common m stats timeouts h]
    simp only [time.Millisecond] at ht
    rw [← ht]
    exact wrapInt64_of_range total h1 h2
  · intro h hh hc ht h0
    rw [GetRelayTimeout_eq common m stats timeouts h, hh, hc, ht, h0]
    simp


/-- C22, witness: with 100 ms per compute unit and 300 ms of world latency, the message
of a non-hanging api of 10 compute units, without override and with `timeouts = 0`,
gets `GetTimePerCu(10) + AverageWorldLatency`, that is 1300 ms. -/
theorem C22_GetRelayTimeout_witness :
    GetRelayTimeout exampleRelayTimeCommon plainChainMessage ⟨0, 15000000000, 0, 0⟩ 0 =
      exampleRelayTimeCommon.GetTimePerCu 10 + exampleRelayTimeCommon.AverageWorldLatency ∧
    exampleRelayTimeCommon.GetTimePerCu 10 + exampleRelayTimeCommon.AverageWorldLatency =
      1300000000 :=
  ⟨(C22_GetRelayTimeout_formula exampleRelayTimeCommon plainChainMessage
      ⟨0, 15000000000, 0, 0⟩ 0).2.2.1 1300000000 rfl (by decide) (by decide) (by decide),
    by decide⟩

/-! ### Protocol versions -/

theorem strings.Split_ne_nil (sep : Char) (l : List Char) : strings.Split sep l ≠ [] := by
  cases l with
  | nil => simp [strings.Split]
  | cons c cs =>
    unfold strings.Split
    split_ifs
    · simp
    · split <;> simp

theorem strings.Split_of_not_mem (sep : Char) (s : List Char) (h : sep ∉ s) :
    strings.Split sep s = [s] := by
  induction s with
  | nil => rfl
  | cons c cs ih =>
    have hc : c ≠ sep := fun e => h (by simp [e])
    have hcs : sep ∉ cs := fun e => h (by simp [e])
    unfold strings.Split
    rw [if_neg hc, ih hcs]

theorem strings.Split_append (sep : Char) (s rest : List Char) (h : sep ∉ s) :
    strings.Split sep (s ++ sep :: rest) = s :: strings.Split sep rest := by
  induction s with
  | nil =>
    show strings.Split sep (sep :: rest) = _
    rw [strings.Split, if_pos rfl]
  | cons c cs ih =>
    have hc : c ≠ sep := fun e => h (by simp [e])
    have hcs : sep ∉ cs := fun e => h (by simp [e])
    show strings.Split sep (c :: (cs ++ sep :: rest)) = _
    rw [strings.Split, if_neg hc, ih hcs]

theorem strings.Split_join (sep : Char) (l : List Char) (p : List Char)
    (ps : List (List Char)) (h : strings.Split sep l = p :: ps) :
    l = p ++ ps.flatMap (fun q => sep :: q) ∧ sep ∉ p := by
  induction l generalizing p ps with
  | nil =>
    simp only [strings.Split, List.cons.injEq] at h
    obtain ⟨rfl, rfl⟩ := h
    simp
  | cons c cs ih =>
    unfold strings.Split at h
    by_cases hc : c = sep
    · rw [if_pos hc] at h
      simp only [List.cons.injEq] at h
      obtain ⟨rfl, rfl⟩ := h
      obtain ⟨p', ps', e⟩ := List.exists_cons_of_ne_nil (strings.Split_ne_nil sep cs)
      have := (ih p' ps' e).1
      rw [e]
      simp only [List.flatMap_cons, List.nil_append, List.cons_append, hc]
      refine ⟨?_, by simp⟩
      rw [List.cons.injEq]
      exact ⟨rfl, this⟩
    · rw [if_neg hc] at h
      obtain ⟨p', ps', e⟩ := List.exists_cons_of_ne_nil (strings.Split_ne_nil sep cs)
      rw [e] at h
      simp only [List.cons.injEq] at h
      obtain ⟨rfl, rfl⟩ := h
      have := ih p' ps' e
      refine ⟨?_, ?_⟩
      · rw [List.cons_append, ← this.1]
      · simp only [List.mem_cons, not_or]
        exact ⟨fun e => hc e.symm, this.2⟩

theorem parseDigits_eq_some (acc : Nat) (s : List Char) (n : Nat) :
    parseDigits acc s = some n ↔
      s.all Char.isDigit = true ∧
        n = s.foldl (fun a c => a * 10 + (c.toNat - '0'.toNat)) acc := by
  induction s generalizing acc with
  | nil => simp [parseDigits, eq_comm]
  | cons c cs ih =>
    unfold parseDigits digitValue
    by_cases hd : c.isDigit = true
    · simp only [hd, if_true, List.all_cons, Bool.true_and, List.foldl_cons]
      exact ih _
    · simp [hd]

theorem strconv.ParseUint_eq_some (s : List Char) (n : Nat) :
    strconv.ParseUint s = some n ↔
      isUnsignedDecimal s = true ∧ n = decimalValue s ∧ n < 18446744073709551616 := by
  cases s with
  | nil => simp [strconv.ParseUint, isUnsignedDecimal]
  | cons c cs =>
    unfold strconv.ParseUint
    simp only
    cases hp : parseDigits 0 (c :: cs) with
    | none =>
      constructor
      · intro h
        cases h
      rintro ⟨hu, hn, -⟩
      have := (parseDigits_eq_some 0 (c :: cs) n).2 ⟨by simpa [isUnsignedDecimal] using hu, hn⟩
      rw [hp] at this
      cases this
    | some k =>
      have hk := (parseDigits_eq_some 0 (c :: cs) k).1 hp
      simp only
      constructor
      · intro h
        split_ifs at h with hlt
        simp only [Option.some.injEq] at h
        subst h
        exact ⟨by simpa [isUnsignedDecimal] using hk.1, hk.2, hlt⟩
      · rintro ⟨_, hn, hlt⟩
        have : n = k := by rw [hn, hk.2]; rfl
        subst this
        rw [if_pos hlt]

theorem not_mem_of_isUnsignedDecimal (s : List Char) (h : isUnsignedDecimal s = true) :
    '.' ∉ s := by
  intro hm
  simp only [isUnsignedDecimal, Bool.and_eq_true, List.all_eq_true] at h
  have := h.2 _ hm
  revert this
  decide
theorem strings.Split_triple (s0 s1 s2 : List Char) (h0 : isUnsignedDecimal s0 = true)
    (h1 : isUnsignedDecimal s1 = true) (h2 : isUnsignedDecimal s2 = true) :
    strings.Split '.' (s0 ++ '.' :: (s1 ++ '.' :: s2)) = [s0, s1, s2] := by
  rw [strings.Split_append _ _ _ (not_mem_of_isUnsignedDecimal s0 h0),
    strings.Split_append _ _ _ (not_mem_of_isUnsignedDecimal s1 h1),
    strings.Split_of_not_mem _ _ (not_mem_of_isUnsignedDecimal s2 h2)]

theorem versionToInteger_of_triple (v : String) (s0 s1 s2 : List Char)
    (h : isDottedTriple v.data s0 s1 s2) (hmaj : decimalValue s0 < 18446744073709551616) :
    versionToInteger v =
      Except.ok (wrapInt64 ((encodedVersion s0 s1 s2 % 18446744073709551616 : Nat) : Int)) := by
  obtain ⟨hv, h0, h1, h2, hmin, hrev⟩ := h
  have p0 : strconv.ParseUint s0 = some (decimalValue s0) :=
    (strconv.ParseUint_eq_some s0 _).2 ⟨h0, rfl, hmaj⟩
  have p1 : strconv.ParseUint s1 = some (decimalValue s1) :=
    (strconv.ParseUint_eq_some s1 _).2 ⟨h1, rfl, by unfold MAX_MINOR at hmin; omega⟩
  have p2 : strconv.ParseUint s2 = some (decimalValue s2) :=
    (strconv.ParseUint_eq_some s2 _).2 ⟨h2, rfl, by unfold MAX_REVISION at hrev; omega⟩
  unfold versionToInteger
  rw [hv, strings.Split_triple s0 s1 s2 h0 h1 h2]
  simp only [p0, p1, p2]
  rw [if_neg (by omega), if_neg (by omega)]
  rfl

theorem versionToInteger_eq_ok (v : String) (n : Int) :
    versionToInteger v = Except.ok n ↔
      ∃ s0 s1 s2, isDottedTriple v.data s0 s1 s2 ∧
        decimalValue s0 < 18446744073709551616 ∧
        n = wrapInt64 ((encodedVersion s0 s1 s2 % 18446744073709551616 : Nat) : Int) := by
  constructor
  · intro h
    unfold versionToInteger at h
    split at h
    next s0 s1 s2 hs =>
      have hj := (strings.Split_join '.' v.data s0 [s1, s2] hs).1
      cases p0 : strconv.ParseUint s0 with
      | none => simp [p0] at h
      | some maj =>
        cases p1 : strconv.ParseUint s1 with
        | none => simp [p0, p1] at h
        | some min =>
          cases p2 : strconv.ParseUint s2 with
          | none => simp [p0, p1, p2] at h
          | some rev =>
            simp only [p0, p1, p2] at h
            split_ifs at h with hmin hrev
            obtain ⟨u0, e0, l0⟩ := (strconv.ParseUint_eq_some s0 maj).1 p0
            obtain ⟨u1, e1, -⟩ := (strconv.ParseUint_eq_some s1 min).1 p1
            obtain ⟨u2, e2, -⟩ := (strconv.ParseUint_eq_some s2 rev).1 p2
            subst e0 e1 e2
            refine ⟨s0, s1, s2, ⟨?_, u0, u1, u2, by omega, by omega⟩, l0, ?_⟩
            · simpa using hj
            · simp only [Except.ok.injEq] at h
              rw [← h]
              rfl
    next => cases h
  · rintro ⟨s0, s1, s2, ht, hmaj, hn⟩
    rw [hn]
    exact versionToInteger_of_triple v s0 s1 s2 ht hmaj

/-- C23 (amended): `versionToInteger` accepts a string exactly when it is a dotted
triple `major.minor.revision` of unsigned decimal integers with minor and revision at
most `10000` and major below `2^64`. For an accepted string it returns
`major*10000*10000 + minor*10000 + revision` reduced to 64 bits, which is that very
number whenever it is below `2^63`. Every other string is rejected with an error. -/
theorem C23_versionToInteger_dotted_triple (v : String) :
    (∀ n : Int, versionToInteger v = Except.ok n ↔
      ∃ s0 s1 s2, isDottedTriple v.data s0 s1 s2 ∧
        decimalValue s0 < 18446744073709551616 ∧
        n = wrapInt64 ((encodedVersion s0 s1 s2 % 18446744073709551616 : Nat) : Int)) ∧
    (∀ s0 s1 s2, isDottedTriple v.data s0 s1 s2 →
      encodedVersion s0 s1 s2 < 9223372036854775808 →
      versionToInteger v = Except.ok (encodedVersion s0 s1 s2 : Int)) ∧
    ((¬ ∃ s0 s1 s2, isDottedTriple v.data s0 s1 s2 ∧
        decimalValue s0 < 18446744073709551616) →
      ∃ err, versionToInteger v = Except.error err) := by
  refine ⟨fun n => versionToInteger_eq_ok v n, ?_, ?_⟩
  · intro s0 s1 s2 ht hlt
    have hmaj : decimalValue s0 < 18446744073709551616 := by
      unfold encodedVersion at hlt
      omega
    rw [versionToInteger_of_triple v s0 s1 s2 ht hmaj]
    have e : encodedVersion s0 s1 s2 % 18446744073709551616 = encodedVersion s0 s1 s2 :=
      Nat.mod_eq_of_lt (by omega)
    rw [e, wrapInt64_of_range _ (by omega) (by omega)]
  · intro hno
    cases hv : versionToInteger v with
    | error err => exact ⟨err, rfl⟩
    | ok n =>
      obtain ⟨s0, s1, s2, ht, hmaj, -⟩ := (versionToInteger_eq_ok v n).1 hv
      exact absurd ⟨s0, s1, s2, ht, hmaj⟩ hno

/-- C23, counterexample: the string `18446744073709551616.0.0` is a dotted triple of
unsigned decimal integers within the minor and revision limits, and `versionToInteger`
rejects it; the string `184467440738.0.0` is accepted, and the result is `90448384`,
not `184467440738*10000*10000`. -/
theorem C23_counterexample :
    isDottedTriple "18446744073709551616.0.0".data "18446744073709551616".data "0".data
      "0".data ∧
    versionToInteger "18446744073709551616.0.0" = Except.error VersionError.major ∧
    isDottedTriple "184467440738.0.0".data "184467440738".data "0".data "0".data ∧
    versionToInteger "184467440738.0.0" = Except.ok 90448384 ∧
    encodedVersion "184467440738".data "0".data "0".data = 18446744073800000000 := by
  refine ⟨?_, rfl, ?_, rfl, by decide⟩
  · unfold isDottedTriple
    decide
  · unfold isDottedTriple
    decide

/-- C24: `validateVersion` returns nil exactly when `versionToInteger` accepts the four
version strings, the encoded provider min does not exceed the encoded provider target,
the encoded consumer min does not exceed the encoded consumer target, and the provider
and consumer encodings are equal for the target and for the min. The default
parameters pass, and a value that is not a `Version` is rejected. -/
theorem C24_validateVersion_nil_iff (version : Version) :
    (validateVersion (ParamValue.version version) = none ↔
      ∃ pt pm ct cm : Int,
        versionToInteger version.ProviderTarget = Except.ok pt ∧
        versionToInteger version.ProviderMin = Except.ok pm ∧
        versionToInteger version.ConsumerTarget = Except.ok ct ∧
        versionToInteger version.ConsumerMin = Except.ok cm ∧
        pm ≤ pt ∧ cm ≤ ct ∧ pt = ct ∧ pm = cm) ∧
    validateVersion (ParamValue.version DefaultVersion) = none ∧
    DefaultVersion = ⟨"0.33.3", "0.32.1", "0.33.3", "0.32.1"⟩ ∧
    (∀ typeName : String,
      validateVersion (ParamValue.other typeName) =
        some ValidateVersionError.invalidParameterType) := by
  refine ⟨?_, by decide, rfl, fun _ => rfl⟩
  unfold validateVersion
  simp only
  cases h1 : versionToInteger version.ProviderTarget with
  | error e => simp
  | ok pt =>
    cases h2 : versionToInteger version.ProviderMin with
    | error e => simp
    | ok pm =>
      cases h3 : versionToInteger version.ConsumerTarget with
      | error e => simp
      | ok ct =>
        cases h4 : versionToInteger version.ConsumerMin with
        | error e => simp
        | ok cm =>
          simp only [Except.ok.injEq]
          constructor
          · intro h
            split_ifs at h with a b c d
            exact ⟨pt, pm, ct, cm, rfl, rfl, rfl, rfl, by omega, by omega, by omega, by omega⟩
          · rintro ⟨pt', pm', ct', cm', rfl, rfl, rfl, rfl, a, b, c, d⟩
            rw [if_neg (by omega), if_neg (by omega), if_neg (by omega), if_neg (by omega)]

/-- C27: the strings `0.10000.0` and `1.0.0` are both accepted by `versionToInteger`,
their components `(0, 10000, 0)` and `(1, 0, 0)` differ, and both are encoded as
`100000000`; likewise `0.0.10000` and `0.1.0` are both encoded as `10000`. -/
theorem C27_encoding_collides_at_limit :
    versionToInteger "0.10000.0" = Except.ok 100000000 ∧
    versionToInteger "1.0.0" = Except.ok 100000000 ∧
    versionToInteger "0.0.10000" = Except.ok 10000 ∧
    versionToInteger "0.1.0" = Except.ok 10000 :=
  ⟨rfl, rfl, rfl, rfl⟩


/-! ### A failing policy query -/

/-- C30: when `GetSupportedAddons` returns an error, or `GetSupportedExtensions` does
after `GetSupportedAddons` succeeded, `SetPolicy` returns that error and the parser is
unchanged, with its allowed addons and its configured extensions. When both queries
succeed, `SetPolicy` returns nil and applies a set that holds exactly the supported
addons and the extension names of the supported services whose `ApiInterface` is the
given interface. -/
theorem C30_SetPolicy_atomic_on_failure (bcp : BaseChainParser) (policy : PolicyInf)
    (chainId apiInterface : String) :
    (∀ err, policy.GetSupportedAddons chainId = Except.error err →
      SetPolicy bcp policy chainId apiInterface = (bcp, some err)) ∧
    (∀ addons err, policy.GetSupportedAddons chainId = Except.ok addons →
      policy.GetSupportedExtensions chainId = Except.error err →
      SetPolicy bcp policy chainId apiInterface = (bcp, some err)) ∧
    (∀ addons extensions, policy.GetSupportedAddons chainId = Except.ok addons →
      policy.GetSupportedExtensions chainId = Except.ok extensions →
      ∃ policyInformation : GoMap String Unit,
        (∀ a, policyInformation.contains a = true ↔
          a ∈ addons ∨ ∃ s ∈ extensions, s.ApiInterface = apiInterface ∧ s.Extension = a) ∧
        SetPolicy bcp policy chainId apiInterface =
          (SetPolicyFromAddonAndExtensionMap bcp policyInformation, none)) := by
  refine ⟨?_, ?_, ?_⟩
  · intro err hA
    unfold SetPolicy BuildMapFromPolicyQuery
    rw [hA]
  · intro addons err hA hE
    unfold SetPolicy BuildMapFromPolicyQuery
    rw [hA, hE]
  · intro addons extensions hA hE
    cases hB : BuildMapFromPolicyQuery policy chainId apiInterface with
    | error err =>
      unfold BuildMapFromPolicyQuery at hB
      rw [hA, hE] at hB
      cases hB
    | ok m =>
      refine ⟨m, ?_, ?_⟩
      · intro a
        rw [BuildMapFromPolicyQuery_contains policy chainId apiInterface m hB a]
        unfold policyAllows
        rw [hA, hE]
        simp
      · unfold SetPolicy
        rw [hB]


/-! ### The header index of a constructed parser -/

theorem Char.isUpper_iff (c : Char) : c.isUpper = true ↔ 65 ≤ c.toNat ∧ c.toNat ≤ 90 := by
  simp only [Char.isUpper, Bool.and_eq_true, decide_eq_true_eq, Char.toNat, ge_iff_le,
    UInt32.le_def, Fin.le_def]
  exact Iff.rfl

/-- A lower-cased character is no upper-case letter. -/
theorem Char.isUpper_toLower (c : Char) : (Char.toLower c).isUpper = false := by
  unfold Char.toLower
  simp only
  by_cases h : c.toNat ≥ 65 ∧ c.toNat ≤ 90
  · rw [if_pos h]
    obtain ⟨h1, h2⟩ := h
    generalize c.toNat = n at h1 h2
    interval_cases n <;> rfl
  · rw [if_neg h]
    cases hu : c.isUpper with
    | false => rfl
    | true => exact absurd ((Char.isUpper_iff c).1 hu) h

/-- The header table of an enabled spec: the assignments of the headers of the indexed
collections, in spec order. -/
theorem getServiceApis_headers (spec : Spec) (rpcInterface : String)
    (h : spec.Enabled = true) :
    (getServiceApis spec rpcInterface).headers =
      ((spec.ApiCollections.filter (isIndexed rpcInterface)).flatMap headerEntriesOf).foldl
        (fun m p => GoMap.set m p.1 p.2) [] := by
  unfold getServiceApis
  rw [if_pos h]
  exact (foldl_indexCollection rpcInterface spec.ApiCollections ⟨[], [], [], [], []⟩).2.2.1

/-- The keys of the header table of a constructed parser. -/
theorem parserOf_headers_contains (bcp : BaseChainParser) (spec : Spec)
    (rpcInterface : String) (k : ApiKey) :
    ((parserOf bcp spec rpcInterface).headers.get? k).isSome = true ↔
      spec.Enabled = true ∧ ∃ c ∈ spec.ApiCollections, isIndexed rpcInterface c = true ∧
        c.CollectionData.Type_ = k.ConnectionType ∧ ∃ h ∈ c.Headers, h.Name = k.Name := by
  have hp : (parserOf bcp spec rpcInterface).headers = (getServiceApis spec rpcInterface).headers :=
    rfl
  rw [hp]
  cases hen : spec.Enabled with
  | false =>
    rw [getServiceApis_disabled spec rpcInterface hen]
    simp [GoMap.get?]
  | true =>
    rw [getServiceApis_headers spec rpcInterface hen]
    have hc := GoMap.contains_iff_mem_keys
      (((spec.ApiCollections.filter (isIndexed rpcInterface)).flatMap headerEntriesOf).foldl
        (fun m p => GoMap.set m p.1 p.2) ([] : GoMap ApiKey Header)) k
    unfold GoMap.contains at hc
    rw [hc, GoMap.mem_keys_foldl_set]
    simp only [List.mem_flatMap, List.mem_filter, headerEntriesOf, List.mem_map, collectionKeyOf,
      GoMap.keys, List.map_nil, List.not_mem_nil, or_false, true_and]
    constructor
    · rintro ⟨p, ⟨c, ⟨hc1, hc2⟩, hh, hhm, rfl⟩, rfl⟩
      exact ⟨c, hc1, hc2, rfl, hh, hhm, rfl⟩
    · rintro ⟨c, hc1, hc2, ht, hh, hhm, hn⟩
      refine ⟨_, ⟨c, ⟨hc1, hc2⟩, hh, hhm, rfl⟩, ?_⟩
      obtain ⟨kn, kt⟩ := k
      simp only at ht hn
      simp [ht, hn]

/-- Lower-casing an ASCII lower-cased character changes nothing. -/
theorem Char.toLower_toLower (c : Char) : Char.toLower (Char.toLower c) = Char.toLower c := by
  have h := Char.isUpper_toLower c
  generalize Char.toLower c = x at h ⊢
  unfold Char.toLower
  simp only
  rw [if_neg]
  intro hx
  rw [(Char.isUpper_iff x).2 ⟨hx.1, hx.2⟩] at h
  cases h

/-- C29: on a parser built from a spec, an incoming header has a directive exactly when
the spec is enabled and its lower-cased name is the `Name` of a header of an indexed
collection whose connection type is that of the collection of the message. Two incoming
headers with the same lower-cased name get the same directive and are forwarded,
ignored and read for the latest block alike. A spec header whose `Name` has a character
that is the lower-case form of no character is the lower-cased name of no incoming
header and the directive of none; when lower-casing a lower-cased character changes
nothing, as in the Go library, this holds for every spec header whose `Name` has a
character that lower-casing changes, an upper-case letter. -/
theorem C29_header_lookup_is_lower_cased (lower : Char → Char) (bcp : BaseChainParser)
    (spec : Spec) (rpcInterface : String) (apiCollection : ApiCollection) (header : Metadata) :
    ((directiveOf lower (parserOf bcp spec rpcInterface) apiCollection header).isSome = true ↔
      spec.Enabled = true ∧ ∃ c ∈ spec.ApiCollections, isIndexed rpcInterface c = true ∧
        c.CollectionData.Type_ = apiCollection.CollectionData.Type_ ∧
        ∃ h ∈ c.Headers, h.Name = strings.ToLower lower header.Name) ∧
    (∀ other : Metadata, strings.ToLower lower other.Name = strings.ToLower lower header.Name →
      directiveOf lower (parserOf bcp spec rpcInterface) apiCollection other =
        directiveOf lower (parserOf bcp spec rpcInterface) apiCollection header ∧
      (∀ headersDirection,
        isForwarded lower (parserOf bcp spec rpcInterface) apiCollection headersDirection other =
          isForwarded lower (parserOf bcp spec rpcInterface) apiCollection headersDirection
            header) ∧
      isIgnoreKind lower (parserOf bcp spec rpcInterface) apiCollection other =
        isIgnoreKind lower (parserOf bcp spec rpcInterface) apiCollection header ∧
      setsLatest lower (parserOf bcp spec rpcInterface) apiCollection other =
        setsLatest lower (parserOf bcp spec rpcInterface) apiCollection header) ∧
    (∀ h : Header, (∃ ch ∈ h.Name.data, ∀ d : Char, lower d ≠ ch) →
      strings.ToLower lower header.Name ≠ h.Name ∧
      directiveOf lower (parserOf bcp spec rpcInterface) apiCollection header ≠ some h) ∧
    ((∀ c : Char, lower (lower c) = lower c) →
      ∀ h : Header, (∃ ch ∈ h.Name.data, lower ch ≠ ch) →
        strings.ToLower lower header.Name ≠ h.Name ∧
        directiveOf lower (parserOf bcp spec rpcInterface) apiCollection header ≠ some h) := by
  have hthird : ∀ h : Header, (∃ ch ∈ h.Name.data, ∀ d : Char, lower d ≠ ch) →
      strings.ToLower lower header.Name ≠ h.Name ∧
      directiveOf lower (parserOf bcp spec rpcInterface) apiCollection header ≠ some h := by
    rintro h ⟨ch, hch, himage⟩
    have hne : strings.ToLower lower header.Name ≠ h.Name := by
      intro e
      rw [← e] at hch
      simp only [strings.ToLower, List.mem_map] at hch
      obtain ⟨c0, -, e0⟩ := hch
      exact himage c0 e0
    refine ⟨hne, ?_⟩
    intro hd
    apply hne
    have hp : (parserOf bcp spec rpcInterface).headers =
        (getServiceApis spec rpcInterface).headers := rfl
    unfold directiveOf at hd
    rw [hp] at hd
    cases hen : spec.Enabled with
    | false =>
      rw [getServiceApis_disabled spec rpcInterface hen] at hd
      cases hd
    | true =>
      rw [getServiceApis_headers spec rpcInterface hen] at hd
      have hm := GoMap.get?_foldl_set_some _ _ _ hd
      simp only [List.mem_flatMap, headerEntriesOf, List.mem_map] at hm
      obtain ⟨c, -, h', -, e⟩ := hm
      simp only [Prod.mk.injEq, ApiKey.mk.injEq] at e
      obtain ⟨⟨e1, -⟩, e2⟩ := e
      rw [← e1, e2]
  refine ⟨?_, ?_, hthird, ?_⟩
  · unfold directiveOf
    exact parserOf_headers_contains bcp spec rpcInterface _
  · intro other ho
    have hd : directiveOf lower (parserOf bcp spec rpcInterface) apiCollection other =
        directiveOf lower (parserOf bcp spec rpcInterface) apiCollection header := by
      unfold directiveOf
      rw [ho]
    refine ⟨hd, fun d => ?_, ?_, ?_⟩
    · unfold isForwarded
      rw [hd]
    · unfold isIgnoreKind
      rw [hd]
    · unfold setsLatest
      rw [hd]
  · rintro hidem h ⟨ch, hch, hchange⟩
    refine hthird h ⟨ch, hch, ?_⟩
    intro d e
    apply hchange
    rw [← e, hidem]

/-- C29 on the example spec with the ASCII lower-casing: the incoming header `X-TRACE`
is known under the spec header `x-trace`, `x-trace` gets the same directive, and the
spec header `X-Request-Id`, whose name has upper-case letters, is the directive of
neither `X-Request-Id` nor `x-request-id`. -/
theorem C29_header_lookup_witness :
    (directiveOf Char.toLower (parserOf emptyParser headerSpec "rest") (restCollection "" [])
      ⟨"X-TRACE", "1"⟩).isSome = true ∧
    directiveOf Char.toLower (parserOf emptyParser headerSpec "rest") (restCollection "" [])
        ⟨"x-trace", "1"⟩ =
      directiveOf Char.toLower (parserOf emptyParser headerSpec "rest") (restCollection "" [])
        ⟨"X-TRACE", "1"⟩ ∧
    directiveOf Char.toLower (parserOf emptyParser headerSpec "rest") (restCollection "" [])
        ⟨"X-Request-Id", "7"⟩ ≠
      some ⟨"X-Request-Id", Header_HeaderType.pass_both, FUNCTION_TAG.DISABLED⟩ ∧
    directiveOf Char.toLower (parserOf emptyParser headerSpec "rest") (restCollection "" [])
        ⟨"x-request-id", "7"⟩ ≠
      some ⟨"X-Request-Id", Header_HeaderType.pass_both, FUNCTION_TAG.DISABLED⟩ :=
  ⟨(C29_header_lookup_is_lower_cased Char.toLower emptyParser headerSpec "rest"
      (restCollection "" []) ⟨"X-TRACE", "1"⟩).1.2 (by decide),
    ((C29_header_lookup_is_lower_cased Char.toLower emptyParser headerSpec "rest"
      (restCollection "" []) ⟨"X-TRACE", "1"⟩).2.1 ⟨"x-trace", "1"⟩ (by decide)).1,
    ((C29_header_lookup_is_lower_cased Char.toLower emptyParser headerSpec "rest"
      (restCollection "" []) ⟨"X-Request-Id", "7"⟩).2.2.2 Char.toLower_toLower
      ⟨"X-Request-Id", Header_HeaderType.pass_both, FUNCTION_TAG.DISABLED⟩
      ⟨'X', by decide, by decide⟩).2,
    ((C29_header_lookup_is_lower_cased Char.toLower emptyParser headerSpec "rest"
      (restCollection "" []) ⟨"x-request-id", "7"⟩).2.2.2 Char.toLower_toLower
      ⟨"X-Request-Id", Header_HeaderType.pass_both, FUNCTION_TAG.DISABLED⟩
      ⟨'X', by decide, by decide⟩).2⟩

/-! ### The provider conflicts query -/

/-- C26: for every list of stored conflict votes and every address the query succeeds;
`Reported` holds exactly the indices of the conflict votes in which the address is the
account of the first or of the second provider, `NotVoted` exactly the indices of the
conflict votes in which the address has a vote with the result `NoVote`; an address
that is no provider account and no voter of any conflict vote gets two empty lists.
On the seven conflict votes of `TestProviderConflicts` the query gives the lists the
test expects. -/
theorem C26_provider_conflicts (conflictVotes : List ConflictVote) (provider : String) :
    (∃ res, ProviderConflicts conflictVotes provider = Except.ok res ∧
      (∀ index, index ∈ res.Reported ↔
        ∃ c ∈ conflictVotes, c.Index = index ∧
          (c.FirstProvider.Account = provider ∨ c.SecondProvider.Account = provider)) ∧
      (∀ index, index ∈ res.NotVoted ↔
        ∃ c ∈ conflictVotes, c.Index = index ∧
          ∃ vote ∈ c.Votes, vote.Address = provider ∧ vote.Result = VoteResult.NoVote) ∧
      ((∀ c ∈ conflictVotes, c.FirstProvider.Account ≠ provider ∧
          c.SecondProvider.Account ≠ provider ∧ ∀ vote ∈ c.Votes, vote.Address ≠ provider) →
        res.Reported = [] ∧ res.NotVoted = [])) ∧
    ProviderConflicts testConflictVotes "p0" = Except.ok ⟨["0"], []⟩ ∧
    ProviderConflicts testConflictVotes "p1" = Except.ok ⟨["1"], []⟩ ∧
    ProviderConflicts testConflictVotes "dummy" = Except.ok ⟨[], []⟩ ∧
    ProviderConflicts testConflictVotes "p3" = Except.ok ⟨[], ["3"]⟩ ∧
    ProviderConflicts testConflictVotes "p4" = Except.ok ⟨[], []⟩ ∧
    ProviderConflicts testConflictVotes "p5" = Except.ok ⟨["5"], ["5"]⟩ ∧
    ProviderConflicts testConflictVotes "p6" = Except.ok ⟨["6"], []⟩ := by
  refine ⟨⟨_, rfl, ?_, ?_, ?_⟩, rfl, rfl, rfl, rfl, rfl, rfl, rfl⟩
  · intro index
    simp only [List.mem_map, List.mem_filter, decide_eq_true_eq]
    constructor
    · rintro ⟨c, ⟨hc, hp⟩, rfl⟩
      exact ⟨c, hc, rfl, hp⟩
    · rintro ⟨c, hc, rfl, hp⟩
      exact ⟨c, ⟨hc, hp⟩, rfl⟩
  · intro index
    simp only [List.mem_map, List.mem_filter, List.any_eq_true, decide_eq_true_eq]
    constructor
    · rintro ⟨c, ⟨hc, hp⟩, rfl⟩
      exact ⟨c, hc, rfl, hp⟩
    · rintro ⟨c, hc, rfl, hp⟩
      exact ⟨c, ⟨hc, hp⟩, rfl⟩
  · intro hno
    simp only [List.map_eq_nil_iff, List.filter_eq_nil_iff, List.any_eq_true,
      decide_eq_true_eq]
    refine ⟨?_, ?_⟩
    · intro c hc hp
      obtain ⟨h1, h2, -⟩ := hno c hc
      rcases hp with hp | hp
      · exact h1 hp
      · exact h2 hp
    · rintro c hc ⟨vote, hv, ha, -⟩
      exact (hno c hc).2.2 vote hv ha


/-! ### The parameters of a REST message -/

theorem GetParams.foldl_step_none (objectPath : List (List Char))
    (es : List (Nat × List Char)) :
    es.foldl (GetParams.step objectPath) none = none := by
  induction es with
  | nil => rfl
  | cons e es ih => exact ih

theorem GetParams.foldl_step (objectPath : List (List Char)) (es : List (Nat × List Char)) :
    ∀ m : GoMap String String,
    es.foldl (GetParams.step objectPath) (some m) =
      if es.all (fun p => !decide ('{' ∈ p.2) || decide (p.1 < objectPath.length)) then
        some (((es.filter (fun p => decide ('{' ∈ p.2))).map (fun p =>
          (String.mk (strings.Trim p.2 ['{', '}']), String.mk (objectPath.getD p.1 [])))).foldl
          (fun m p => GoMap.set m p.1 p.2) m)
      else none := by
  induction es with
  | nil => intro m; rfl
  | cons e es ih =>
    intro m
    rw [List.foldl_cons]
    by_cases hb : '{' ∈ e.2
    · by_cases hr : e.1 < objectPath.length
      · have hg : objectPath.get? e.1 = some (objectPath.getD e.1 []) := by
          rw [List.get?_eq_getElem?, List.getD_eq_getElem?_getD, List.getElem?_eq_getElem hr]
          rfl
        have hs : GetParams.step objectPath (some m) e =
            some (m.set (String.mk (strings.Trim e.2 ['{', '}']))
              (String.mk (objectPath.getD e.1 []))) := by
          unfold GetParams.step
          simp only [hb, if_true, hg]
        have hc : (!decide ('{' ∈ e.2) || decide (e.1 < objectPath.length)) = true := by
          simp [hr]
        rw [hs, ih, List.all_cons, hc, Bool.true_and,
          List.filter_cons_of_pos (by simpa using hb), List.map_cons, List.foldl_cons]
      · have hg : objectPath.get? e.1 = none := by
          rw [List.get?_eq_none]
          omega
        have hs : GetParams.step objectPath (some m) e = none := by
          unfold GetParams.step
          simp only [hb, if_true, hg]
        have hc : (!decide ('{' ∈ e.2) || decide (e.1 < objectPath.length)) = false := by
          simp [hb, hr]
        rw [hs, GetParams.foldl_step_none, List.all_cons, hc, Bool.false_and]
        rfl
    · have hs : GetParams.step objectPath (some m) e = some m := by
        unfold GetParams.step
        simp only [hb, if_false]
      have hc : (!decide ('{' ∈ e.2) || decide (e.1 < objectPath.length)) = true := by
        simp [hb]
      rw [hs, ih, List.all_cons, hc, Bool.true_and,
        List.filter_cons_of_neg (by simpa using hb)]

/-- The outcome of `GetParams` on a path that parses: a panic when a segment is missing,
otherwise the map built by the assignments of both loops, or nil when it is empty. -/
theorem GetParams_eq (urlParse : String → Option URL) (cp : RestMessage) (urlObj : URL)
    (h : urlParse cp.Path = some urlObj) :
    GetParams urlParse cp =
      if segmentsInRange (strings.Split '/' cp.SpecPath.data)
          (strings.Split '/' urlObj.Path.data) then
        if ((specParameterEntries (strings.Split '/' cp.SpecPath.data)
            (strings.Split '/' urlObj.Path.data) ++ queryEntries urlObj).foldl
            (fun m p => GoMap.set m p.1 p.2) ([] : GoMap String String)).length = 0 then
          GetParamsResult.nil
        else GetParamsResult.parameters
          ((specParameterEntries (strings.Split '/' cp.SpecPath.data)
            (strings.Split '/' urlObj.Path.data) ++ queryEntries urlObj).foldl
            (fun m p => GoMap.set m p.1 p.2) [])
      else GetParamsResult.panic := by
  have e : ∀ m0 : GoMap String String,
      urlObj.Query.foldl (fun parameters entry =>
          GoMap.set parameters entry.1 (strings.Join entry.2)) m0 =
        (queryEntries urlObj).foldl (fun m p => GoMap.set m p.1 p.2) m0 := by
    intro m0
    simp only [queryEntries, List.foldl_map]
  unfold GetParams
  rw [h]
  simp only
  rw [GetParams.foldl_step]
  by_cases hr : segmentsInRange (strings.Split '/' cp.SpecPath.data)
      (strings.Split '/' urlObj.Path.data) = true
  · rw [if_pos hr]
    unfold segmentsInRange at hr
    rw [if_pos hr]
    simp only
    rw [e, List.foldl_append]
    rfl
  · rw [if_neg hr]
    unfold segmentsInRange at hr
    rw [if_neg hr]

theorem segmentsInRange_iff (objectSpec objectPath : List (List Char)) :
    segmentsInRange objectSpec objectPath = true ↔
      ∀ index element, objectSpec.get? index = some element → '{' ∈ element →
        index < objectPath.length := by
  unfold segmentsInRange
  rw [List.all_eq_true]
  constructor
  · intro h index element hg hb
    have := h (index, element) (List.mk_mem_enum_iff_getElem?.2 (by rw [← List.get?_eq_getElem?]; exact hg))
    simpa [hb] using this
  · intro h p hp
    have hg : objectSpec.get? p.1 = some p.2 := by
      rw [List.get?_eq_getElem?]
      exact List.mem_enum_iff_getElem?.1 hp
    by_cases hb : '{' ∈ p.2
    · simp [h p.1 p.2 hg hb]
    · simp [hb]

theorem List.enum_split {α : Type} (l : List α) (i : Nat) (x : α) (h : l.get? i = some x) :
    ∃ A B, l.enum = A ++ (i, x) :: B ∧ ∀ p ∈ B, i < p.1 ∧ l.get? p.1 = some p.2 := by
  have hi : i < l.length := by
    by_contra hc
    rw [List.get?_eq_none.2 (by omega)] at h
    cases h
  have hx : l[i] = x := by
    rw [List.get?_eq_getElem?, List.getElem?_eq_getElem hi] at h
    exact Option.some.inj h
  have hl : l = l.take i ++ x :: l.drop (i + 1) := by
    rw [← hx, List.cons_getElem_drop_succ, List.take_append_drop]
  have hlen : (l.take i).length = i := by
    rw [List.length_take]
    omega
  have he : l.enum = (l.take i).enum ++ (i, x) :: List.enumFrom (i + 1) (l.drop (i + 1)) := by
    conv_lhs => rw [hl]
    rw [List.enum_append, hlen, List.enumFrom_cons]
  refine ⟨_, _, he, ?_⟩
  intro p hp
  have hm : p ∈ l.enum := by
    rw [he]
    exact List.mem_append_right _ (List.mem_cons_of_mem _ hp)
  refine ⟨?_, ?_⟩
  · obtain ⟨j, y⟩ := p
    have := (List.mk_mem_enumFrom_iff_le_and_getElem?_sub).1 hp
    exact this.1
  · rw [List.get?_eq_getElem?]
    exact List.mem_enum_iff_getElem?.1 hm

theorem List.getLast?_filter_split {α : Type} (p : α → Bool) (A B : List α) (x : α)
    (hx : p x = true) (hB : ∀ y ∈ B, p y = false) :
    ((A ++ x :: B).filter p).getLast? = some x := by
  have hf : B.filter p = [] := by
    rw [List.filter_eq_nil_iff]
    intro y hy
    simp [hB y hy]
  rw [List.filter_append, List.filter_cons_of_pos hx, hf]
  simp

theorem GoMap.foldl_set_eq_nil {K V : Type} [DecidableEq K] (ps : List (K × V)) :
    (ps.foldl (fun m p => GoMap.set m p.1 p.2) ([] : GoMap K V)).length = 0 ↔ ps = [] := by
  constructor
  · intro h
    cases ps with
    | nil => rfl
    | cons p ps =>
      have hk := (GoMap.mem_keys_foldl_set (p :: ps) p.1 ([] : GoMap K V)).2
        (Or.inl ⟨p, List.mem_cons_self _ _, rfl⟩)
      rw [List.length_eq_zero] at h
      rw [h] at hk
      simp [GoMap.keys] at hk
  · intro h
    rw [h]
    rfl

theorem GoMap.get?_eq_none_iff {K V : Type} [DecidableEq K] (m : GoMap K V) (k : K) :
    m.get? k = none ↔ k ∉ m.keys := by
  rw [← GoMap.contains_iff_mem_keys]
  unfold GoMap.contains
  cases m.get? k <;> simp

/-- The value `GetParams` stores under a query key. -/
theorem parameters_get?_query (urlObj : URL) (hq : urlObj.Query.keys.Nodup)
    (es : List (String × String)) (key : String) (values : List String)
    (h : urlObj.Query.get? key = some values) :
    GoMap.get? ((es ++ queryEntries urlObj).foldl (fun m p => GoMap.set m p.1 p.2)
      ([] : GoMap String String)) key = some (strings.Join values) := by
  have hm : (key, values) ∈ urlObj.Query := (GoMap.mem_iff_get? urlObj.Query hq key values).2 h
  have hm' : (key, strings.Join values) ∈ queryEntries urlObj := by
    unfold queryEntries
    exact List.mem_map.2 ⟨(key, values), hm, rfl⟩
  rw [List.foldl_append]
  obtain ⟨v, hv, hvm⟩ := GoMap.get?_foldl_set_of_mem (queryEntries urlObj) key
    (strings.Join values) (es.foldl (fun m p => GoMap.set m p.1 p.2) []) hm'
  rw [hv]
  unfold queryEntries at hvm
  obtain ⟨⟨k', values'⟩, hin, e⟩ := List.mem_map.1 hvm
  simp only [Prod.mk.injEq] at e
  obtain ⟨rfl, rfl⟩ := e
  have h' := (GoMap.mem_iff_get? urlObj.Query hq k' values').1 hin
  rw [h] at h'
  cases h'
  rfl

/-- The value `GetParams` stores under the name of a path parameter that no later
segment and no query key overrides. -/
theorem parameters_get?_path (urlObj : URL) (objectSpec objectPath : List (List Char))
    (index : Nat) (element segment : List Char)
    (hs : objectSpec.get? index = some element) (hb : '{' ∈ element)
    (hp : objectPath.get? index = some segment)
    (hq : urlObj.Query.get? (String.mk (strings.Trim element ['{', '}'])) = none)
    (hlast : ∀ later element', index < later → objectSpec.get? later = some element' →
      '{' ∈ element' → strings.Trim element' ['{', '}'] ≠ strings.Trim element ['{', '}']) :
    GoMap.get? ((specParameterEntries objectSpec objectPath ++ queryEntries urlObj).foldl
      (fun m p => GoMap.set m p.1 p.2) ([] : GoMap String String))
      (String.mk (strings.Trim element ['{', '}'])) = some (String.mk segment) := by
  rw [GoMap.get?_foldl_set, List.filter_append]
  have hqe : (queryEntries urlObj).filter
      (fun p => decide (p.1 = String.mk (strings.Trim element ['{', '}']))) = [] := by
    rw [List.filter_eq_nil_iff]
    rintro ⟨k, v⟩ hk
    simp only [decide_eq_true_eq]
    intro e
    have hn := (GoMap.get?_eq_none_iff urlObj.Query _).1 hq
    apply hn
    unfold queryEntries at hk
    obtain ⟨⟨k', values'⟩, hin, e'⟩ := List.mem_map.1 hk
    simp only [Prod.mk.injEq] at e'
    rw [← e, ← e'.1]
    exact List.mem_map.2 ⟨(k', values'), hin, rfl⟩
  rw [hqe, List.append_nil]
  obtain ⟨A, B, he, hB⟩ := List.enum_split objectSpec index element hs
  have hd : objectPath.getD index [] = segment := by
    rw [List.getD_eq_getElem?_getD, ← List.get?_eq_getElem?, hp]
    rfl
  unfold specParameterEntries
  rw [he, List.filter_map]
  have hl := List.getLast?_filter_split
    ((fun p : String × String => decide (p.1 = String.mk (strings.Trim element ['{', '}']))) ∘
      (fun p : Nat × List Char =>
        (String.mk (strings.Trim p.2 ['{', '}']), String.mk (objectPath.getD p.1 []))))
    (A.filter (fun p => decide ('{' ∈ p.2))) (B.filter (fun p => decide ('{' ∈ p.2)))
    (index, element) (by simp) (by
      intro y hy
      obtain ⟨hyB, hyb⟩ := List.mem_filter.1 hy
      obtain ⟨h1, h2⟩ := hB y hyB
      have := hlast y.1 y.2 h1 h2 (by simpa using hyb)
      simp only [Function.comp, decide_eq_false_iff_not]
      intro e
      apply this
      exact congrArg String.data e)
  rw [List.filter_append, List.filter_cons_of_pos (by simpa using hb), List.getLast?_map, hl]
  simp only [Option.map_some']
  rw [hd]

theorem specParameterEntries_eq_nil (objectSpec objectPath : List (List Char)) :
    specParameterEntries objectSpec objectPath = [] ↔ ∀ element ∈ objectSpec, '{' ∉ element := by
  unfold specParameterEntries
  rw [List.map_eq_nil_iff, List.filter_eq_nil_iff]
  constructor
  · intro h element he
    obtain ⟨index, hi, rfl⟩ := List.mem_iff_getElem.1 he
    have hm : (index, objectSpec[index]) ∈ objectSpec.enum :=
      List.mk_mem_enum_iff_getElem?.2 (List.getElem?_eq_getElem hi)
    simpa using h _ hm
  · intro h p hp
    have : p.2 ∈ objectSpec := by
      rw [← List.enum_map_snd objectSpec]
      exact List.mem_map.2 ⟨p, hp, rfl⟩
    simpa using h p.2 this

theorem mem_specParameterEntries (objectSpec objectPath : List (List Char))
    (p : String × String) (h : p ∈ specParameterEntries objectSpec objectPath) :
    ∃ index element, objectSpec.get? index = some element ∧ '{' ∈ element ∧
      String.mk (strings.Trim element ['{', '}']) = p.1 := by
  unfold specParameterEntries at h
  obtain ⟨q, hq, rfl⟩ := List.mem_map.1 h
  obtain ⟨hq1, hq2⟩ := List.mem_filter.1 hq
  refine ⟨q.1, q.2, ?_, by simpa using hq2, rfl⟩
  rw [List.get?_eq_getElem?]
  exact List.mem_enum_iff_getElem?.1 hq1

/-- C25 (amended): when the path parses as a URL whose path has a segment at the index
of every segment of the spec path that contains an opening brace, `GetParams` returns
the map `parameters`, or nil when it is empty; the map sends every query key to its
values joined by `,`; it sends the trimmed name of a segment with an opening brace to
the segment of the request path at the same index when no query key and no later such
segment has that name; every key is a query key or such a name; and the map is empty
exactly when there is no query key and no segment with an opening brace. For the spec
path of the balances api and the path
`/cosmos/bank/v1beta1/balances/lava1abc?pagination.limit=10` the result sends `addr`
to `lava1abc` and `pagination.limit` to `10`. -/
theorem C25_GetParams_map (urlParse : String → Option URL) (cp : RestMessage) :
    (∀ urlObj, urlParse cp.Path = some urlObj → urlObj.Query.keys.Nodup →
      (∀ index element, (strings.Split '/' cp.SpecPath.data).get? index = some element →
        '{' ∈ element → index < (strings.Split '/' urlObj.Path.data).length) →
      ∃ parameters : GoMap String String,
        GetParams urlParse cp =
          (if parameters.length = 0 then GetParamsResult.nil
            else GetParamsResult.parameters parameters) ∧
        (∀ key values, urlObj.Query.get? key = some values →
          parameters.get? key = some (strings.Join values)) ∧
        (∀ index element segment,
          (strings.Split '/' cp.SpecPath.data).get? index = some element → '{' ∈ element →
          (strings.Split '/' urlObj.Path.data).get? index = some segment →
          urlObj.Query.get? (String.mk (strings.Trim element ['{', '}'])) = none →
          (∀ later element', index < later →
            (strings.Split '/' cp.SpecPath.data).get? later = some element' → '{' ∈ element' →
            strings.Trim element' ['{', '}'] ≠ strings.Trim element ['{', '}']) →
          parameters.get? (String.mk (strings.Trim element ['{', '}'])) =
            some (String.mk segment)) ∧
        (∀ key, parameters.contains key = true →
          urlObj.Query.contains key = true ∨
          ∃ index element, (strings.Split '/' cp.SpecPath.data).get? index = some element ∧
            '{' ∈ element ∧ String.mk (strings.Trim element ['{', '}']) = key) ∧
        (parameters.length = 0 ↔
          urlObj.Query = [] ∧ ∀ element ∈ strings.Split '/' cp.SpecPath.data, '{' ∉ element)) ∧
    (urlParse balancesRequest.Path =
        some ⟨"/cosmos/bank/v1beta1/balances/lava1abc", [("pagination.limit", ["10"])]⟩ →
      balancesRequest.SpecPath = "/cosmos/bank/v1beta1/balances/\x7baddr\x7d" ∧
      GetParams urlParse balancesRequest =
        GetParamsResult.parameters [("addr", "lava1abc"), ("pagination.limit", "10")]) := by
  refine ⟨?_, ?_⟩
  · intro urlObj hparse hq hrange
    refine ⟨(specParameterEntries (strings.Split '/' cp.SpecPath.data)
      (strings.Split '/' urlObj.Path.data) ++ queryEntries urlObj).foldl
      (fun m p => GoMap.set m p.1 p.2) [], ?_, ?_, ?_, ?_, ?_⟩
    · rw [GetParams_eq urlParse cp urlObj hparse,
        if_pos ((segmentsInRange_iff _ _).2 hrange)]
    · intro key values hk
      exact parameters_get?_query urlObj hq _ key values hk
    · intro index element segment hs hb hp hqn hlast
      exact parameters_get?_path urlObj _ _ index element segment hs hb hp hqn hlast
    · intro key hk
      rw [GoMap.contains_iff_mem_keys, GoMap.mem_keys_foldl_set] at hk
      rcases hk with ⟨p, hp, rfl⟩ | hk
      · rcases List.mem_append.1 hp with hp | hp
        · exact Or.inr (mem_specParameterEntries _ _ p hp)
        · left
          rw [GoMap.contains_iff_mem_keys]
          unfold queryEntries at hp
          obtain ⟨q, hq', rfl⟩ := List.mem_map.1 hp
          exact List.mem_map.2 ⟨q, hq', rfl⟩
      · simp [GoMap.keys] at hk
    · rw [GoMap.foldl_set_eq_nil, List.append_eq_nil, specParameterEntries_eq_nil]
      unfold queryEntries
      rw [List.map_eq_nil_iff]
      exact And.comm
  · intro hparse
    refine ⟨rfl, ?_⟩
    unfold GetParams
    rw [hparse]
    decide

/-- C25, witness: the example URL parser on the request of the balances api; the path
parses, every indexed segment exists, and the map sends `pagination.limit` to `10` and
`addr` to `lava1abc`. -/
theorem C25_GetParams_witness :
    (∃ parameters : GoMap String String,
      GetParams simpleUrlParse balancesRequest =
        (if parameters.length = 0 then GetParamsResult.nil
          else GetParamsResult.parameters parameters) ∧
      parameters.get? "pagination.limit" = some "10" ∧
      parameters.get? "addr" = some "lava1abc") ∧
    GetParams simpleUrlParse balancesRequest =
      GetParamsResult.parameters [("addr", "lava1abc"), ("pagination.limit", "10")] := by
  have h := C25_GetParams_map simpleUrlParse balancesRequest
  refine ⟨?_, (h.2 (by decide)).2⟩
  obtain ⟨parameters, h1, h2, h3, -, -⟩ :=
    h.1 ⟨"/cosmos/bank/v1beta1/balances/lava1abc", [("pagination.limit", ["10"])]⟩
      (by decide) (by decide) ((segmentsInRange_iff _ _).1 (by decide))
  refine ⟨parameters, h1, h2 "pagination.limit" ["10"] (by decide), ?_⟩
  refine h3 5 "\x7baddr\x7d".data "lava1abc".data (by decide) (by decide) (by decide)
    (by decide) ?_
  intro later element' hlt hg
  have hlen : later < (strings.Split '/' balancesRequest.SpecPath.data).length := by
    by_contra hc
    rw [List.get?_eq_none.2 (by omega)] at hg
    cases hg
  have h6 : (strings.Split '/' balancesRequest.SpecPath.data).length = 6 := by decide
  omega

/-- C25, counterexample: for the spec path `/pair/{id}/{id}` and the path `/pair/a/b`
the result is the map that sends `id` to `b`: the segment `{id}` at index 2 is not sent
to the segment `a` at index 2 of the request path. -/
theorem C25_counterexample :
    GetParams simpleUrlParse ⟨"/pair/a/b", "/pair/\x7bid\x7d/\x7bid\x7d"⟩ =
      GetParamsResult.parameters [("id", "b")] ∧
    (strings.Split '/' "/pair/\x7bid\x7d/\x7bid\x7d".data).get? 2 = some "\x7bid\x7d".data ∧
    (strings.Split '/' "/pair/a/b".data).get? 2 = some "a".data := by
  decide

/-- C28 (amended): `GetParams` panics exactly when the path parses as a URL and some
segment of the spec path that contains an opening brace stands at an index at which
the URL path has no segment. So the call does not panic when the path does not parse,
and when the URL path has at least as many segments as the spec path. -/
theorem C28_GetParams_panics_iff (urlParse : String → Option URL) (cp : RestMessage) :
    (GetParams urlParse cp = GetParamsResult.panic ↔
      ∃ urlObj, urlParse cp.Path = some urlObj ∧
        ∃ index element, (strings.Split '/' cp.SpecPath.data).get? index = some element ∧
          '{' ∈ element ∧ (strings.Split '/' urlObj.Path.data).length ≤ index) ∧
    (urlParse cp.Path = none → GetParams urlParse cp = GetParamsResult.nil) ∧
    (∀ urlObj, urlParse cp.Path = some urlObj →
      (strings.Split '/' cp.SpecPath.data).length ≤ (strings.Split '/' urlObj.Path.data).length →
      GetParams urlParse cp ≠ GetParamsResult.panic) := by
  have key : ∀ urlObj, urlParse cp.Path = some urlObj →
      (GetParams urlParse cp = GetParamsResult.panic ↔
        ∃ index element, (strings.Split '/' cp.SpecPath.data).get? index = some element ∧
          '{' ∈ element ∧ (strings.Split '/' urlObj.Path.data).length ≤ index) := by
    intro urlObj hparse
    rw [GetParams_eq urlParse cp urlObj hparse]
    by_cases hr : segmentsInRange (strings.Split '/' cp.SpecPath.data)
        (strings.Split '/' urlObj.Path.data) = true
    · rw [if_pos hr]
      have hr' := (segmentsInRange_iff _ _).1 hr
      constructor
      · intro h
        split_ifs at h
      · rintro ⟨index, element, hs, hb, hle⟩
        have := hr' index element hs hb
        omega
    · rw [if_neg hr]
      refine ⟨fun _ => ?_, fun _ => rfl⟩
      rw [segmentsInRange_iff] at hr
      push_neg at hr
      obtain ⟨index, element, hs, hb, hle⟩ := hr
      exact ⟨index, element, hs, hb, hle⟩
  refine ⟨?_, ?_, ?_⟩
  · constructor
    · intro h
      cases hparse : urlParse cp.Path with
      | none =>
        unfold GetParams at h
        rw [hparse] at h
        cases h
      | some urlObj => exact ⟨urlObj, rfl, (key urlObj hparse).1 h⟩
    · rintro ⟨urlObj, hparse, h⟩
      exact (key urlObj hparse).2 h
  · intro hparse
    unfold GetParams
    rw [hparse]
  · intro urlObj hparse hlen h
    obtain ⟨index, element, hs, -, hle⟩ := (key urlObj hparse).1 h
    have hi : index < (strings.Split '/' cp.SpecPath.data).length := by
      by_contra hc
      rw [List.get?_eq_none.2 (by omega)] at hs
      cases hs
    omega

/-- C28, counterexample: the path `/a/v` has three segments, fewer than the four of the
spec path `/a/{x}/b`, and `GetParams` does not panic: it returns the map that sends `x`
to `v`. -/
theorem C28_counterexample :
    (strings.Split '/' "/a/v".data).length = 3 ∧
    (strings.Split '/' "/a/\x7bx\x7d/b".data).length = 4 ∧
    GetParams simpleUrlParse ⟨"/a/v", "/a/\x7bx\x7d/b"⟩ =
      GetParamsResult.parameters [("x", "v")] := by
  decide


/-! ### Matching a REST path -/

theorem compilePattern_literal (c : Char) (rest : List Char) (h1 : c ≠ '[') (h2 : c ≠ '\\') :
    compilePattern (c :: rest) = PatternToken.literal c :: compilePattern rest := by
  rw [compilePattern.eq_def]
  split
  · next heq => simp only [List.cons.injEq] at heq; exact absurd heq.1 h1
  · next heq => simp only [List.cons.injEq] at heq; exact absurd heq.1 h2
  · next heq =>
      simp only [List.cons.injEq] at heq
      obtain ⟨rfl, rfl⟩ := heq
      rfl
  · next heq => cases heq

theorem compilePattern_escaped (c : Char) (rest : List Char) :
    compilePattern ('\\' :: c :: rest) = PatternToken.literal c :: compilePattern rest := by
  rw [compilePattern.eq_def]
  split
  · next heq => simp only [List.cons.injEq] at heq; exact absurd heq.1 (by decide)
  · next heq =>
      simp only [List.cons.injEq] at heq
      obtain ⟨-, rfl, rfl⟩ := heq
      rfl
  · next h heq =>
      simp only [List.cons.injEq] at heq
      obtain ⟨rfl, rfl⟩ := heq
      exact absurd rfl (fun e => h c rest rfl e)
  · next heq => cases heq

theorem compilePattern_segment (rest : List Char) :
    compilePattern ("[^\\/\\s]+".data ++ rest) =
      PatternToken.segment :: compilePattern rest := by
  show compilePattern ('[' :: '^' :: '\\' :: '/' :: '\\' :: 's' :: ']' :: '+' :: rest) = _
  rw [compilePattern]

theorem expandTokens_cons_literal (f : Char → List Char) (seg : List Char) (c : Char)
    (tokens : List PatternToken) :
    expandTokens f seg (PatternToken.literal c :: tokens) = f c ++ expandTokens f seg tokens :=
  rfl

theorem expandTokens_cons_segment (f : Char → List Char) (seg : List Char)
    (tokens : List PatternToken) :
    expandTokens f seg (PatternToken.segment :: tokens) = seg ++ expandTokens f seg tokens :=
  rfl

/-- Reading the final pattern gives back the pieces. -/
theorem compilePattern_expandTokens (tokens : List PatternToken) :
    compilePattern (expandTokens quoteChar "[^\\/\\s]+".data tokens) = tokens := by
  induction tokens with
  | nil => rfl
  | cons t ts ih =>
    cases t with
    | segment => rw [expandTokens_cons_segment, compilePattern_segment, ih]
    | literal c =>
      rw [expandTokens_cons_literal]
      by_cases hc : c ∈ ['\\', '.', '+', '*', '?', '(', ')', '|', '[', ']', '{', '}', '^', '$']
      · have hq : quoteChar c = ['\\', c] := by
          unfold quoteChar
          rw [if_pos hc]
        rw [hq, List.cons_append, List.cons_append, List.nil_append,
          compilePattern_escaped, ih]
      · have hq : quoteChar c = [c] := by
          unfold quoteChar
          rw [if_neg hc]
        rw [hq, List.cons_append, List.nil_append,
          compilePattern_literal c _ (fun e => hc (by simp [e])) (fun e => hc (by simp [e])),
          ih]

/-- The first replacement of `restApiName` puts the placeholder text at the path
variables. -/
theorem replacePathVariables_eq (n : Nat) :
    ∀ l : List Char, replacePathVariables n l =
      expandTokens (fun c => [c]) placeholderText (nameTokens n l) := by
  induction n with
  | zero =>
    intro l
    simp only [replacePathVariables, nameTokens, expandTokens, List.flatMap_map]
    induction l with
    | nil => rfl
    | cons c cs ih => simp
  | succ n ih =>
    intro l
    cases l with
    | nil => rfl
    | cons c cs =>
      unfold replacePathVariables nameTokens
      split_ifs with hc
      · cases hb : matchBraceBody cs with
        | none =>
          simp only
          rw [expandTokens_cons_literal, ih]
          rfl
        | some rest =>
          simp only
          rw [expandTokens_cons_segment, ih]
      · rw [expandTokens_cons_literal, ih]
        rfl

/-- Quoting keeps the placeholder text and quotes the literal characters. -/
theorem QuoteMeta_expandTokens (tokens : List PatternToken) :
    regexp.QuoteMeta (expandTokens (fun c => [c]) placeholderText tokens) =
      expandTokens quoteChar placeholderText tokens := by
  have happ : ∀ a b : List Char,
      regexp.QuoteMeta (a ++ b) = regexp.QuoteMeta a ++ regexp.QuoteMeta b := by
    intro a b
    unfold regexp.QuoteMeta
    rw [List.flatMap_append]
  induction tokens with
  | nil => rfl
  | cons t ts ih =>
    cases t with
    | segment =>
      rw [expandTokens_cons_segment, expandTokens_cons_segment, happ, ih]
      have : regexp.QuoteMeta placeholderText = placeholderText := by decide
      rw [this]
    | literal c =>
      rw [expandTokens_cons_literal, expandTokens_cons_literal, happ, ih]
      have : regexp.QuoteMeta [c] = quoteChar c := by
        simp [regexp.QuoteMeta, quoteChar]
      rw [this]

theorem strings.ReplaceAll_nil (old new : List Char) (n : Nat) :
    strings.ReplaceAll old new n [] = [] := by
  cases n <;> rfl

theorem strings.ReplaceAll_prefix (o : Char) (os new rest : List Char) (n : Nat) :
    strings.ReplaceAll (o :: os) new (n + 1) ((o :: os) ++ rest) =
      new ++ strings.ReplaceAll (o :: os) new n rest := by
  have hp : (o :: os).isPrefixOf (o :: (os ++ rest)) = true := by
    rw [← List.cons_append, List.isPrefixOf_iff_prefix]
    exact List.prefix_append _ _
  rw [List.cons_append, strings.ReplaceAll, if_pos hp, ← List.cons_append, List.drop_left]

theorem strings.ReplaceAll_not_prefix (old new : List Char) (c : Char) (cs : List Char)
    (n : Nat) (h : old.isPrefixOf (c :: cs) = false) :
    strings.ReplaceAll old new (n + 1) (c :: cs) = c :: strings.ReplaceAll old new n cs := by
  rw [strings.ReplaceAll, if_neg (by simp [h])]

theorem strings.ReplaceAll_placeholder (new rest : List Char) (n : Nat) :
    strings.ReplaceAll placeholderText new (n + 1) (placeholderText ++ rest) =
      new ++ strings.ReplaceAll placeholderText new n rest :=
  strings.ReplaceAll_prefix 'r' "eplace-me-with-regex".data new rest n

/-- The second replacement of `restApiName` puts the class of a path segment where the
placeholder text stands for a path variable, when the placeholder text starts nowhere
else. -/
theorem ReplaceAll_expandTokens (new : List Char) (tokens : List PatternToken)
    (h : placeholderOnlyAtVariables tokens = true) :
    ∀ n, (expandTokens quoteChar placeholderText tokens).length ≤ n →
      strings.ReplaceAll placeholderText new n (expandTokens quoteChar placeholderText tokens) =
        expandTokens quoteChar new tokens := by
  induction tokens with
  | nil =>
    intro n _
    exact strings.ReplaceAll_nil _ _ _
  | cons t ts ih =>
    intro n hn
    cases t with
    | segment =>
      have hts : placeholderOnlyAtVariables ts = true := h
      rw [expandTokens_cons_segment] at hn ⊢
      rw [List.length_append] at hn
      have hl : placeholderText.length = 21 := rfl
      obtain ⟨m, rfl⟩ : ∃ m, n = m + 1 := ⟨n - 1, by omega⟩
      rw [expandTokens_cons_segment, strings.ReplaceAll_placeholder, ih hts m (by omega)]
    | literal c =>
      have h' : (!placeholderText.isPrefixOf (c :: expandTokens quoteChar placeholderText ts) &&
          placeholderOnlyAtVariables ts) = true := h
      rw [Bool.and_eq_true, Bool.not_eq_true'] at h'
      obtain ⟨hc, hts⟩ := h'
      rw [expandTokens_cons_literal] at hn ⊢
      rw [expandTokens_cons_literal, List.length_append] at *
      by_cases hq : c ∈ ['\\', '.', '+', '*', '?', '(', ')', '|', '[', ']', '{', '}', '^', '$']
      · have hqc : quoteChar c = ['\\', c] := by
          unfold quoteChar
          rw [if_pos hq]
        rw [hqc] at hn ⊢
        simp only [List.length_cons, List.length_nil] at hn
        obtain ⟨m, rfl⟩ : ∃ m, n = m + 2 := ⟨n - 2, by omega⟩
        rw [List.cons_append, List.cons_append, List.nil_append,
          strings.ReplaceAll_not_prefix placeholderText new '\\' _ _ rfl,
          strings.ReplaceAll_not_prefix _ _ _ _ _ hc, ih hts m (by omega)]
        rfl
      · have hqc : quoteChar c = [c] := by
          unfold quoteChar
          rw [if_neg hq]
        rw [hqc] at hn ⊢
        simp only [List.length_cons, List.length_nil] at hn
        obtain ⟨m, rfl⟩ : ∃ m, n = m + 1 := ⟨n - 1, by omega⟩
        rw [List.cons_append, List.nil_append,
          strings.ReplaceAll_not_prefix _ _ _ _ _ hc, ih hts m (by omega)]
        rfl

/-- The pattern `getServiceApis` builds from the name of a REST api reads as the pieces
of the name, when the placeholder text starts at no literal character of the name. -/
theorem restApiName_tokens (name : String)
    (h : placeholderOnlyAtVariables (nameTokens name.data.length name.data) = true) :
    compilePattern (restApiName name).data = nameTokens name.data.length name.data := by
  unfold restApiName
  simp only
  rw [replacePathVariables_eq, QuoteMeta_expandTokens,
    ReplaceAll_expandTokens _ _ h _ (Nat.le_refl _), compilePattern_expandTokens]

theorem matchTokens_literal (c x : Char) (tokens : List PatternToken) (xs : List Char) :
    matchTokens (PatternToken.literal c :: tokens) (x :: xs) =
      (decide (x = c) && matchTokens tokens xs) := by
  rw [matchTokens]

theorem matchTokens_segment (x : Char) (tokens : List PatternToken) (xs : List Char) :
    matchTokens (PatternToken.segment :: tokens) (x :: xs) =
      (isSegmentChar x &&
        (matchTokens tokens xs || matchTokens (PatternToken.segment :: tokens) xs)) := by
  rw [matchTokens]

theorem IsInstance_of_matchTokens (s : List Char) :
    ∀ tokens : List PatternToken, matchTokens tokens s = true → IsInstance tokens s := by
  induction s with
  | nil =>
    intro tokens h
    cases tokens with
    | nil => exact IsInstance.nil
    | cons t ts => simp [matchTokens] at h
  | cons x xs ih =>
    intro tokens h
    cases tokens with
    | nil => simp [matchTokens] at h
    | cons t ts =>
      cases t with
      | literal c =>
        rw [matchTokens_literal, Bool.and_eq_true, decide_eq_true_eq] at h
        obtain ⟨rfl, h2⟩ := h
        exact IsInstance.literal x ts xs (ih ts h2)
      | segment =>
        rw [matchTokens_segment, Bool.and_eq_true, Bool.or_eq_true] at h
        obtain ⟨hx, h2 | h2⟩ := h
        · exact IsInstance.segment [x] ts xs (by simp) (by simpa using hx) (ih ts h2)
        · have hi := ih _ h2
          cases hi with
          | segment run _ s hne hall hrest =>
            have := IsInstance.segment (x :: run) ts s (by simp)
              (by
                intro y hy
                rcases List.mem_cons.1 hy with e | e
                · rw [e]; exact hx
                · exact hall y e) hrest
            exact this

theorem matchTokens_of_IsInstance (tokens : List PatternToken) (s : List Char)
    (h : IsInstance tokens s) : matchTokens tokens s = true := by
  induction h with
  | nil => rfl
  | literal c ts s _ ih =>
    rw [matchTokens_literal, ih]
    simp
  | segment run ts s hne hall _ ih =>
    induction run with
    | nil => exact absurd rfl hne
    | cons x r ihr =>
      have hx : isSegmentChar x = true := hall x (List.mem_cons_self _ _)
      rw [List.cons_append, matchTokens_segment, hx, Bool.true_and, Bool.or_eq_true]
      cases r with
      | nil => exact Or.inl ih
      | cons y r' =>
        exact Or.inr (ihr (by simp) (fun z hz => hall z (List.mem_cons_of_mem _ hz)))

/-- The matcher accepts exactly the instances of the pieces. -/
theorem matchTokens_iff (tokens : List PatternToken) (s : List Char) :
    matchTokens tokens s = true ↔ IsInstance tokens s :=
  ⟨IsInstance_of_matchTokens s tokens, matchTokens_of_IsInstance tokens s⟩

/-- For the name of a REST api at whose literal characters the placeholder text does not
start, the anchored pattern `getServiceApis` builds matches a path exactly when the
path is the name with every path variable replaced by a non-empty run of characters
other than the slash and white space. -/
theorem regexpMatch_restApiName_iff (name path : String)
    (h : placeholderOnlyAtVariables (nameTokens name.data.length name.data) = true) :
    regexpMatch (restApiName name) path = true ↔
      IsInstance (nameTokens name.data.length name.data) path.data := by
  unfold regexpMatch
  rw [restApiName_tokens name h, matchTokens_iff]

/-- C21: the api name `/replace-me-with-regex` has no path variable, so only the path
`/replace-me-with-regex` is the name with every path variable replaced; yet the pattern
`getServiceApis` builds from it is `/[^\/\s]+`, which matches the path `/abc`. The
pattern of `/cosmos/bank/v1beta1/balances/{addr}` matches
`/cosmos/bank/v1beta1/balances/lava1xyz` and does not match
`/cosmos/bank/v1beta1/balances/lava1xyz/by-denom/uatom`. -/
theorem C21_placeholder_text_in_name_matches_any_segment :
    nameTokens 22 "/replace-me-with-regex".data =
      "/replace-me-with-regex".data.map PatternToken.literal ∧
    matchTokens (nameTokens 22 "/replace-me-with-regex".data) "/abc".data = false ∧
    restApiName "/replace-me-with-regex" = "/[^\\/\\s]+" ∧
    regexpMatch (restApiName "/replace-me-with-regex") "/abc" = true ∧
    regexpMatch (restApiName "/cosmos/bank/v1beta1/balances/\x7baddr\x7d")
      "/cosmos/bank/v1beta1/balances/lava1xyz" = true ∧
    regexpMatch (restApiName "/cosmos/bank/v1beta1/balances/\x7baddr\x7d")
      "/cosmos/bank/v1beta1/balances/lava1xyz/by-denom/uatom" = false ∧
    matchSpecApiByName "/cosmos/bank/v1beta1/balances/lava1xyz" "GET"
        (parserOf emptyParser bankSpec "rest").serverApis =
      some ⟨⟨true, "/cosmos/bank/v1beta1/balances/\x7baddr\x7d", 10, 0, false⟩,
        ⟨"GET", "", ""⟩⟩ := by
  decide


/-! ### Where the claims on versions and REST patterns hold -/

/-- Below the limits the encoding preserves the order: for two dotted triples whose
minor and revision are below `10000` and whose encodings are below `2^63`, the results
of `versionToInteger` compare as the components do lexicographically. -/
theorem versionToInteger_order_below_limit (v w : String) (s0 s1 s2 t0 t1 t2 : List Char)
    (hv : isDottedTriple v.data s0 s1 s2) (hw : isDottedTriple w.data t0 t1 t2)
    (hs1 : decimalValue s1 < 10000) (hs2 : decimalValue s2 < 10000)
    (ht1 : decimalValue t1 < 10000) (ht2 : decimalValue t2 < 10000)
    (hs : encodedVersion s0 s1 s2 < 9223372036854775808)
    (ht : encodedVersion t0 t1 t2 < 9223372036854775808) :
    ∃ n m : Int, versionToInteger v = Except.ok n ∧ versionToInteger w = Except.ok m ∧
      (n < m ↔ decimalValue s0 < decimalValue t0 ∨
        (decimalValue s0 = decimalValue t0 ∧ (decimalValue s1 < decimalValue t1 ∨
          (decimalValue s1 = decimalValue t1 ∧ decimalValue s2 < decimalValue t2)))) := by
  have hs0 : decimalValue s0 < 18446744073709551616 := by
    unfold encodedVersion at hs
    omega
  have ht0 : decimalValue t0 < 18446744073709551616 := by
    unfold encodedVersion at ht
    omega
  have es : encodedVersion s0 s1 s2 % 18446744073709551616 = encodedVersion s0 s1 s2 :=
    Nat.mod_eq_of_lt (by omega)
  have et : encodedVersion t0 t1 t2 % 18446744073709551616 = encodedVersion t0 t1 t2 :=
    Nat.mod_eq_of_lt (by omega)
  refine ⟨_, _, versionToInteger_of_triple v s0 s1 s2 hv hs0,
    versionToInteger_of_triple w t0 t1 t2 hw ht0, ?_⟩
  rw [es, et, wrapInt64_of_range _ (by omega) (by omega),
    wrapInt64_of_range _ (by omega) (by omega)]
  unfold encodedVersion
  omega

theorem IsInstance_literals (l : List Char) (tokens : List PatternToken) (s : List Char) :
    IsInstance (l.map PatternToken.literal ++ tokens) s ↔
      ∃ rest, s = l ++ rest ∧ IsInstance tokens rest := by
  induction l generalizing s with
  | nil => simp
  | cons c cs ih =>
    constructor
    · intro h
      rw [List.map_cons, List.cons_append] at h
      cases h with
      | literal _ _ s' h' =>
        obtain ⟨rest, rfl, hr⟩ := (ih s').1 h'
        exact ⟨rest, rfl, hr⟩
    · rintro ⟨rest, rfl, hr⟩
      rw [List.map_cons, List.cons_append, List.cons_append]
      exact IsInstance.literal c _ _ ((ih _).2 ⟨rest, rfl, hr⟩)

theorem IsInstance_segment (s : List Char) :
    IsInstance [PatternToken.segment] s ↔ s ≠ [] ∧ ∀ x ∈ s, isSegmentChar x = true := by
  constructor
  · intro h
    cases h with
    | segment run _ s' hne hall hrest =>
      cases hrest
      rw [List.append_nil]
      exact ⟨hne, hall⟩
  · rintro ⟨hne, hall⟩
    have := IsInstance.segment s [] [] hne hall IsInstance.nil
    rwa [List.append_nil] at this

/-- The pattern of the balances api matches exactly the paths that continue
`/cosmos/bank/v1beta1/balances/` by a non-empty run of characters other than the slash
and white space. -/
theorem regexpMatch_balances_iff (path : String) :
    regexpMatch (restApiName "/cosmos/bank/v1beta1/balances/\x7baddr\x7d") path = true ↔
      ∃ run : List Char, path.data = "/cosmos/bank/v1beta1/balances/".data ++ run ∧
        run ≠ [] ∧ ∀ x ∈ run, isSegmentChar x = true := by
  rw [regexpMatch_restApiName_iff _ _ (by decide)]
  have ht : nameTokens "/cosmos/bank/v1beta1/balances/\x7baddr\x7d".data.length
      "/cosmos/bank/v1beta1/balances/\x7baddr\x7d".data =
      "/cosmos/bank/v1beta1/balances/".data.map PatternToken.literal ++
        [PatternToken.segment] := by
    decide
  rw [ht, IsInstance_literals]
  simp only [IsInstance_segment]

end Lava
